import Mathlib

/-!
# TinyPointers: a shallow embedding of the tiny-pointer tables

The C sources `tiny_ptr_simple.c`, `tiny_ptr_fixed.c`, `tiny_ptr_variable.c` and
`tiny_ptr_unified.c` are embedded as pure functions on explicit table states.

Conventions of the embedding:

* `size_t` is 64 bits wide, `int` is 32 bits wide and `uint32_t` is 32 bits wide.  Unsigned
  values are naturals reduced modulo the width, `int` values are integers.
* A result of type `Option α` is `none` when the C call has no defined result: it indexes an
  array out of bounds, shifts by an out-of-range amount, divides by zero, or runs a loop that
  never terminates.  Loops are run with a fuel that is large enough for every terminating run.
* A pointer that may be `NULL` is an `Option`; `malloc`/`calloc` are taken to succeed.  The
  functions of the three variants are embedded on non-null tables (their sub-table pointers are
  never `NULL`); the `NULL` guards are embedded in the facade functions.
* The mutexes are not part of the state: every function is one atomic step.
* A `double` is given by its exact value (`Frac`, with a zero denominator for the infinities and
  NaN).  The conversion `(double) capacity` and the division by the load factor in
  `simple_create_ex` round to the nearest `double`, ties to even (`round_to_double`).  The
  product `total_capacity * 0.90` in `fixed_create` is taken as `total_capacity * 9 / 10`.
* The source keeps a bucket index in an `int`.  The properties are stated for tables with at
  most `2^31` buckets, where that `int` holds every bucket index; this bound is a field of `WF`
  and a premise of the reachability relations.
-/

namespace TinyPointers

/-! ## Machine integers -/

/-- Conversion of an integer to `uint32_t` (reduction modulo `2^32`). -/
def to_uint32 (x : Int) : Nat := (x % 4294967296).toNat

/-- Conversion of an unsigned value to `int` (two's complement, 32 bits). -/
def to_int32 (n : Nat) : Int :=
  if n % 4294967296 < 2147483648 then ((n % 4294967296 : Nat) : Int)
  else ((n % 4294967296 : Nat) : Int) - 4294967296

/-- Conversion of an `int` to `size_t` (reduction modulo `2^64`). -/
def to_size_t (x : Int) : Nat := (x % 18446744073709551616).toNat

/-- Reading `a[i]` with an `int` index; `none` when the index is outside the array. -/
def arr_read {α : Type} (a : List α) (i : Int) : Option α :=
  if 0 ≤ i then a[i.toNat]? else none

/-- Reading `a[i]` with a `size_t` index; `none` when the index is outside the array. -/
def arr_get {α : Type} (a : List α) (i : Nat) : Option α := a[i]?

/-- Writing `a[i] = v` with a `size_t` index; `none` when the index is outside the array. -/
def arr_set {α : Type} (a : List α) (i : Nat) (v : α) : Option (List α) :=
  if i < a.length then some (a.set i v) else none

/-- Writing `a[i] = v` with an `int` index; `none` when the index is outside the array. -/
def arr_write {α : Type} (a : List α) (i : Int) (v : α) : Option (List α) :=
  if 0 ≤ i then arr_set a i.toNat v else none

/-- A `double`, given by its exact value: with `den > 0` it is the finite number `num / den`;
with `den = 0` it is `+inf` when `num > 0`, `-inf` when `num < 0` and NaN when `num = 0`. -/
structure Frac where
  num : Int
  den : Nat
deriving DecidableEq, Repr

/-- The comparison `x <= 0` of a `double` with zero; it is false for NaN. -/
def double_le_zero (x : Frac) : Bool :=
  if x.den = 0 then decide (x.num < 0) else decide (x.num ≤ 0)

/-- The comparison `x > 1.0` of a `double` with one; it is false for NaN. -/
def double_gt_one (x : Frac) : Bool :=
  if x.den = 0 then decide (0 < x.num) else decide ((x.den : Int) < x.num)

/-- The loop that counts the halvings of `a` down to 1; the first argument is a fuel. -/
def nat_log2_loop : Nat → Nat → Nat
  | 0, _ => 0
  | fuel + 1, a => if a < 2 then 0 else nat_log2_loop fuel (a / 2) + 1

/-- The floor of the binary logarithm of `a ≥ 1`: the `k` with `2^k ≤ a < 2^(k+1)`. -/
def nat_log2 (a : Nat) : Nat := nat_log2_loop a a

/-- The `double` nearest to the rational `n / d ≥ 1` (`d > 0`), ties to the even significand,
returned as a fraction whose denominator is a power of two.  With `2^k ≤ n / d < 2^(k+1)` the
`double`s of that binade are the multiples of `2^(k-52)`.  Overflow to `+inf` is not modelled:
a value above the largest `double` is returned as it is. -/
def round_to_double (n d : Nat) : Nat × Nat :=
  let k := nat_log2 (n / d)
  if 52 ≤ k then
    let u := 2 ^ (k - 52)
    let m := n / (d * u)
    let r := n % (d * u)
    let m := if d * u < 2 * r ∨ (2 * r = d * u ∧ m % 2 = 1) then m + 1 else m
    (m * u, 1)
  else
    let s := 2 ^ (52 - k)
    let m := n * s / d
    let r := n * s % d
    let m := if d < 2 * r ∨ (2 * r = d ∧ m % 2 = 1) then m + 1 else m
    (m, s)

/-- The `double` literal `0.9`: the `double` nearest to 9/10, which is
`8106479329266893 / 2^53`. -/
def double_0_9 : Frac := ⟨8106479329266893, 9007199254740992⟩

/-! ## tiny_ptr_simple.c -/

/-- The constant `TINY_PTR_MAX_BUCKET_SIZE`. -/
def TINY_PTR_MAX_BUCKET_SIZE : Int := 32

/-- The function `hash_int_with_seed`: the MurmurHash3 finalizer applied to `key ^ seed`. -/
def hash_int_with_seed (key : Int) (seed : Nat) : Nat :=
  let h := to_uint32 key
  let h := h ^^^ seed
  let h := h ^^^ (h >>> 16)
  let h := (h * 0x85ebca6b) % 4294967296
  let h := h ^^^ (h >>> 13)
  let h := (h * 0xc2b2ae35) % 4294967296
  let h := h ^^^ (h >>> 16)
  h

/-- The compiler builtin `__builtin_ctz` on a non-zero word of at most `fuel` bits: the number
of trailing zero bits, counted from the least-significant bit upwards. -/
def ctz_loop : Nat → Nat → Nat
  | 0, _ => 0
  | fuel + 1, m => if m % 2 = 1 then 0 else ctz_loop fuel (m / 2) + 1

/-- The function `find_first_free`: `free_mask ? __builtin_ctz(free_mask) : -1`, the index of
the least-significant set bit of a 32-bit word, or `-1`. -/
def find_first_free (free_mask : Nat) : Int :=
  if free_mask ≠ 0 then ((ctz_loop 32 free_mask : Nat) : Int) else -1

/-- The loop of `next_power_of_two`, with `size_t` wrap-around of `power *= 2`. -/
def next_power_of_two_loop : Nat → Nat → Nat → Option Nat
  | 0, _, _ => none
  | fuel + 1, power, x =>
    if power < x then next_power_of_two_loop fuel (power * 2 % 18446744073709551616) x
    else some power

/-- The function `next_power_of_two`; `none` when the loop never terminates. -/
def next_power_of_two (x : Nat) : Option Nat := next_power_of_two_loop 65 1 x

/-- The loop `while (x >>= 1) log++` of `int_log2`. -/
def int_log2_loop : Nat → Int → Int → Option Int
  | 0, _, _ => none
  | fuel + 1, x, log =>
    if x >>> 1 ≠ 0 then int_log2_loop fuel (x >>> 1) (log + 1) else some log

/-- The function `int_log2`; `none` when the loop never terminates (negative argument). -/
def int_log2 (x : Int) : Option Int := int_log2_loop 32 x 0

/-- The structure `SimpleTable` (the mutex is left out). -/
structure SimpleTable where
  requested_capacity : Nat
  total_slots : Nat
  bucket_count : Nat
  bucket_size : Nat
  store : List Int
  keys : List Int
  bucket_free : List Nat
  hash_seed : Nat
  load_factor : Frac
deriving DecidableEq, Repr

/-- The value `(size_t) ceil((double) capacity / load_factor)` for a capacity of at least 1 and
a load factor that passed the argument check (a number in `(0, 1]`, or NaN): `capacity` is
rounded to a `double`, the quotient is rounded to a `double`, `ceil` is exact.  The result is
`none` when the conversion to `size_t` has no defined result: the load factor is NaN, or the
value does not fit `size_t`. -/
def min_slots_of (capacity : Nat) (load_factor : Frac) : Option Nat :=
  if load_factor.den = 0 then none
  else
    let c := round_to_double capacity 1
    let q := round_to_double (c.1 * load_factor.den) (c.2 * load_factor.num.toNat)
    let v := (q.1 + q.2 - 1) / q.2
    if v < 18446744073709551616 then some v else none

/-- The choice of `bucket_size` in `simple_create_ex`: `int_log2(capacity) / 2`, clamped to
`[8, TINY_PTR_MAX_BUCKET_SIZE]`; `none` when `int_log2` does not terminate. -/
def bucket_size_of (capacity : Nat) : Option Nat :=
  match int_log2 (to_int32 capacity) with
  | none => none
  | some bs =>
    let bs := bs / 2
    let bs := if bs < 8 then 8 else bs
    let bs := if bs > TINY_PTR_MAX_BUCKET_SIZE then TINY_PTR_MAX_BUCKET_SIZE else bs
    some (to_size_t bs)

/-- The function `simple_create_ex`.  The outer `none` is a call without a defined result, the
inner `none` is the `NULL` return. -/
def simple_create_ex (capacity : Nat) (load_factor : Frac) : Option (Option SimpleTable) :=
  if capacity = 0 ∨ double_le_zero load_factor = true ∨ double_gt_one load_factor = true then
    some none
  else
    match bucket_size_of capacity with
    | none => none
    | some bucket_size =>
      match min_slots_of capacity load_factor with
      | none => none
      | some min_slots =>
        match next_power_of_two
            (((min_slots + bucket_size - 1) % 18446744073709551616) / bucket_size) with
        | none => none
        | some bucket_count =>
          if bucket_size < 32 then
            some (some
              { requested_capacity := capacity
                total_slots := (bucket_count * bucket_size) % 18446744073709551616
                bucket_count := bucket_count
                bucket_size := bucket_size
                store := List.replicate ((bucket_count * bucket_size) % 18446744073709551616) 0
                keys := List.replicate ((bucket_count * bucket_size) % 18446744073709551616) (-1)
                bucket_free := List.replicate bucket_count ((1 <<< bucket_size) - 1)
                hash_seed := (capacity % 4294967296) ^^^ 0x9e3779b9
                load_factor := load_factor })
          else none

/-- The bucket selected for a key: `int bucket = h & (st->bucket_count - 1)` with
`h = hash_int_with_seed(key, st->hash_seed)`. -/
def bucket_of (st : SimpleTable) (key : Int) : Int :=
  to_int32 (hash_int_with_seed key st.hash_seed &&&
    ((st.bucket_count + 18446744073709551616 - 1) % 18446744073709551616))

/-- The slot index `bucket * st->bucket_size + offset`, computed in `size_t`. -/
def slot_index (st : SimpleTable) (bucket : Int) (offset : Int) : Nat :=
  (to_size_t bucket * st.bucket_size + to_size_t offset) % 18446744073709551616

/-- The word `~(1U << s)` for a shift amount below 32. -/
def not_bit (s : Nat) : Nat := 4294967295 ^^^ ((1 <<< s) % 4294967296)

/-- The function `simple_allocate` on a non-null table: the new state and the returned handle. -/
def simple_allocate (st : SimpleTable) (key value : Int) : Option (SimpleTable × Int) :=
  let bucket := bucket_of st key
  match arr_read st.bucket_free bucket with
  | none => none
  | some free_mask =>
    if free_mask = 0 then some (st, -1)
    else
      let slot_offset := find_first_free free_mask
      if slot_offset < 0 then some (st, -1)
      else
        match arr_write st.bucket_free bucket (free_mask &&& not_bit slot_offset.toNat) with
        | none => none
        | some masks =>
          let index := slot_index st bucket slot_offset
          match arr_set st.store index value with
          | none => none
          | some store =>
            match arr_set st.keys index key with
            | none => none
            | some keys =>
              some ({ st with bucket_free := masks, store := store, keys := keys }, slot_offset)

/-- The function `simple_dereference` on a non-null table. -/
def simple_dereference (st : SimpleTable) (key tiny_ptr : Int) : Option Int :=
  let bucket := bucket_of st key
  let index := slot_index st bucket tiny_ptr
  arr_get st.store index

/-- The function `simple_free` on a non-null table. -/
def simple_free (st : SimpleTable) (key tiny_ptr : Int) : Option SimpleTable :=
  let bucket := bucket_of st key
  let index := slot_index st bucket tiny_ptr
  match arr_set st.keys index (-1) with
  | none => none
  | some keys =>
    match arr_set st.store index 0 with
    | none => none
    | some store =>
      if 0 ≤ tiny_ptr ∧ tiny_ptr < 32 then
        match arr_read st.bucket_free bucket with
        | none => none
        | some m =>
          match arr_write st.bucket_free bucket (m ||| (1 <<< tiny_ptr.toNat)) with
          | none => none
          | some masks => some { st with keys := keys, store := store, bucket_free := masks }
      else none

/-- The function `simple_create`: `simple_create_ex` with the load factor `0.9`. -/
def simple_create (capacity : Nat) : Option (Option SimpleTable) :=
  simple_create_ex capacity double_0_9

/-- The body of the loop of `simple_resize` for one occupied slot of the old table: the entry is
placed in the new table.  The inner `none` is the saturated bucket, on which the resize fails. -/
def resize_insert (new_st : SimpleTable) (key value : Int) : Option (Option SimpleTable) :=
  let bucket := bucket_of new_st key
  match arr_read new_st.bucket_free bucket with
  | none => none
  | some free_mask =>
    if free_mask = 0 then some none
    else
      let slot_offset := find_first_free free_mask
      if slot_offset < 0 then some none
      else
        match arr_write new_st.bucket_free bucket (free_mask &&& not_bit slot_offset.toNat) with
        | none => none
        | some masks =>
          let new_index := slot_index new_st bucket slot_offset
          match arr_set new_st.store new_index value with
          | none => none
          | some store =>
            match arr_set new_st.keys new_index key with
            | none => none
            | some keys =>
              some (some { new_st with bucket_free := masks, store := store, keys := keys })

/-- The loop `for (i = 0; i < old_st->total_slots; i++)` of `simple_resize`; the first argument
counts the iterations that remain.  The inner `none` is the failed resize. -/
def simple_resize_loop (old_st : SimpleTable) :
    Nat → Nat → SimpleTable → Option (Option SimpleTable)
  | 0, _, new_st => some (some new_st)
  | n + 1, i, new_st =>
    match arr_get old_st.keys i with
    | none => none
    | some key =>
      if key ≠ -1 then
        match arr_get old_st.store i with
        | none => none
        | some value =>
          match resize_insert new_st key value with
          | none => none
          | some none => some none
          | some (some new_st1) => simple_resize_loop old_st n (i + 1) new_st1
      else simple_resize_loop old_st n (i + 1) new_st

/-- What a call of `simple_resize` leaves: the table behind `old_st` (`none` once it has been
destroyed) and the returned pointer (`none` for `NULL`). -/
structure ResizeResult where
  old_st : Option SimpleTable
  ret : Option SimpleTable
deriving DecidableEq, Repr

/-- The function `simple_resize` on a non-null table. -/
def simple_resize (old_st : SimpleTable) (new_capacity : Nat) : Option ResizeResult :=
  match simple_create_ex new_capacity old_st.load_factor with
  | none => none
  | some none => some { old_st := some old_st, ret := none }
  | some (some new_st) =>
    match simple_resize_loop old_st old_st.total_slots 0 new_st with
    | none => none
    | some none => some { old_st := some old_st, ret := none }
    | some (some new_st1) => some { old_st := none, ret := some new_st1 }

/-! ## tiny_ptr_fixed.c -/

/-- The structure `FixedTable` (the mutex is left out). -/
structure FixedTable where
  primary : SimpleTable
  secondary : SimpleTable
  primary_capacity : Nat
  secondary_capacity : Nat
deriving DecidableEq, Repr

/-- The function `fixed_create`; `(size_t)(total_capacity * 0.90)` is `total_capacity * 9 / 10`.
The `load_factor` argument is not used by the source. -/
def fixed_create (total_capacity : Nat) (_load_factor : Frac) : Option (Option FixedTable) :=
  let primary_capacity := total_capacity * 9 / 10
  let secondary_capacity := total_capacity - primary_capacity
  match simple_create primary_capacity with
  | none => none
  | some primary =>
    match simple_create secondary_capacity with
    | none => none
    | some secondary =>
      match primary, secondary with
      | some p, some s =>
        some (some { primary := p, secondary := s, primary_capacity := primary_capacity,
                     secondary_capacity := secondary_capacity })
      | _, _ => some none

/-- The function `fixed_allocate` on a non-null table. -/
def fixed_allocate (ft : FixedTable) (key value : Int) : Option (FixedTable × Int) :=
  match simple_allocate ft.primary key value with
  | none => none
  | some (p, tp) =>
    if tp ≠ -1 then some ({ ft with primary := p }, Int.lor (tp <<< 1) 0)
    else
      match simple_allocate ft.secondary key value with
      | none => none
      | some (s, tp) =>
        if tp ≠ -1 then some ({ ft with primary := p, secondary := s }, Int.lor (tp <<< 1) 1)
        else some ({ ft with primary := p, secondary := s }, -1)

/-- The function `fixed_dereference` on a non-null table. -/
def fixed_dereference (ft : FixedTable) (key tiny_ptr : Int) : Option Int :=
  let flag := Int.land tiny_ptr 1
  let offset := tiny_ptr >>> 1
  if flag = 0 then simple_dereference ft.primary key offset
  else simple_dereference ft.secondary key offset

/-- The function `fixed_free` on a non-null table. -/
def fixed_free (ft : FixedTable) (key tiny_ptr : Int) : Option FixedTable :=
  let flag := Int.land tiny_ptr 1
  let offset := tiny_ptr >>> 1
  if flag = 0 then
    match simple_free ft.primary key offset with
    | none => none
    | some p => some { ft with primary := p }
  else
    match simple_free ft.secondary key offset with
    | none => none
    | some s => some { ft with secondary := s }

/-! ## tiny_ptr_variable.c -/

/-- The structure `Container`. -/
structure Container where
  level_count : Nat
  levels : List SimpleTable
deriving DecidableEq, Repr

/-- The loop of `container_create` that creates the levels one after the other; the first
argument counts the iterations that remain. -/
def container_create_loop (level_capacity : Nat) :
    Nat → List SimpleTable → Option (Option (List SimpleTable))
  | 0, levels => some (some levels)
  | n + 1, levels =>
    match simple_create level_capacity with
    | none => none
    | some none => some none
    | some (some st) => container_create_loop level_capacity n (levels ++ [st])

/-- The function `container_create`. -/
def container_create (container_capacity level_count : Nat) : Option (Option Container) :=
  if level_count = 0 then none
  else
    let level_capacity := container_capacity / level_count
    let level_capacity := if level_capacity = 0 then 1 else level_capacity
    match container_create_loop level_capacity level_count [] with
    | none => none
    | some none => some none
    | some (some levels) => some (some { level_count := level_count, levels := levels })

/-- The structure `VariableTable` (the mutex is left out). -/
structure VariableTable where
  container_count : Nat
  containers : List Container
deriving DecidableEq, Repr

/-- The loop of `variable_create` that creates the containers; the first argument counts the
iterations that remain. -/
def variable_create_loop (container_capacity level_count : Nat) :
    Nat → List Container → Option (Option (List Container))
  | 0, containers => some (some containers)
  | n + 1, containers =>
    match container_create container_capacity level_count with
    | none => none
    | some none => some none
    | some (some c) => variable_create_loop container_capacity level_count n (containers ++ [c])

/-- The function `variable_create`.  Memory allocation is taken to succeed, also the request
of zero bytes that a `container_count` of 0 makes. -/
def variable_create (total_capacity container_capacity level_count : Nat) :
    Option (Option VariableTable) :=
  if container_capacity = 0 then none
  else
    let container_count :=
      ((total_capacity + container_capacity + 18446744073709551616 - 1) % 18446744073709551616)
        / container_capacity
    match variable_create_loop container_capacity level_count container_count [] with
    | none => none
    | some none => some none
    | some (some containers) =>
      some (some { container_count := container_count, containers := containers })

/-- The inline mixer of `variable_allocate` ("Simple hash for int keys"). -/
def variable_hash (key : Int) : Nat :=
  let k := to_uint32 key
  let k := k ^^^ (k >>> 16)
  let k := (k * 0x85ebca6b) % 4294967296
  let k := k ^^^ (k >>> 13)
  let k := (k * 0xc2b2ae35) % 4294967296
  let k := k ^^^ (k >>> 16)
  k

/-- The loop over the levels in `variable_allocate`; the first argument counts the iterations
that remain, the second is `level`.  The result is the container, `tp` and `level_found`. -/
def variable_allocate_loop (key value : Int) :
    Nat → Nat → Container → Option (Container × Int × Int)
  | 0, _, c => some (c, -1, -1)
  | n + 1, level, c =>
    match arr_get c.levels level with
    | none => none
    | some st =>
      match simple_allocate st key value with
      | none => none
      | some (st1, tp) =>
        if tp ≠ -1 then some ({ c with levels := c.levels.set level st1 }, tp, (level : Int))
        else variable_allocate_loop key value n (level + 1)
          { c with levels := c.levels.set level st1 }

/-- The encoding `((container_index & 0xFF) << 8) | ((level_found & 0xF) << 4) | (tp & 0xF)`. -/
def variable_encode (container_index level_found tp : Int) : Int :=
  Int.lor (Int.lor ((Int.land container_index 0xFF) <<< 8) ((Int.land level_found 0xF) <<< 4))
    (Int.land tp 0xF)

/-- The function `variable_allocate` on a non-null table. -/
def variable_allocate (vt : VariableTable) (key value : Int) : Option (VariableTable × Int) :=
  let h := variable_hash key
  if vt.container_count = 0 then none
  else
    let container_index := to_int32 (h % vt.container_count)
    match arr_read vt.containers container_index with
    | none => none
    | some c =>
      match variable_allocate_loop key value c.level_count 0 c with
      | none => none
      | some (c1, tp, level_found) =>
        let vt1 := { vt with containers := vt.containers.set container_index.toNat c1 }
        if tp ≠ -1 ∧ level_found ≠ -1 then
          some (vt1, variable_encode container_index level_found tp)
        else some (vt1, -1)

/-- The decoding `uint32_t container_index = (tiny_ptr >> 8) & 0xFF` of a Variable handle. -/
def handle_container (tiny_ptr : Int) : Nat := to_uint32 (Int.land (tiny_ptr >>> 8) 0xFF)

/-- The decoding `uint32_t level = (tiny_ptr >> 4) & 0xF` of a Variable handle. -/
def handle_level (tiny_ptr : Int) : Nat := to_uint32 (Int.land (tiny_ptr >>> 4) 0xF)

/-- The decoding `uint32_t tp = tiny_ptr & 0xF` of a Variable handle. -/
def handle_slot (tiny_ptr : Int) : Nat := to_uint32 (Int.land tiny_ptr 0xF)

/-- The function `variable_dereference` on a non-null table. -/
def variable_dereference (vt : VariableTable) (key tiny_ptr : Int) : Option Int :=
  let container_index := handle_container tiny_ptr
  let level := handle_level tiny_ptr
  let tp := handle_slot tiny_ptr
  match arr_get vt.containers container_index with
  | none => none
  | some c =>
    match arr_get c.levels level with
    | none => none
    | some st => simple_dereference st key (to_int32 tp)

/-- The function `variable_free` on a non-null table. -/
def variable_free (vt : VariableTable) (key tiny_ptr : Int) : Option VariableTable :=
  let container_index := handle_container tiny_ptr
  let level := handle_level tiny_ptr
  let tp := handle_slot tiny_ptr
  match arr_get vt.containers container_index with
  | none => none
  | some c =>
    match arr_get c.levels level with
    | none => none
    | some st =>
      match simple_free st key (to_int32 tp) with
      | none => none
      | some st1 =>
        some { vt with containers :=
          vt.containers.set container_index { c with levels := c.levels.set level st1 } }

/-! ## tiny_ptr_unified.c -/

/-- The enumeration `TinyPtrVariant`; `OTHER` stands for any value outside the three
enumerators, which the `default` branches handle. -/
inductive TinyPtrVariant where
  | TINY_PTR_SIMPLE
  | TINY_PTR_FIXED
  | TINY_PTR_VARIABLE
  | OTHER
deriving DecidableEq, Repr

/-- What the `void* table` field of the facade points to. -/
inductive AnyTable where
  | simple (st : SimpleTable)
  | fixed (ft : FixedTable)
  | variable (vt : VariableTable)
deriving DecidableEq, Repr

/-- The structure `tiny_ptr_table_t`. -/
structure tiny_ptr_table_t where
  variant : TinyPtrVariant
  table : AnyTable
deriving DecidableEq, Repr

/-- The function `tiny_ptr_create`. -/
def tiny_ptr_create (capacity : Nat) (variant : TinyPtrVariant) (load_factor : Frac) :
    Option (Option tiny_ptr_table_t) :=
  match variant with
  | .TINY_PTR_SIMPLE =>
    match simple_create_ex capacity load_factor with
    | none => none
    | some none => some none
    | some (some st) => some (some { variant := variant, table := .simple st })
  | .TINY_PTR_FIXED =>
    match fixed_create capacity load_factor with
    | none => none
    | some none => some none
    | some (some ft) => some (some { variant := variant, table := .fixed ft })
  | .TINY_PTR_VARIABLE =>
    let container_capacity := capacity / 4
    let container_capacity := if container_capacity = 0 then 1 else container_capacity
    let level_count := 4
    match variable_create capacity container_capacity level_count with
    | none => none
    | some none => some none
    | some (some vt) => some (some { variant := variant, table := .variable vt })
  | .OTHER => some none

/-- The function `tiny_ptr_allocate`: the table after the call and the returned handle.  A
`table` field that does not point to the variant named by the tag has no defined result. -/
def tiny_ptr_allocate (ut : Option tiny_ptr_table_t) (key value : Int) :
    Option (Option tiny_ptr_table_t × Int) :=
  match ut with
  | none => some (none, -1)
  | some t =>
    match t.variant, t.table with
    | .TINY_PTR_SIMPLE, .simple st =>
      (simple_allocate st key value).map
        (fun r => (some { t with table := .simple r.1 }, r.2))
    | .TINY_PTR_FIXED, .fixed ft =>
      (fixed_allocate ft key value).map
        (fun r => (some { t with table := .fixed r.1 }, r.2))
    | .TINY_PTR_VARIABLE, .variable vt =>
      (variable_allocate vt key value).map
        (fun r => (some { t with table := .variable r.1 }, r.2))
    | .OTHER, _ => some (some t, -1)
    | _, _ => none

/-- The function `tiny_ptr_dereference`. -/
def tiny_ptr_dereference (ut : Option tiny_ptr_table_t) (key tiny_ptr : Int) : Option Int :=
  match ut with
  | none => some (-1)
  | some t =>
    match t.variant, t.table with
    | .TINY_PTR_SIMPLE, .simple st => simple_dereference st key tiny_ptr
    | .TINY_PTR_FIXED, .fixed ft => fixed_dereference ft key tiny_ptr
    | .TINY_PTR_VARIABLE, .variable vt => variable_dereference vt key tiny_ptr
    | .OTHER, _ => some (-1)
    | _, _ => none

/-- The function `tiny_ptr_free`: the table after the call. -/
def tiny_ptr_free (ut : Option tiny_ptr_table_t) (key tiny_ptr : Int) :
    Option (Option tiny_ptr_table_t) :=
  match ut with
  | none => some none
  | some t =>
    match t.variant, t.table with
    | .TINY_PTR_SIMPLE, .simple st =>
      (simple_free st key tiny_ptr).map (fun r => some { t with table := .simple r })
    | .TINY_PTR_FIXED, .fixed ft =>
      (fixed_free ft key tiny_ptr).map (fun r => some { t with table := .fixed r })
    | .TINY_PTR_VARIABLE, .variable vt =>
      (variable_free vt key tiny_ptr).map (fun r => some { t with table := .variable r })
    | .OTHER, _ => some (some t)
    | _, _ => none

/-- The function `tiny_ptr_resize`.  The argument is `ut_ptr`: `none` is a null `ut_ptr`,
`some none` is a pointer to `NULL`.  The result is `*ut_ptr` after the call and the returned
code. -/
def tiny_ptr_resize (ut_ptr : Option (Option tiny_ptr_table_t)) (new_capacity : Nat) :
    Option (Option (Option tiny_ptr_table_t) × Int) :=
  match ut_ptr with
  | none => some (none, -1)
  | some none => some (some none, -1)
  | some (some ut) =>
    if ut.variant ≠ .TINY_PTR_SIMPLE then some (some (some ut), -1)
    else
      match ut.table with
      | .simple st =>
        match simple_resize st new_capacity with
        | none => none
        | some r =>
          match r.ret with
          | none =>
            match r.old_st with
            | none => none
            | some o => some (some (some { ut with table := .simple o }), -1)
          | some new_st => some (some (some { ut with table := .simple new_st }), 0)
      | _ => none

/-! ## Auxiliary notions used to state the properties -/

/-- Well-formedness of a Simple table: the geometry is consistent, the arrays have the sizes the
geometry names, every bucket index fits an `int`, and every free mask uses only its low
`bucket_size` bits. -/
structure WF (st : SimpleTable) : Prop where
  bucket_size_pos : 0 < st.bucket_size
  bucket_size_le : st.bucket_size ≤ 32
  bucket_count_pos : 0 < st.bucket_count
  bucket_count_le : st.bucket_count ≤ 2147483648
  total_eq : st.total_slots = st.bucket_count * st.bucket_size
  store_len : st.store.length = st.total_slots
  keys_len : st.keys.length = st.total_slots
  masks_len : st.bucket_free.length = st.bucket_count
  masks_lt : ∀ (b m : Nat), st.bucket_free[b]? = some m → m < 2 ^ st.bucket_size

/-- The bucket of a key as a natural number. -/
def bucket_nat (st : SimpleTable) (key : Int) : Nat :=
  hash_int_with_seed key st.hash_seed &&& (st.bucket_count - 1)

/-- The state that a successful `simple_allocate` leaves: slot `c` of bucket `b` is taken. -/
def alloc_state (st : SimpleTable) (b c : Nat) (m : Nat) (key value : Int) : SimpleTable :=
  { st with
    bucket_free := st.bucket_free.set b (m &&& not_bit c)
    store := st.store.set (b * st.bucket_size + c) value
    keys := st.keys.set (b * st.bucket_size + c) key }

/-- The state that `simple_free` leaves for slot `s` of bucket `b` whose mask was `m`. -/
def free_state (st : SimpleTable) (b s : Nat) (m : Nat) : SimpleTable :=
  { st with
    keys := st.keys.set (b * st.bucket_size + s) (-1)
    store := st.store.set (b * st.bucket_size + s) 0
    bucket_free := st.bucket_free.set b (m ||| (1 <<< s)) }

/-- The states of a Simple table that are reachable from `simple_create_ex` through
`simple_allocate` (with keys that satisfy `ok`), `simple_free` (with slot offsets below
`bucket_size`) and a successful `simple_resize`.  Tables are taken to have at most `2^31`
buckets, so that `int bucket` holds every bucket index. -/
inductive Reach (ok : Int → Prop) : SimpleTable → Prop
  | create (capacity : Nat) (lf : Frac) (st : SimpleTable) :
      simple_create_ex capacity lf = some (some st) → st.bucket_count ≤ 2147483648 →
      Reach ok st
  | allocate (st st1 : SimpleTable) (key value h : Int) :
      Reach ok st → ok key → simple_allocate st key value = some (st1, h) → Reach ok st1
  | free (st st1 : SimpleTable) (key s : Int) :
      Reach ok st → 0 ≤ s → s < st.bucket_size → simple_free st key s = some st1 →
      Reach ok st1
  | resize (st st1 : SimpleTable) (new_capacity : Nat) (r : ResizeResult) :
      Reach ok st → simple_resize st new_capacity = some r → r.ret = some st1 →
      st1.bucket_count ≤ 2147483648 → Reach ok st1

/-- Every slot whose free-mask bit is set holds the payload `0`. -/
def FreeZero (st : SimpleTable) : Prop :=
  ∀ (b i m : Nat), b < st.bucket_count → i < st.bucket_size →
    st.bucket_free[b]? = some m → m.testBit i = true →
    st.store[b * st.bucket_size + i]? = some 0

/-- A freshly created table with capacity 1 and load factor 0.9: one bucket of eight slots. -/
def demo_table : SimpleTable :=
  { requested_capacity := 1, total_slots := 8, bucket_count := 1, bucket_size := 8,
    store := [0, 0, 0, 0, 0, 0, 0, 0], keys := [-1, -1, -1, -1, -1, -1, -1, -1],
    bucket_free := [255], hash_seed := 2654435768, load_factor := double_0_9 }

/-- The table `demo_table` after `simple_allocate demo_table 5 7`: slot 0 holds `(5, 7)`. -/
def demo_table_one : SimpleTable :=
  { demo_table with store := [7, 0, 0, 0, 0, 0, 0, 0],
                    keys := [5, -1, -1, -1, -1, -1, -1, -1], bucket_free := [254] }

/-- The table `demo_table_one` after `simple_allocate demo_table_one 9 3`: slot 1 holds
`(9, 3)`. -/
def demo_table_two : SimpleTable :=
  { demo_table with store := [7, 3, 0, 0, 0, 0, 0, 0],
                    keys := [5, 9, -1, -1, -1, -1, -1, -1], bucket_free := [252] }

/-- Consecutive `simple_allocate` calls with one key and the listed values: the final state and
the handles returned, in order. -/
def allocate_seq (st : SimpleTable) (key : Int) : List Int → Option (SimpleTable × List Int)
  | [] => some (st, [])
  | v :: vs =>
    match simple_allocate st key v with
    | none => none
    | some (st1, h) =>
      match allocate_seq st1 key vs with
      | none => none
      | some (st2, hs) => some (st2, h :: hs)

/-- A table of capacity 8 (two buckets of eight slots) after eight allocations of key 1, which
hashes to bucket 0: bucket 0 is saturated and bucket 1 is entirely free. -/
def demo_saturated : SimpleTable :=
  { requested_capacity := 8, total_slots := 16, bucket_count := 2, bucket_size := 8,
    store := [1, 2, 3, 4, 5, 6, 7, 8, 0, 0, 0, 0, 0, 0, 0, 0],
    keys := [1, 1, 1, 1, 1, 1, 1, 1, -1, -1, -1, -1, -1, -1, -1, -1],
    bucket_free := [0, 255], hash_seed := 2654435761, load_factor := double_0_9 }

/-- What `simple_resize demo_table_one 8` returns: two buckets, `(5, 7)` in slot 0 of
bucket 1. -/
def demo_resized : SimpleTable :=
  { requested_capacity := 8, total_slots := 16, bucket_count := 2, bucket_size := 8,
    store := [0, 0, 0, 0, 0, 0, 0, 0, 7, 0, 0, 0, 0, 0, 0, 0],
    keys := [-1, -1, -1, -1, -1, -1, -1, -1, 5, -1, -1, -1, -1, -1, -1, -1],
    bucket_free := [255, 254], hash_seed := 2654435761, load_factor := double_0_9 }

/-- The table `demo_saturated` after `simple_allocate demo_saturated 0 9`: nine entries, one more
than a single bucket of eight slots holds. -/
def demo_nine : SimpleTable :=
  { demo_saturated with
    store := [1, 2, 3, 4, 5, 6, 7, 8, 9, 0, 0, 0, 0, 0, 0, 0],
    keys := [1, 1, 1, 1, 1, 1, 1, 1, 0, -1, -1, -1, -1, -1, -1, -1],
    bucket_free := [0, 254] }

/-- The states of a Fixed table that are reachable from `fixed_create` through `fixed_allocate`
and `fixed_free` with handles whose slot offset is below the `bucket_size` of the sub-table that
the flag bit names.  Both sub-tables are taken to have at most `2^31` buckets. -/
inductive FixedReach : FixedTable → Prop
  | create (total_capacity : Nat) (lf : Frac) (ft : FixedTable) :
      fixed_create total_capacity lf = some (some ft) →
      ft.primary.bucket_count ≤ 2147483648 → ft.secondary.bucket_count ≤ 2147483648 →
      FixedReach ft
  | allocate (ft ft1 : FixedTable) (key value h : Int) :
      FixedReach ft → fixed_allocate ft key value = some (ft1, h) → FixedReach ft1
  | free (ft ft1 : FixedTable) (key h : Int) :
      FixedReach ft → 0 ≤ h >>> 1 →
      h >>> 1 < (if Int.land h 1 = 0 then (ft.primary.bucket_size : Int)
                 else (ft.secondary.bucket_size : Int)) →
      fixed_free ft key h = some ft1 → FixedReach ft1

/-- The Fixed table that `fixed_create 2` returns: both sub-tables have capacity 1. -/
def demo_fixed : FixedTable :=
  { primary := demo_table, secondary := demo_table, primary_capacity := 1,
    secondary_capacity := 1 }

/-- A Variable handle names a level table of the table and a slot below its `bucket_size`. -/
def VarHandleOK (vt : VariableTable) (h : Int) : Prop :=
  ∃ cn st, arr_get vt.containers (handle_container h) = some cn ∧
    arr_get cn.levels (handle_level h) = some st ∧ handle_slot h < st.bucket_size

/-- The states of a Variable table that are reachable from
`variable_create total_capacity container_capacity level_count` through `variable_allocate` and
`variable_free` with handles that name a slot of the table. -/
inductive VarReach (total_capacity container_capacity level_count : Nat) :
    VariableTable → Prop
  | create (vt : VariableTable) :
      variable_create total_capacity container_capacity level_count = some (some vt) →
      VarReach total_capacity container_capacity level_count vt
  | allocate (vt vt1 : VariableTable) (key value h : Int) :
      VarReach total_capacity container_capacity level_count vt →
      variable_allocate vt key value = some (vt1, h) →
      VarReach total_capacity container_capacity level_count vt1
  | free (vt vt1 : VariableTable) (key h : Int) :
      VarReach total_capacity container_capacity level_count vt → VarHandleOK vt h →
      variable_free vt key h = some vt1 →
      VarReach total_capacity container_capacity level_count vt1

/-- Every level table is well-formed and has a bucket size that the 4-bit slot field holds. -/
def LevelsOK (levels : List SimpleTable) : Prop :=
  ∀ st ∈ levels, WF st ∧ st.bucket_size ≤ 16

/-- The invariant of a Variable table with `level_count` levels per container. -/
def VInv (level_count : Nat) (vt : VariableTable) : Prop :=
  vt.containers.length = vt.container_count ∧
  ∀ cn ∈ vt.containers, cn.level_count = level_count ∧ cn.levels.length = level_count ∧
    LevelsOK cn.levels

/-- The Variable table that `variable_create 257 1 1` returns: 257 containers of one level. -/
def demo_variable : VariableTable :=
  { container_count := 257,
    containers := List.replicate 257 { level_count := 1, levels := [demo_table] } }

/-- The table `demo_variable` after `variable_allocate demo_variable 364 7`: the entry is in
slot 0 of the level of container 256. -/
def demo_variable_one : VariableTable :=
  { demo_variable with
    containers := demo_variable.containers.set 256
      { level_count := 1,
        levels := [{ demo_table with store := [7, 0, 0, 0, 0, 0, 0, 0],
                                     keys := [364, -1, -1, -1, -1, -1, -1, -1],
                                     bucket_free := [254] }] } }

/-- Consecutive `variable_allocate` calls with one key and the listed values: the final state
and the handles returned, in order. -/
def variable_allocate_seq (vt : VariableTable) (key : Int) :
    List Int → Option (VariableTable × List Int)
  | [] => some (vt, [])
  | v :: vs =>
    match variable_allocate vt key v with
    | none => none
    | some (vt1, h) =>
      match variable_allocate_seq vt1 key vs with
      | none => none
      | some (vt2, hs) => some (vt2, h :: hs)

/-- On the table `variable_create 1 1 17` (one container of 17 levels with eight slots each),
key 5 is allocated 128 times with the values 1, ..., 128, which fills the levels 0 to 15, and
then once more with the value 999: the handle of that last allocation and what
`variable_dereference` returns for it. -/
def demo_levels_probe : Option (Int × Int) :=
  (variable_create 1 1 17).bind (fun o => o.bind (fun vt =>
    (variable_allocate_seq vt 5 ((List.range 128).map (fun i => (i : Int) + 1))).bind (fun p =>
      (variable_allocate p.1 5 999).bind (fun q =>
        (variable_dereference q.1 5 q.2).map (fun d => (q.2, d))))))

/-- The Variable table that the facade creates for capacity 1: one container of four levels. -/
def demo_variable_small : VariableTable :=
  { container_count := 1,
    containers := [{ level_count := 4,
                     levels := [demo_table, demo_table, demo_table, demo_table] }] }

/-- The table `demo_variable_small` after `variable_allocate demo_variable_small 5 7`. -/
def demo_variable_small_one : VariableTable :=
  { container_count := 1,
    containers := [{ level_count := 4,
                     levels := [demo_table_one, demo_table, demo_table, demo_table] }] }

/-- The load factor is a number in the interval `(0, 1]` (so neither NaN nor infinite). -/
@[reducible] def in_unit_interval (lf : Frac) : Prop := 0 < lf.num ∧ lf.num ≤ lf.den

/-- The load factor is NaN. -/
@[reducible] def is_nan (lf : Frac) : Prop := lf.den = 0 ∧ lf.num = 0

/-- A facade table whose `table` field points to the variant that the tag names and whose inner
tables are well formed; for a Variable table the containers and levels are within what a handle
encodes (at most 256 containers, at most 16 levels, buckets of at most 16 slots). -/
def FacadeOK (t : tiny_ptr_table_t) : Prop :=
  match t.variant, t.table with
  | .TINY_PTR_SIMPLE, .simple st => WF st
  | .TINY_PTR_FIXED, .fixed ft => WF ft.primary ∧ WF ft.secondary
  | .TINY_PTR_VARIABLE, .variable vt =>
    ∃ lc : Nat, lc ≤ 16 ∧ VInv lc vt ∧ vt.container_count ≤ 256
  | _, _ => False

/-- The table `demo_table` after `simple_allocate demo_table 5 (-7)`. -/
def demo_table_negative : SimpleTable :=
  { demo_table with store := [-7, 0, 0, 0, 0, 0, 0, 0],
                    keys := [5, -1, -1, -1, -1, -1, -1, -1], bucket_free := [254] }

/-- The MurmurHash3 32-bit finalizer in the words of the specification: `h ^= h >> 16;
h *= 0x85EBCA6B; h ^= h >> 13; h *= 0xC2B2AE35; h ^= h >> 16`, every step reduced modulo
`2^32`. -/
def murmur3_fmix32 (h : Nat) : Nat :=
  let h := (h ^^^ (h >>> 16)) % 4294967296
  let h := (h * 0x85EBCA6B) % 4294967296
  let h := (h ^^^ (h >>> 13)) % 4294967296
  let h := (h * 0xC2B2AE35) % 4294967296
  let h := (h ^^^ (h >>> 16)) % 4294967296
  h

/-- The value `x` clamped to the interval `[lo, hi]`. -/
def clamp (x lo hi : Nat) : Nat := if x < lo then lo else if hi < x then hi else x

/-- What `simple_create 18` returns: four buckets of eight slots. -/
def demo_eighteen : SimpleTable :=
  { requested_capacity := 18, total_slots := 32, bucket_count := 4, bucket_size := 8,
    store := List.replicate 32 0, keys := List.replicate 32 (-1),
    bucket_free := [255, 255, 255, 255], hash_seed := 2654435755, load_factor := double_0_9 }

/-- The bucket that the table selects for the key has no free slot: its mask is zero. -/
def saturated_for (st : SimpleTable) (k : Int) : Prop :=
  st.bucket_free[bucket_nat st k]? = some 0

/-! ## Lemmas on the Simple table -/

theorem bucket_nat_lt (st : SimpleTable) (key : Int) (h : 0 < st.bucket_count) :
    bucket_nat st key < st.bucket_count := by
  unfold bucket_nat
  have := @Nat.and_le_right (hash_int_with_seed key st.hash_seed) (st.bucket_count - 1)
  omega

theorem bucket_of_eq (st : SimpleTable) (key : Int) (h : 0 < st.bucket_count)
    (h2 : st.bucket_count ≤ 2147483648) : bucket_of st key = (bucket_nat st key : Int) := by
  have hlt := bucket_nat_lt st key h
  unfold bucket_of
  have e : (st.bucket_count + 18446744073709551616 - 1) % 18446744073709551616
      = st.bucket_count - 1 := by omega
  rw [e]
  unfold bucket_nat at hlt
  unfold to_int32 bucket_nat
  have : (hash_int_with_seed key st.hash_seed &&& (st.bucket_count - 1)) % 4294967296
      = hash_int_with_seed key st.hash_seed &&& (st.bucket_count - 1) := by
    apply Nat.mod_eq_of_lt; omega
  rw [this]
  rw [if_pos (by omega)]

theorem to_size_t_nat (n : Nat) (h : n < 18446744073709551616) : to_size_t (n : Int) = n := by
  unfold to_size_t
  omega

theorem slot_index_eq (st : SimpleTable) (b s : Nat) (hb : b < st.bucket_count)
    (hs : s < st.bucket_size) (h1 : st.bucket_count ≤ 2147483648) (h2 : st.bucket_size ≤ 32) :
    slot_index st (b : Int) (s : Int) = b * st.bucket_size + s := by
  unfold slot_index
  rw [to_size_t_nat b (by omega), to_size_t_nat s (by omega)]
  apply Nat.mod_eq_of_lt
  have : b * st.bucket_size ≤ 2147483648 * 32 := Nat.mul_le_mul (by omega) h2
  omega

theorem slot_lt_total (b s bc bs : Nat) (hb : b < bc) (hs : s < bs) : b * bs + s < bc * bs := by
  have : (b + 1) * bs ≤ bc * bs := Nat.mul_le_mul_right bs hb
  have e : (b + 1) * bs = b * bs + bs := by ring
  omega

theorem ctz_loop_spec : ∀ (fuel m : Nat), m ≠ 0 → m < 2 ^ fuel →
    m.testBit (ctz_loop fuel m) = true ∧ (∀ j, j < ctz_loop fuel m → m.testBit j = false) := by
  intro fuel
  induction fuel with
  | zero => intro m h0 hlt; simp at hlt; omega
  | succ n ih =>
    intro m h0 hlt
    unfold ctz_loop
    by_cases hodd : m % 2 = 1
    · rw [if_pos hodd]
      refine ⟨?_, fun j hj => by omega⟩
      simp [Nat.testBit_zero, hodd]
    · rw [if_neg hodd]
      have hm2 : m / 2 ≠ 0 := by omega
      have hlt2 : m / 2 < 2 ^ n := by
        rw [Nat.pow_succ] at hlt; omega
      obtain ⟨h1, h2⟩ := ih (m / 2) hm2 hlt2
      refine ⟨?_, ?_⟩
      · rw [Nat.testBit_succ]; exact h1
      · intro j hj
        cases j with
        | zero => simp [Nat.testBit_zero]; omega
        | succ j => rw [Nat.testBit_succ]; exact h2 j (by omega)

theorem ctz_lt (m n : Nat) (h0 : m ≠ 0) (hlt : m < 2 ^ n) (hn : n ≤ 32) :
    ctz_loop 32 m < n := by
  have hlt32 : m < 2 ^ 32 := lt_of_lt_of_le hlt (Nat.pow_le_pow_right (by decide) hn)
  obtain ⟨h1, _⟩ := ctz_loop_spec 32 m h0 hlt32
  by_contra hge
  have : m < 2 ^ (ctz_loop 32 m) :=
    lt_of_lt_of_le hlt (Nat.pow_le_pow_right (by decide) (by omega))
  rw [Nat.testBit_lt_two_pow this] at h1
  exact Bool.noConfusion h1

theorem testBit_not_bit (s j : Nat) (hs : s < 32) :
    (not_bit s).testBit j = (decide (j < 32) && !decide (j = s)) := by
  unfold not_bit
  have e : (1 <<< s) % 4294967296 = 2 ^ s := by
    rw [Nat.shiftLeft_eq, Nat.one_mul]
    apply Nat.mod_eq_of_lt
    calc 2 ^ s < 2 ^ 32 := Nat.pow_lt_pow_right (by decide) hs
      _ = 4294967296 := by norm_num
  rw [e, Nat.testBit_xor]
  have e2 : (4294967295 : Nat) = 2 ^ 32 - 1 := by norm_num
  rw [e2, Nat.testBit_two_pow_sub_one, Nat.testBit_two_pow]
  by_cases h1 : j < 32 <;> by_cases h2 : s = j <;> simp [h1, h2, eq_comm]
  omega

theorem testBit_clear (m s j : Nat) (hs : s < 32) (hm : m < 2 ^ 32) :
    (m &&& not_bit s).testBit j = (m.testBit j && !decide (j = s)) := by
  rw [Nat.testBit_land, testBit_not_bit s j hs]
  by_cases h1 : j < 32
  · simp [h1]
  · have : m.testBit j = false := by
      apply Nat.testBit_lt_two_pow
      exact lt_of_lt_of_le hm (Nat.pow_le_pow_right (by decide) (by omega))
    simp [this]

theorem clear_le (m s : Nat) : m &&& not_bit s ≤ m := Nat.and_le_left

theorem testBit_set (m s j : Nat) :
    (m ||| (1 <<< s)).testBit j = (m.testBit j || decide (j = s)) := by
  rw [Nat.testBit_lor, Nat.shiftLeft_eq, Nat.one_mul, Nat.testBit_two_pow]
  by_cases h : s = j <;> simp [h, eq_comm]

theorem set_lt (m s n : Nat) (hm : m < 2 ^ n) (hs : s < n) : m ||| (1 <<< s) < 2 ^ n := by
  apply Nat.lt_pow_two_of_testBit
  intro i hi
  rw [testBit_set]
  have : m.testBit i = false :=
    Nat.testBit_lt_two_pow (lt_of_lt_of_le hm (Nat.pow_le_pow_right (by decide) hi))
  simp [this]; omega

theorem mask_exists (st : SimpleTable) (hwf : WF st) (b : Nat) (hb : b < st.bucket_count) :
    ∃ m, st.bucket_free[b]? = some m ∧ m < 2 ^ st.bucket_size := by
  have hlen : b < st.bucket_free.length := by rw [hwf.masks_len]; exact hb
  refine ⟨st.bucket_free[b], ?_, ?_⟩
  · exact List.getElem?_eq_getElem hlen
  · exact hwf.masks_lt b _ (List.getElem?_eq_getElem hlen)

theorem simple_allocate_eq (st : SimpleTable) (hwf : WF st) (key value : Int) :
    ∃ m, st.bucket_free[bucket_nat st key]? = some m ∧ m < 2 ^ st.bucket_size ∧
      simple_allocate st key value =
        if m = 0 then some (st, -1)
        else some (alloc_state st (bucket_nat st key) (ctz_loop 32 m) m key value,
                   ((ctz_loop 32 m : Nat) : Int)) := by
  have hb := bucket_nat_lt st key hwf.bucket_count_pos
  obtain ⟨m, hm, hmlt⟩ := mask_exists st hwf _ hb
  refine ⟨m, hm, hmlt, ?_⟩
  unfold simple_allocate
  simp only [bucket_of_eq st key hwf.bucket_count_pos hwf.bucket_count_le]
  have hr : arr_read st.bucket_free (bucket_nat st key : Int) = some m := by
    unfold arr_read
    simp [hm]
  rw [hr]
  by_cases h0 : m = 0
  · simp [h0]
  · simp only [if_neg h0]
    have hc := ctz_lt m st.bucket_size h0 hmlt hwf.bucket_size_le
    have hff : find_first_free m = ((ctz_loop 32 m : Nat) : Int) := by
      unfold find_first_free; rw [if_pos h0]
    rw [hff]
    have hnn : ¬ (((ctz_loop 32 m : Nat) : Int) < 0) := by omega
    simp only [if_neg hnn, Int.toNat_ofNat]
    have hlen : bucket_nat st key < st.bucket_free.length := by rw [hwf.masks_len]; exact hb
    have hw : arr_write st.bucket_free (bucket_nat st key : Int) (m &&& not_bit (ctz_loop 32 m))
        = some (st.bucket_free.set (bucket_nat st key) (m &&& not_bit (ctz_loop 32 m))) := by
      unfold arr_write arr_set
      simp [hlen]
    rw [hw]
    simp only
    rw [slot_index_eq st _ _ hb hc hwf.bucket_count_le hwf.bucket_size_le]
    have hidx := slot_lt_total _ _ _ _ hb hc
    have hs : arr_set st.store (bucket_nat st key * st.bucket_size + ctz_loop 32 m) value
        = some (st.store.set (bucket_nat st key * st.bucket_size + ctz_loop 32 m) value) := by
      unfold arr_set
      rw [if_pos]
      rw [hwf.store_len, hwf.total_eq]; exact hidx
    have hk : arr_set st.keys (bucket_nat st key * st.bucket_size + ctz_loop 32 m) key
        = some (st.keys.set (bucket_nat st key * st.bucket_size + ctz_loop 32 m) key) := by
      unfold arr_set
      rw [if_pos]
      rw [hwf.keys_len, hwf.total_eq]; exact hidx
    rw [hs, hk]
    rfl

theorem simple_dereference_eq (st : SimpleTable) (hwf : WF st) (key : Int) (s : Nat)
    (hs : s < st.bucket_size) :
    simple_dereference st key (s : Int) = st.store[bucket_nat st key * st.bucket_size + s]? := by
  unfold simple_dereference arr_get
  simp only [bucket_of_eq st key hwf.bucket_count_pos hwf.bucket_count_le]
  rw [slot_index_eq st _ _ (bucket_nat_lt st key hwf.bucket_count_pos) hs hwf.bucket_count_le
    hwf.bucket_size_le]

theorem alloc_state_WF (st : SimpleTable) (hwf : WF st) (b c m : Nat) (key value : Int)
    (hm : m < 2 ^ st.bucket_size) : WF (alloc_state st b c m key value) := by
  refine ⟨hwf.bucket_size_pos, hwf.bucket_size_le, hwf.bucket_count_pos, hwf.bucket_count_le,
    hwf.total_eq, ?_, ?_, ?_, ?_⟩
  · simp [alloc_state, hwf.store_len]
  · simp [alloc_state, hwf.keys_len]
  · simp [alloc_state, hwf.masks_len]
  · intro b1 m1 h1
    simp only [alloc_state, List.getElem?_set] at h1
    by_cases hbb : b = b1
    · rw [if_pos hbb] at h1
      by_cases hl : b < st.bucket_free.length
      · rw [if_pos hl] at h1
        have : m1 = m &&& not_bit c := by injection h1 with h1; exact h1.symm
        rw [this]
        exact lt_of_le_of_lt (clear_le m c) hm
      · rw [if_neg hl] at h1; exact Option.noConfusion h1
    · rw [if_neg hbb] at h1
      exact hwf.masks_lt b1 m1 h1

theorem simple_allocate_WF (st : SimpleTable) (hwf : WF st) (key value : Int)
    (st1 : SimpleTable) (h : Int) (ha : simple_allocate st key value = some (st1, h)) :
    WF st1 := by
  obtain ⟨m, _, hmlt, heq⟩ := simple_allocate_eq st hwf key value
  rw [heq] at ha
  by_cases h0 : m = 0
  · rw [if_pos h0] at ha
    injection ha with ha
    injection ha with h1 h2
    rw [← h1]; exact hwf
  · rw [if_neg h0] at ha
    injection ha with ha
    injection ha with h1 h2
    rw [← h1]
    exact alloc_state_WF st hwf _ _ m key value hmlt

theorem next_power_of_two_loop_pos : ∀ (fuel power x r : Nat),
    next_power_of_two_loop fuel power x = some r → (0 < power ∨ 0 < x) → 0 < r := by
  intro fuel
  induction fuel with
  | zero => intro power x r h _; simp [next_power_of_two_loop] at h
  | succ n ih =>
    intro power x r h hp
    unfold next_power_of_two_loop at h
    by_cases hlt : power < x
    · rw [if_pos hlt] at h
      exact ih _ x r h (Or.inr (by omega))
    · rw [if_neg hlt] at h
      injection h with h
      omega

theorem next_power_of_two_pos (x r : Nat) (h : next_power_of_two x = some r) : 0 < r :=
  next_power_of_two_loop_pos 65 1 x r h (Or.inl (by decide))

theorem bucket_size_of_bounds (capacity B : Nat) (h : bucket_size_of capacity = some B) :
    8 ≤ B ∧ B ≤ 32 := by
  unfold bucket_size_of at h
  split at h
  · simp at h
  · rename_i bs hbs
    dsimp only at h
    injection h with h
    rw [← h]
    unfold to_size_t TINY_PTR_MAX_BUCKET_SIZE
    split <;> split <;> omega

theorem simple_create_ex_spec (capacity : Nat) (lf : Frac) (st : SimpleTable)
    (h : simple_create_ex capacity lf = some (some st)) :
    8 ≤ st.bucket_size ∧ st.bucket_size < 32 ∧ 0 < st.bucket_count ∧
    st.total_slots = (st.bucket_count * st.bucket_size) % 18446744073709551616 ∧
    st.store = List.replicate st.total_slots 0 ∧
    st.keys = List.replicate st.total_slots (-1) ∧
    st.bucket_free = List.replicate st.bucket_count (2 ^ st.bucket_size - 1) ∧
    st.requested_capacity = capacity ∧ st.load_factor = lf ∧
    st.hash_seed = (capacity % 4294967296) ^^^ 0x9e3779b9 := by
  unfold simple_create_ex at h
  split at h
  · simp at h
  · split at h
    · simp at h
    · rename_i B hB
      split at h
      · simp at h
      · rename_i min_slots hms
        split at h
        · simp at h
        · rename_i bc hbc
          split at h
          · rename_i hlt
            injection h with h
            injection h with h
            subst h
            have hpos := next_power_of_two_pos _ _ hbc
            refine ⟨(bucket_size_of_bounds _ _ hB).1, hlt, hpos, rfl, rfl, rfl, ?_, rfl, rfl, rfl⟩
            show List.replicate bc (1 <<< B - 1) = List.replicate bc (2 ^ B - 1)
            rw [Nat.shiftLeft_eq, Nat.one_mul]
          · simp at h

theorem simple_create_ex_WF (capacity : Nat) (lf : Frac) (st : SimpleTable)
    (h : simple_create_ex capacity lf = some (some st))
    (hbc : st.bucket_count ≤ 2147483648) : WF st := by
  obtain ⟨h8, h32, hpos, htot, hstore, hkeys, hmasks, _⟩ := simple_create_ex_spec capacity lf st h
  have htot2 : st.total_slots = st.bucket_count * st.bucket_size := by
    rw [htot]
    apply Nat.mod_eq_of_lt
    have : st.bucket_count * st.bucket_size ≤ 2147483648 * 32 :=
      Nat.mul_le_mul hbc (by omega)
    omega
  refine ⟨by omega, by omega, hpos, hbc, htot2, ?_, ?_, ?_, ?_⟩
  · rw [hstore]; simp
  · rw [hkeys]; simp
  · rw [hmasks]; simp
  · intro b m hm
    rw [hmasks, List.getElem?_replicate] at hm
    split at hm
    · injection hm with hm
      rw [← hm]
      have : 0 < 2 ^ st.bucket_size := Nat.two_pow_pos _
      omega
    · simp at hm

theorem simple_free_eq (st : SimpleTable) (hwf : WF st) (key : Int) (s : Nat)
    (hs : s < st.bucket_size) :
    ∃ m, st.bucket_free[bucket_nat st key]? = some m ∧ m < 2 ^ st.bucket_size ∧
      simple_free st key (s : Int) = some (free_state st (bucket_nat st key) s m) := by
  have hb := bucket_nat_lt st key hwf.bucket_count_pos
  obtain ⟨m, hm, hmlt⟩ := mask_exists st hwf _ hb
  refine ⟨m, hm, hmlt, ?_⟩
  unfold simple_free
  simp only [bucket_of_eq st key hwf.bucket_count_pos hwf.bucket_count_le]
  rw [slot_index_eq st _ _ hb hs hwf.bucket_count_le hwf.bucket_size_le]
  have hidx := slot_lt_total _ _ _ _ hb hs
  have hk : arr_set st.keys (bucket_nat st key * st.bucket_size + s) (-1)
      = some (st.keys.set (bucket_nat st key * st.bucket_size + s) (-1)) := by
    unfold arr_set
    rw [if_pos]
    rw [hwf.keys_len, hwf.total_eq]; exact hidx
  have hst : arr_set st.store (bucket_nat st key * st.bucket_size + s) 0
      = some (st.store.set (bucket_nat st key * st.bucket_size + s) 0) := by
    unfold arr_set
    rw [if_pos]
    rw [hwf.store_len, hwf.total_eq]; exact hidx
  rw [hk, hst]
  simp only
  have hrange : (0 : Int) ≤ (s : Int) ∧ (s : Int) < 32 := by
    have := hwf.bucket_size_le
    omega
  rw [if_pos hrange]
  have hr : arr_read st.bucket_free (bucket_nat st key : Int) = some m := by
    unfold arr_read
    simp [hm]
  rw [hr]
  have hlen : bucket_nat st key < st.bucket_free.length := by rw [hwf.masks_len]; exact hb
  have hw : arr_write st.bucket_free (bucket_nat st key : Int) (m ||| (1 <<< s))
      = some (st.bucket_free.set (bucket_nat st key) (m ||| (1 <<< s))) := by
    unfold arr_write arr_set
    simp [hlen]
  simp only [Int.toNat_ofNat]
  rw [hw]
  rfl

theorem free_state_WF (st : SimpleTable) (hwf : WF st) (b s m : Nat)
    (hm : m < 2 ^ st.bucket_size) (hs : s < st.bucket_size) : WF (free_state st b s m) := by
  refine ⟨hwf.bucket_size_pos, hwf.bucket_size_le, hwf.bucket_count_pos, hwf.bucket_count_le,
    hwf.total_eq, ?_, ?_, ?_, ?_⟩
  · simp [free_state, hwf.store_len]
  · simp [free_state, hwf.keys_len]
  · simp [free_state, hwf.masks_len]
  · intro b1 m1 h1
    simp only [free_state, List.getElem?_set] at h1
    by_cases hbb : b = b1
    · rw [if_pos hbb] at h1
      by_cases hl : b < st.bucket_free.length
      · rw [if_pos hl] at h1
        have : m1 = m ||| (1 <<< s) := by injection h1 with h1; exact h1.symm
        rw [this]
        exact set_lt m s _ hm hs
      · rw [if_neg hl] at h1; exact Option.noConfusion h1
    · rw [if_neg hbb] at h1
      exact hwf.masks_lt b1 m1 h1

theorem int_eq_nat (s : Int) (h : 0 ≤ s) : s = ((s.toNat : Nat) : Int) := by omega

theorem simple_free_WF (st : SimpleTable) (hwf : WF st) (key s : Int) (h0 : 0 ≤ s)
    (hs : s < st.bucket_size) (st1 : SimpleTable) (hf : simple_free st key s = some st1) :
    WF st1 := by
  rw [int_eq_nat s h0] at hf
  have hs2 : s.toNat < st.bucket_size := by omega
  obtain ⟨m, _, hmlt, heq⟩ := simple_free_eq st hwf key s.toNat hs2
  rw [heq] at hf
  injection hf with hf
  rw [← hf]
  exact free_state_WF st hwf _ _ m hmlt hs2

theorem slot_inj (bs b1 i1 b2 i2 : Nat) (h1 : i1 < bs) (h2 : i2 < bs)
    (h : b1 * bs + i1 = b2 * bs + i2) : b1 = b2 ∧ i1 = i2 := by
  have e1 : (b1 * bs + i1) / bs = b1 := by
    rw [Nat.mul_comm, Nat.mul_add_div (by omega), Nat.div_eq_of_lt h1]; rfl
  have e2 : (b2 * bs + i2) / bs = b2 := by
    rw [Nat.mul_comm, Nat.mul_add_div (by omega), Nat.div_eq_of_lt h2]; rfl
  have hb : b1 = b2 := by rw [← e1, ← e2, h]
  subst hb
  exact ⟨rfl, by omega⟩

theorem demo_table_created : simple_create_ex 1 double_0_9 = some (some demo_table) := by decide

theorem demo_table_WF : WF demo_table :=
  simple_create_ex_WF 1 double_0_9 demo_table demo_table_created (by decide)

theorem demo_table_one_WF : WF demo_table_one :=
  simple_allocate_WF demo_table demo_table_WF 5 7 demo_table_one 0 (by decide)

theorem simple_dereference_congr (st st1 : SimpleTable) (k h : Int)
    (hbc : st1.bucket_count = st.bucket_count) (hbs : st1.bucket_size = st.bucket_size)
    (hseed : st1.hash_seed = st.hash_seed) :
    simple_dereference st1 k h = st1.store[slot_index st (bucket_of st k) h]? := by
  unfold simple_dereference arr_get slot_index bucket_of
  rw [hbc, hbs, hseed]

/-- A state that differs from `st` in one slot `c` of one bucket `b` only. -/
theorem frame_core (st st1 : SimpleTable) (hwf : WF st) (b c m m1 : Nat) (x y : Int)
    (hc : c < st.bucket_size)
    (hbc : st1.bucket_count = st.bucket_count) (hbs : st1.bucket_size = st.bucket_size)
    (hseed : st1.hash_seed = st.hash_seed)
    (hk : st1.keys = st.keys.set (b * st.bucket_size + c) x)
    (hs : st1.store = st.store.set (b * st.bucket_size + c) y)
    (hm : st1.bucket_free = st.bucket_free.set b m1)
    (hold : st.bucket_free[b]? = some m)
    (hbits : ∀ j, j ≠ c → m1.testBit j = m.testBit j) :
    (∀ i : Nat, i ≠ b * st.bucket_size + c →
      st1.keys[i]? = st.keys[i]? ∧ st1.store[i]? = st.store[i]?) ∧
    (∀ (b2 j : Nat), ¬ (b2 = b ∧ j = c) →
      (st1.bucket_free[b2]?).map (fun w => w.testBit j)
        = (st.bucket_free[b2]?).map (fun w => w.testBit j)) ∧
    (∀ (k : Int) (h : Nat), h < st.bucket_size → ¬ (bucket_nat st k = b ∧ h = c) →
      simple_dereference st1 k h = simple_dereference st k h) := by
  have hframe : ∀ i : Nat, i ≠ b * st.bucket_size + c →
      st1.keys[i]? = st.keys[i]? ∧ st1.store[i]? = st.store[i]? := by
    intro i hi
    rw [hk, hs, List.getElem?_set, List.getElem?_set]
    rw [if_neg (fun e => hi e.symm), if_neg (fun e => hi e.symm)]
    exact ⟨rfl, rfl⟩
  refine ⟨hframe, ?_, ?_⟩
  · intro b2 j hne
    rw [hm, List.getElem?_set]
    by_cases hbb : b = b2
    · subst hbb
      rw [if_pos rfl]
      have hl : b < st.bucket_free.length := by
        by_contra hl
        rw [List.getElem?_eq_none (by omega)] at hold
        exact Option.noConfusion hold
      rw [if_pos hl, hold]
      have hj : j ≠ c := fun e => hne ⟨rfl, e⟩
      simp [hbits j hj]
    · rw [if_neg hbb]
  · intro k h hh hne
    rw [simple_dereference_congr st st1 k h hbc hbs hseed]
    rw [simple_dereference_eq st hwf k h hh]
    rw [bucket_of_eq st k hwf.bucket_count_pos hwf.bucket_count_le]
    rw [slot_index_eq st _ _ (bucket_nat_lt st k hwf.bucket_count_pos) hh hwf.bucket_count_le
      hwf.bucket_size_le]
    apply (hframe _ _).2
    intro e
    have := slot_inj _ _ _ _ _ hh hc e
    exact hne this

theorem alloc_state_frame (st : SimpleTable) (hwf : WF st) (b c m : Nat) (key value : Int)
    (hc : c < st.bucket_size) (hold : st.bucket_free[b]? = some m) :
    (∀ i : Nat, i ≠ b * st.bucket_size + c →
      (alloc_state st b c m key value).keys[i]? = st.keys[i]? ∧
      (alloc_state st b c m key value).store[i]? = st.store[i]?) ∧
    (∀ (b2 j : Nat), ¬ (b2 = b ∧ j = c) →
      ((alloc_state st b c m key value).bucket_free[b2]?).map (fun w => w.testBit j)
        = (st.bucket_free[b2]?).map (fun w => w.testBit j)) ∧
    (∀ (k : Int) (h : Nat), h < st.bucket_size → ¬ (bucket_nat st k = b ∧ h = c) →
      simple_dereference (alloc_state st b c m key value) k h = simple_dereference st k h) := by
  apply frame_core st (alloc_state st b c m key value) hwf b c m (m &&& not_bit c) key value hc
    rfl rfl rfl rfl rfl rfl hold
  intro j hj
  have hm32 : m < 2 ^ 32 :=
    lt_of_lt_of_le (hwf.masks_lt b m hold) (Nat.pow_le_pow_right (by decide) hwf.bucket_size_le)
  rw [testBit_clear m c j (by have := hwf.bucket_size_le; omega) hm32]
  simp [hj]

theorem free_state_frame (st : SimpleTable) (hwf : WF st) (b c m : Nat)
    (hc : c < st.bucket_size) (hold : st.bucket_free[b]? = some m) :
    (∀ i : Nat, i ≠ b * st.bucket_size + c →
      (free_state st b c m).keys[i]? = st.keys[i]? ∧
      (free_state st b c m).store[i]? = st.store[i]?) ∧
    (∀ (b2 j : Nat), ¬ (b2 = b ∧ j = c) →
      ((free_state st b c m).bucket_free[b2]?).map (fun w => w.testBit j)
        = (st.bucket_free[b2]?).map (fun w => w.testBit j)) ∧
    (∀ (k : Int) (h : Nat), h < st.bucket_size → ¬ (bucket_nat st k = b ∧ h = c) →
      simple_dereference (free_state st b c m) k h = simple_dereference st k h) := by
  apply frame_core st (free_state st b c m) hwf b c m (m ||| (1 <<< c)) (-1) 0 hc
    rfl rfl rfl rfl rfl rfl hold
  intro j hj
  rw [testBit_set]
  simp [hj]

/-- The inlined allocation of `simple_resize` computes what `simple_allocate` computes. -/
theorem resize_insert_allocate (st : SimpleTable) (key value : Int) :
    resize_insert st key value =
      match simple_allocate st key value with
      | none => none
      | some (st1, h) => if h = -1 then some none else some (some st1) := by
  unfold resize_insert simple_allocate
  dsimp only
  cases hr : arr_read st.bucket_free (bucket_of st key) with
  | none => rfl
  | some m =>
    dsimp only
    by_cases hz : m = 0
    · simp [hz]
    · simp only [if_neg hz]
      by_cases hneg : find_first_free m < 0
      · simp [hneg]
      · simp only [if_neg hneg]
        cases hw : arr_write st.bucket_free (bucket_of st key)
            (m &&& not_bit (find_first_free m).toNat) with
        | none => rfl
        | some masks =>
          dsimp only
          cases hs : arr_set st.store (slot_index st (bucket_of st key) (find_first_free m))
              value with
          | none => rfl
          | some store =>
            dsimp only
            cases hk : arr_set st.keys (slot_index st (bucket_of st key) (find_first_free m))
                key with
            | none => rfl
            | some keys =>
              dsimp only
              have : find_first_free m ≠ -1 := by omega
              rw [if_neg this]

/-- An invariant of the new table that every insertion preserves holds after the loop. -/
theorem simple_resize_loop_inv (P : SimpleTable → Prop) (old_st : SimpleTable)
    (hstep : ∀ st k v st1, P st → k ≠ -1 → resize_insert st k v = some (some st1) → P st1) :
    ∀ (n i : Nat) (new_st res : SimpleTable), P new_st →
      simple_resize_loop old_st n i new_st = some (some res) → P res := by
  intro n
  induction n with
  | zero =>
    intro i new_st res hp h
    simp only [simple_resize_loop] at h
    injection h with h
    injection h with h
    rw [← h]; exact hp
  | succ n ih =>
    intro i new_st res hp h
    unfold simple_resize_loop at h
    cases hk : arr_get old_st.keys i with
    | none => rw [hk] at h; exact Option.noConfusion h
    | some key =>
      rw [hk] at h
      simp only at h
      by_cases hne : key ≠ -1
      · rw [if_pos hne] at h
        cases hv : arr_get old_st.store i with
        | none => rw [hv] at h; exact Option.noConfusion h
        | some value =>
          rw [hv] at h
          simp only at h
          cases hi : resize_insert new_st key value with
          | none => rw [hi] at h; exact Option.noConfusion h
          | some o =>
            cases o with
            | none => rw [hi] at h; simp at h
            | some new_st1 =>
              rw [hi] at h
              simp only at h
              exact ih (i + 1) new_st1 res (hstep new_st key value new_st1 hp hne hi) h
      · rw [if_neg hne] at h
        exact ih (i + 1) new_st res hp h

theorem simple_allocate_bucket_count (st : SimpleTable) (key value : Int) (st1 : SimpleTable)
    (h : Int) (ha : simple_allocate st key value = some (st1, h)) :
    st1.bucket_count = st.bucket_count := by
  unfold simple_allocate at ha
  simp only at ha
  split at ha
  · exact Option.noConfusion ha
  · split at ha
    · injection ha with ha; injection ha with e _; rw [← e]
    · split at ha
      · injection ha with ha; injection ha with e _; rw [← e]
      · split at ha
        · exact Option.noConfusion ha
        · split at ha
          · exact Option.noConfusion ha
          · split at ha
            · exact Option.noConfusion ha
            · injection ha with ha; injection ha with e _; rw [← e]

theorem resize_insert_bucket_count (st : SimpleTable) (key value : Int) (st1 : SimpleTable)
    (h : resize_insert st key value = some (some st1)) :
    st1.bucket_count = st.bucket_count := by
  rw [resize_insert_allocate] at h
  cases ha : simple_allocate st key value with
  | none => rw [ha] at h; exact Option.noConfusion h
  | some p =>
    obtain ⟨st2, hh⟩ := p
    rw [ha] at h
    simp only at h
    split at h
    · simp at h
    · injection h with h
      injection h with h
      rw [← h]
      exact simple_allocate_bucket_count st key value st2 hh ha

/-- What a successful `simple_resize` returns: the result of the loop on a fresh table. -/
theorem simple_resize_success (old_st : SimpleTable) (n : Nat) (r : ResizeResult)
    (res : SimpleTable) (h : simple_resize old_st n = some r) (hret : r.ret = some res) :
    ∃ new_st, simple_create_ex n old_st.load_factor = some (some new_st) ∧
      simple_resize_loop old_st old_st.total_slots 0 new_st = some (some res) ∧
      new_st.bucket_count = res.bucket_count := by
  unfold simple_resize at h
  cases hc : simple_create_ex n old_st.load_factor with
  | none => rw [hc] at h; exact Option.noConfusion h
  | some o =>
    cases o with
    | none =>
      rw [hc] at h
      simp only at h
      injection h with h
      rw [← h] at hret
      exact Option.noConfusion hret
    | some new_st =>
      rw [hc] at h
      simp only at h
      cases hl : simple_resize_loop old_st old_st.total_slots 0 new_st with
      | none => rw [hl] at h; exact Option.noConfusion h
      | some o2 =>
        cases o2 with
        | none =>
          rw [hl] at h
          simp only at h
          injection h with h
          rw [← h] at hret
          exact Option.noConfusion hret
        | some new_st1 =>
          rw [hl] at h
          simp only at h
          injection h with h
          rw [← h] at hret
          simp only at hret
          injection hret with hret
          subst hret
          refine ⟨new_st, rfl, hl, ?_⟩
          exact (simple_resize_loop_inv (fun s => new_st.bucket_count = s.bucket_count) old_st
            (fun st k v st1 hp _ hi => by
              show new_st.bucket_count = st1.bucket_count
              rw [resize_insert_bucket_count st k v st1 hi]; exact hp)
            _ _ new_st new_st1 rfl hl)

theorem FreeZero_core (st st1 : SimpleTable) (hwf : WF st) (hfz : FreeZero st)
    (b c m m1 : Nat) (x y : Int) (hb : b < st.bucket_count) (hc : c < st.bucket_size)
    (hbc : st1.bucket_count = st.bucket_count) (hbs : st1.bucket_size = st.bucket_size)
    (hseed : st1.hash_seed = st.hash_seed)
    (hk : st1.keys = st.keys.set (b * st.bucket_size + c) x)
    (hs : st1.store = st.store.set (b * st.bucket_size + c) y)
    (hm : st1.bucket_free = st.bucket_free.set b m1)
    (hold : st.bucket_free[b]? = some m)
    (hbits : ∀ j, j ≠ c → m1.testBit j = m.testBit j)
    (hnew : m1.testBit c = true → y = 0) : FreeZero st1 := by
  obtain ⟨hslots, hmask, _⟩ :=
    frame_core st st1 hwf b c m m1 x y hc hbc hbs hseed hk hs hm hold hbits
  intro b2 i m2 hb2 hi hm2 hbit
  rw [hbc] at hb2
  rw [hbs] at hi
  rw [hbs]
  by_cases hsame : b2 = b ∧ i = c
  · obtain ⟨e1, e2⟩ := hsame
    subst e1; subst e2
    have hl : b2 < st.bucket_free.length := by rw [hwf.masks_len]; exact hb
    rw [hm, List.getElem?_set, if_pos rfl, if_pos hl] at hm2
    injection hm2 with hm2
    rw [← hm2] at hbit
    rw [hs, List.getElem?_set, if_pos rfl, if_pos, hnew hbit]
    rw [hwf.store_len, hwf.total_eq]
    exact slot_lt_total _ _ _ _ hb hc
  · have hmap := hmask b2 i hsame
    rw [hm2] at hmap
    obtain ⟨m0, hm0, _⟩ := mask_exists st hwf b2 hb2
    rw [hm0] at hmap
    simp only [Option.map_some', Option.some.injEq] at hmap
    have hold0 := hfz b2 i m0 hb2 hi hm0 (by rw [← hmap]; exact hbit)
    have hidx : b2 * st.bucket_size + i ≠ b * st.bucket_size + c := by
      intro e
      exact hsame (slot_inj _ _ _ _ _ hi hc e)
    rw [(hslots _ hidx).2]
    exact hold0

theorem alloc_state_FreeZero (st : SimpleTable) (hwf : WF st) (hfz : FreeZero st)
    (b c m : Nat) (key value : Int) (hb : b < st.bucket_count) (hc : c < st.bucket_size)
    (hold : st.bucket_free[b]? = some m) : FreeZero (alloc_state st b c m key value) := by
  have hm32 : m < 2 ^ 32 :=
    lt_of_lt_of_le (hwf.masks_lt b m hold) (Nat.pow_le_pow_right (by decide) hwf.bucket_size_le)
  have hc32 : c < 32 := by have := hwf.bucket_size_le; omega
  apply FreeZero_core st (alloc_state st b c m key value) hwf hfz b c m (m &&& not_bit c)
    key value hb hc rfl rfl rfl rfl rfl rfl hold
  · intro j hj
    rw [testBit_clear m c j hc32 hm32]
    simp [hj]
  · intro h
    rw [testBit_clear m c c hc32 hm32] at h
    simp at h

theorem free_state_FreeZero (st : SimpleTable) (hwf : WF st) (hfz : FreeZero st)
    (b c m : Nat) (hb : b < st.bucket_count) (hc : c < st.bucket_size)
    (hold : st.bucket_free[b]? = some m) : FreeZero (free_state st b c m) := by
  apply FreeZero_core st (free_state st b c m) hwf hfz b c m (m ||| (1 <<< c))
    (-1) 0 hb hc rfl rfl rfl rfl rfl rfl hold
  · intro j hj
    rw [testBit_set]
    simp [hj]
  · intro _; rfl

theorem simple_allocate_FreeZero (st : SimpleTable) (hwf : WF st) (hfz : FreeZero st)
    (key value : Int) (st1 : SimpleTable) (h : Int)
    (ha : simple_allocate st key value = some (st1, h)) : FreeZero st1 := by
  obtain ⟨m, hm, hmlt, heq⟩ := simple_allocate_eq st hwf key value
  rw [heq] at ha
  by_cases h0 : m = 0
  · rw [if_pos h0] at ha
    injection ha with ha
    injection ha with h1 h2
    rw [← h1]; exact hfz
  · rw [if_neg h0] at ha
    injection ha with ha
    injection ha with h1 h2
    rw [← h1]
    exact alloc_state_FreeZero st hwf hfz _ _ m key value
      (bucket_nat_lt st key hwf.bucket_count_pos)
      (ctz_lt m st.bucket_size h0 hmlt hwf.bucket_size_le) hm

theorem resize_insert_WF_FreeZero (st : SimpleTable) (key value : Int) (st1 : SimpleTable)
    (hp : WF st ∧ FreeZero st) (hi : resize_insert st key value = some (some st1)) :
    WF st1 ∧ FreeZero st1 := by
  rw [resize_insert_allocate] at hi
  cases ha : simple_allocate st key value with
  | none => rw [ha] at hi; exact Option.noConfusion hi
  | some p =>
    obtain ⟨st2, hh⟩ := p
    rw [ha] at hi
    simp only at hi
    split at hi
    · simp at hi
    · injection hi with hi
      injection hi with hi
      rw [← hi]
      exact ⟨simple_allocate_WF st hp.1 key value st2 hh ha,
        simple_allocate_FreeZero st hp.1 hp.2 key value st2 hh ha⟩

theorem simple_create_ex_FreeZero (capacity : Nat) (lf : Frac) (st : SimpleTable)
    (h : simple_create_ex capacity lf = some (some st)) (hwf : WF st) : FreeZero st := by
  obtain ⟨_, _, _, _, hstore, _⟩ := simple_create_ex_spec capacity lf st h
  intro b i m hb hi hm hbit
  rw [hstore, List.getElem?_replicate, if_pos]
  rw [hwf.total_eq]
  exact slot_lt_total _ _ _ _ hb hi

/-- Every reachable state is well-formed and keeps the payload of every free slot at 0. -/
theorem Reach_inv (ok : Int → Prop) (st : SimpleTable) (hr : Reach ok st) :
    WF st ∧ FreeZero st := by
  induction hr with
  | create capacity lf st h hbc =>
    have hwf := simple_create_ex_WF capacity lf st h hbc
    exact ⟨hwf, simple_create_ex_FreeZero capacity lf st h hwf⟩
  | allocate st st1 key value h _ _ ha ih =>
    exact ⟨simple_allocate_WF st ih.1 key value st1 h ha,
      simple_allocate_FreeZero st ih.1 ih.2 key value st1 h ha⟩
  | free st st1 key s _ h0 hs hf ih =>
    refine ⟨simple_free_WF st ih.1 key s h0 hs st1 hf, ?_⟩
    rw [int_eq_nat s h0] at hf
    have hs2 : s.toNat < st.bucket_size := by omega
    obtain ⟨m, hm, hmlt, heq⟩ := simple_free_eq st ih.1 key s.toNat hs2
    rw [heq] at hf
    injection hf with hf
    rw [← hf]
    exact free_state_FreeZero st ih.1 ih.2 _ _ m (bucket_nat_lt st key ih.1.bucket_count_pos)
      hs2 hm
  | resize st st1 n r _ hres hret hbc _ =>
    obtain ⟨new_st, hc, hl, hbeq⟩ := simple_resize_success st n r st1 hres hret
    have hwf0 := simple_create_ex_WF n st.load_factor new_st hc (by rw [hbeq]; exact hbc)
    have hfz0 := simple_create_ex_FreeZero n st.load_factor new_st hc hwf0
    exact simple_resize_loop_inv (fun s => WF s ∧ FreeZero s) st
      (fun s k v s1 hp _ hi => resize_insert_WF_FreeZero s k v s1 hp hi)
      _ _ new_st st1 ⟨hwf0, hfz0⟩ hl

/-- A successful `simple_allocate` on a well-formed table returns a slot offset below
`bucket_size`, and the slot then reads the value. -/
theorem alloc_handle (st : SimpleTable) (hwf : WF st) (key value : Int)
    (st1 : SimpleTable) (h : Int) (ha : simple_allocate st key value = some (st1, h))
    (hne : h ≠ -1) :
    ∃ c : Nat, h = (c : Int) ∧ c < st.bucket_size ∧ WF st1 ∧
      st1.bucket_size = st.bucket_size ∧ st1.bucket_count = st.bucket_count ∧
      simple_dereference st1 key (c : Int) = some value := by
  have hwf1 := simple_allocate_WF st hwf key value st1 h ha
  obtain ⟨m, _, hmlt, heq⟩ := simple_allocate_eq st hwf key value
  rw [heq] at ha
  by_cases h0 : m = 0
  · rw [if_pos h0] at ha
    injection ha with ha
    injection ha with h1 h2
    exact absurd h2.symm hne
  · rw [if_neg h0] at ha
    injection ha with ha
    injection ha with h1 h2
    have hc := ctz_lt m st.bucket_size h0 hmlt hwf.bucket_size_le
    subst h1
    refine ⟨ctz_loop 32 m, h2.symm, hc, hwf1, rfl, rfl, ?_⟩
    rw [simple_dereference_eq _ hwf1 key _ hc]
    have hb := bucket_nat_lt st key hwf.bucket_count_pos
    have hidx := slot_lt_total _ _ _ _ hb hc
    have e : bucket_nat (alloc_state st (bucket_nat st key) (ctz_loop 32 m) m key value) key
        = bucket_nat st key := rfl
    rw [e]
    simp only [alloc_state]
    rw [List.getElem?_set]
    simp
    rw [hwf.store_len, hwf.total_eq]; exact hidx

/-- Freeing a slot below `bucket_size` of a well-formed table succeeds and the slot then
reads 0. -/
theorem free_deref (st : SimpleTable) (hwf : WF st) (key : Int) (c : Nat)
    (hc : c < st.bucket_size) :
    ∃ st1, simple_free st key (c : Int) = some st1 ∧ WF st1 ∧
      st1.bucket_size = st.bucket_size ∧ st1.bucket_count = st.bucket_count ∧
      simple_dereference st1 key (c : Int) = some 0 := by
  obtain ⟨m, hm, hmlt, heq⟩ := simple_free_eq st hwf key c hc
  have hwf1 := free_state_WF st hwf (bucket_nat st key) c m hmlt hc
  refine ⟨free_state st (bucket_nat st key) c m, heq, hwf1, rfl, rfl, ?_⟩
  rw [simple_dereference_eq _ hwf1 key _ hc]
  have e : bucket_nat (free_state st (bucket_nat st key) c m) key = bucket_nat st key := rfl
  rw [e]
  simp only [free_state]
  rw [List.getElem?_set, if_pos rfl, if_pos]
  rw [hwf.store_len, hwf.total_eq]
  exact slot_lt_total _ _ _ _ (bucket_nat_lt st key hwf.bucket_count_pos) hc

theorem enc_primary (c : Nat) : Int.lor ((c : Int) <<< 1) 0 = ((2 * c : Nat) : Int) := by
  have h1 : (c : Int) <<< (1 : Int) = ((c <<< 1 : Nat) : Int) := Int.shiftLeft_coe_nat c 1
  rw [h1]
  show ((c <<< 1 ||| 0 : Nat) : Int) = _
  rw [Nat.or_zero, Nat.shiftLeft_eq]
  congr 1
  omega

theorem enc_secondary (c : Nat) : Int.lor ((c : Int) <<< 1) 1 = ((2 * c + 1 : Nat) : Int) := by
  have h1 : (c : Int) <<< (1 : Int) = ((c <<< 1 : Nat) : Int) := Int.shiftLeft_coe_nat c 1
  rw [h1]
  show ((c <<< 1 ||| 1 : Nat) : Int) = _
  congr 1
  have := Nat.mul_add_lt_is_or (i := 1) (b := 1) (by decide) c
  rw [Nat.shiftLeft_eq, Nat.mul_comm, ← this]

theorem dec_flag (n : Nat) : Int.land (n : Int) 1 = ((n % 2 : Nat) : Int) := by
  show ((n &&& 1 : Nat) : Int) = _
  rw [Nat.and_one_is_mod]

theorem dec_offset (n : Nat) : (n : Int) >>> 1 = ((n / 2 : Nat) : Int) := by
  have h1 : (n : Int) >>> (1 : Int) = ((n >>> 1 : Nat) : Int) := Int.shiftRight_coe_nat n 1
  rw [h1, Nat.shiftRight_eq_div_pow]

theorem fixed_create_spec (total_capacity : Nat) (lf : Frac) (ft : FixedTable)
    (h : fixed_create total_capacity lf = some (some ft)) :
    simple_create (total_capacity * 9 / 10) = some (some ft.primary) ∧
    simple_create (total_capacity - total_capacity * 9 / 10) = some (some ft.secondary) := by
  unfold fixed_create at h
  dsimp only at h
  cases h1 : simple_create (total_capacity * 9 / 10) with
  | none => rw [h1] at h; exact Option.noConfusion h
  | some p =>
    rw [h1] at h
    dsimp only at h
    cases h2 : simple_create (total_capacity - total_capacity * 9 / 10) with
    | none => rw [h2] at h; exact Option.noConfusion h
    | some s =>
      rw [h2] at h
      dsimp only at h
      cases p with
      | none => simp at h
      | some p =>
        cases s with
        | none => simp at h
        | some s =>
          simp only [Option.some.injEq] at h
          rw [← h]
          exact ⟨rfl, rfl⟩

/-- Round trip on a Fixed table whose two sub-tables are well-formed. -/
theorem fixed_round_trip_WF (ft : FixedTable) (hwf : WF ft.primary ∧ WF ft.secondary)
    (key value : Int) (ft1 : FixedTable) (h : Int)
    (ha : fixed_allocate ft key value = some (ft1, h)) (hne : h ≠ -1) :
    fixed_dereference ft1 key h = some value ∧
    ∃ ft2, fixed_free ft1 key h = some ft2 ∧ fixed_dereference ft2 key h = some 0 := by
  unfold fixed_allocate at ha
  cases h1 : simple_allocate ft.primary key value with
  | none => rw [h1] at ha; exact Option.noConfusion ha
  | some r1 =>
    obtain ⟨p, tp⟩ := r1
    rw [h1] at ha
    dsimp only at ha
    by_cases htp : tp ≠ -1
    · rw [if_pos htp] at ha
      injection ha with ha
      injection ha with e1 e2
      obtain ⟨c, hc, hclt, hwfp, hbs, _, hd⟩ := alloc_handle ft.primary hwf.1 key value p tp h1 htp
      rw [hc, enc_primary] at e2
      have hflag : Int.land ((2 * c : Nat) : Int) 1 = 0 := by
        rw [dec_flag]
        have : 2 * c % 2 = 0 := by omega
        rw [this]; rfl
      have hoff : ((2 * c : Nat) : Int) >>> 1 = (c : Int) := by
        rw [dec_offset]
        have : 2 * c / 2 = c := by omega
        rw [this]
      obtain ⟨p2, hf, _, _, _, hd0⟩ := free_deref p hwfp key c (by rw [hbs]; exact hclt)
      rw [← e1, ← e2]
      constructor
      · unfold fixed_dereference
        dsimp only
        rw [if_pos hflag, hoff]
        exact hd
      · refine ⟨{ ft with primary := p2 }, ?_, ?_⟩
        · unfold fixed_free
          dsimp only
          rw [if_pos hflag, hoff, hf]
        · unfold fixed_dereference
          dsimp only
          rw [if_pos hflag, hoff]
          exact hd0
    · rw [if_neg htp] at ha
      cases h2 : simple_allocate ft.secondary key value with
      | none => rw [h2] at ha; exact Option.noConfusion ha
      | some r2 =>
        obtain ⟨s, tp2⟩ := r2
        rw [h2] at ha
        dsimp only at ha
        by_cases htp2 : tp2 ≠ -1
        · rw [if_pos htp2] at ha
          injection ha with ha
          injection ha with e1 e2
          obtain ⟨c, hc, hclt, hwfs, hbs, _, hd⟩ :=
            alloc_handle ft.secondary hwf.2 key value s tp2 h2 htp2
          rw [hc, enc_secondary] at e2
          have hflag : ¬ Int.land ((2 * c + 1 : Nat) : Int) 1 = 0 := by
            rw [dec_flag]
            have : (2 * c + 1) % 2 = 1 := by omega
            rw [this]; decide
          have hoff : ((2 * c + 1 : Nat) : Int) >>> 1 = (c : Int) := by
            rw [dec_offset]
            have : (2 * c + 1) / 2 = c := by omega
            rw [this]
          obtain ⟨s2, hf, _, _, _, hd0⟩ := free_deref s hwfs key c (by rw [hbs]; exact hclt)
          rw [← e1, ← e2]
          constructor
          · unfold fixed_dereference
            dsimp only
            rw [if_neg hflag, hoff]
            exact hd
          · refine ⟨{ ft with primary := p, secondary := s2 }, ?_, ?_⟩
            · unfold fixed_free
              dsimp only
              rw [if_neg hflag, hoff, hf]
            · unfold fixed_dereference
              dsimp only
              rw [if_neg hflag, hoff]
              exact hd0
        · rw [if_neg htp2] at ha
          injection ha with ha
          injection ha with _ e2
          exact absurd e2.symm hne

/-! ## Rounding to a `double` -/

theorem nat_log2_loop_spec : ∀ (fuel a : Nat), 1 ≤ a → a < 2 ^ fuel →
    2 ^ nat_log2_loop fuel a ≤ a ∧ a < 2 ^ (nat_log2_loop fuel a + 1) := by
  intro fuel
  induction fuel with
  | zero => intro a h1 h2; simp at h2; omega
  | succ f ih =>
    intro a h1 h2
    unfold nat_log2_loop
    by_cases h : a < 2
    · rw [if_pos h]
      simp
      omega
    · rw [if_neg h]
      rw [Nat.pow_succ] at h2
      obtain ⟨i1, i2⟩ := ih (a / 2) (by omega) (by omega)
      constructor
      · rw [Nat.pow_succ]; omega
      · rw [Nat.pow_succ] at i2 ⊢; omega

/-- For `a ≥ 1`, `nat_log2 a` is the floor of the binary logarithm. -/
theorem nat_log2_spec (a : Nat) (h : 1 ≤ a) :
    2 ^ nat_log2 a ≤ a ∧ a < 2 ^ (nat_log2 a + 1) :=
  nat_log2_loop_spec a a h (Nat.lt_two_pow a)

theorem nat_log2_zero : nat_log2 0 = 0 := rfl

theorem ceil_div_le (a b p : Nat) (hb : 0 < b) : (a + b - 1) / b ≤ p ↔ a ≤ p * b := by
  rw [← Nat.lt_succ_iff, Nat.div_lt_iff_lt_mul hb, Nat.succ_mul]
  omega

/-- A natural number below `2^53` is a `double`: the conversion `(double) n` is exact. -/
theorem round_to_double_exact (n : Nat) (h : n < 9007199254740992) :
    ∃ s, 0 < s ∧ round_to_double n 1 = (n * s, s) := by
  unfold round_to_double
  simp only [Nat.div_one, Nat.one_mul, Nat.mod_one]
  by_cases hk : 52 ≤ nat_log2 n
  · rw [if_pos hk]
    have hn1 : 1 ≤ n := by
      by_contra h0
      have : n = 0 := by omega
      rw [this, nat_log2_zero] at hk
      omega
    have hle := (nat_log2_spec n hn1).1
    have hk52 : nat_log2 n = 52 := by
      by_contra hne
      have : 2 ^ 53 ≤ 2 ^ nat_log2 n := Nat.pow_le_pow_right (by decide) (by omega)
      have e : (2 : Nat) ^ 53 = 9007199254740992 := by norm_num
      omega
    rw [hk52]
    refine ⟨1, by decide, ?_⟩
    simp [Nat.mod_one]
  · rw [if_neg hk]
    refine ⟨2 ^ (52 - nat_log2 n), Nat.two_pow_pos _, ?_⟩
    simp

/-- The ceiling of the `double` nearest to `n / d` is at most `2 * (n / d) + 1`. -/
theorem round_to_double_ceil_le (n d : Nat) :
    0 < (round_to_double n d).2 ∧
    ((round_to_double n d).1 + (round_to_double n d).2 - 1) / (round_to_double n d).2
      ≤ 2 * (n / d) + 1 := by
  unfold round_to_double
  simp only
  by_cases hk : 52 ≤ nat_log2 (n / d)
  · rw [if_pos hk]
    simp only
    have ha1 : 1 ≤ n / d := by
      by_contra h0
      have : n / d = 0 := Nat.lt_one_iff.mp (not_le.mp h0)
      rw [this, nat_log2_zero] at hk
      omega
    have hle := (nat_log2_spec (n / d) ha1).1
    have hu : 2 ^ (nat_log2 (n / d) - 52) ≤ n / d :=
      le_trans (Nat.pow_le_pow_right (by decide) (by omega)) hle
    generalize 2 ^ (nat_log2 (n / d) - 52) = u at hu
    have hfl : n / (d * u) * u ≤ n / d := by
      rw [← Nat.div_div_eq_div_mul]
      exact Nat.div_mul_le_self _ _
    refine ⟨by decide, ?_⟩
    rw [Nat.add_sub_cancel, Nat.div_one]
    split
    · rw [Nat.succ_mul]; omega
    · omega
  · rw [if_neg hk]
    simp only
    have hs : 0 < 2 ^ (52 - nat_log2 (n / d)) := Nat.two_pow_pos _
    generalize 2 ^ (52 - nat_log2 (n / d)) = s at hs
    refine ⟨hs, ?_⟩
    have hq : n * s / d / s = n / d := by
      rw [Nat.div_div_eq_div_mul, Nat.mul_div_mul_right _ _ hs]
    have hstep : ∀ m, m ≤ n * s / d + 1 → (m + s - 1) / s ≤ 2 * (n / d) + 1 := by
      intro m hm
      have h1 : (m + s - 1) / s ≤ (n * s / d + s) / s := Nat.div_le_div_right (by omega)
      rw [Nat.add_div_right _ hs, hq] at h1
      omega
    split
    · exact hstep _ (le_refl _)
    · exact hstep _ (by omega)

/-- Below `2^52` the ceiling of the `double` nearest to `n / d` lies between the floor and the
ceiling of `n / d`. -/
theorem round_to_double_ceil_between (n d : Nat) (hd : 0 < d)
    (hq : n / d < 4503599627370496) :
    n / d ≤ ((round_to_double n d).1 + (round_to_double n d).2 - 1) / (round_to_double n d).2 ∧
    ((round_to_double n d).1 + (round_to_double n d).2 - 1) / (round_to_double n d).2
      ≤ (n + d - 1) / d := by
  have hk : ¬ 52 ≤ nat_log2 (n / d) := by
    intro hk
    have ha1 : 1 ≤ n / d := by
      by_contra h0
      have : n / d = 0 := Nat.lt_one_iff.mp (not_le.mp h0)
      rw [this, nat_log2_zero] at hk
      omega
    have hle := (nat_log2_spec (n / d) ha1).1
    have : 2 ^ 52 ≤ 2 ^ nat_log2 (n / d) := Nat.pow_le_pow_right (by decide) hk
    have e : (2 : Nat) ^ 52 = 4503599627370496 := by norm_num
    omega
  unfold round_to_double
  simp only
  rw [if_neg hk]
  simp only
  have hs : 0 < 2 ^ (52 - nat_log2 (n / d)) := Nat.two_pow_pos _
  generalize 2 ^ (52 - nat_log2 (n / d)) = s at hs
  have hlow : n / d * s ≤ n * s / d := by
    rw [Nat.le_div_iff_mul_le hd]
    calc n / d * s * d = n / d * d * s := by ring
      _ ≤ n * s := Nat.mul_le_mul_right s (Nat.div_mul_le_self n d)
  have hN : n ≤ (n + d - 1) / d * d := (ceil_div_le n d _ hd).1 (le_refl _)
  have hNs : n * s ≤ d * ((n + d - 1) / d * s) := by
    calc n * s ≤ (n + d - 1) / d * d * s := Nat.mul_le_mul_right s hN
      _ = d * ((n + d - 1) / d * s) := by ring
  have hup : n * s / d ≤ (n + d - 1) / d * s := Nat.div_le_of_le_mul hNs
  have hdm := Nat.div_add_mod (n * s) d
  have hstep : ∀ m, n / d * s ≤ m → m ≤ (n + d - 1) / d * s →
      n / d ≤ (m + s - 1) / s ∧ (m + s - 1) / s ≤ (n + d - 1) / d := by
    intro m h1 h2
    constructor
    · rw [Nat.le_div_iff_mul_le hs]; omega
    · exact (ceil_div_le m s _ hs).2 h2
  split
  · rename_i hc
    apply hstep _ (by omega)
    by_contra hcon
    have hm0N : n * s / d = (n + d - 1) / d * s := by omega
    have hrpos : 0 < n * s % d := by rcases hc with h | h <;> omega
    rw [hm0N] at hdm
    omega
  · exact hstep _ hlow hup

/-- For a capacity below `2^53` and a positive finite load factor, the minimum slot count is
defined as soon as twice the exact quotient fits `size_t`, and it is at most twice the exact
quotient plus one. -/
theorem min_slots_of_some (capacity : Nat) (lf : Frac) (hcap : capacity < 9007199254740992)
    (hden : lf.den ≠ 0) (hnum : 0 < lf.num)
    (hb : 2 * (capacity * lf.den / lf.num.toNat) + 1 < 18446744073709551616) :
    ∃ ms, min_slots_of capacity lf = some ms ∧
      ms ≤ 2 * (capacity * lf.den / lf.num.toNat) + 1 := by
  obtain ⟨s, hs, hc⟩ := round_to_double_exact capacity hcap
  have hn : 0 < lf.num.toNat := by omega
  obtain ⟨_, hle⟩ := round_to_double_ceil_le (capacity * s * lf.den) (s * lf.num.toNat)
  have hq : capacity * s * lf.den / (s * lf.num.toNat) = capacity * lf.den / lf.num.toNat := by
    rw [Nat.mul_right_comm, Nat.mul_comm (capacity * lf.den) s, Nat.mul_div_mul_left _ _ hs]
  rw [hq] at hle
  unfold min_slots_of
  rw [if_neg hden, hc]
  simp only
  rw [if_pos (by omega)]
  exact ⟨_, rfl, hle⟩

/-- A NaN load factor gives no defined minimum slot count. -/
theorem min_slots_of_nan (capacity : Nat) (lf : Frac) (h : lf.den = 0) :
    min_slots_of capacity lf = none := by
  unfold min_slots_of
  rw [if_pos h]

/-- For a capacity below `2^53` and a positive finite load factor with `capacity / load_factor
< 2^52`, the minimum slot count lies between the floor and the ceiling of the exact quotient. -/
theorem min_slots_of_between (capacity ms : Nat) (lf : Frac)
    (hcap : capacity < 9007199254740992) (hnum : 0 < lf.num)
    (hq : capacity * lf.den / lf.num.toNat < 4503599627370496)
    (hms : min_slots_of capacity lf = some ms) :
    capacity * lf.den / lf.num.toNat ≤ ms ∧
    ms ≤ (capacity * lf.den + lf.num.toNat - 1) / lf.num.toNat := by
  obtain ⟨s, hs, hc⟩ := round_to_double_exact capacity hcap
  have hn : 0 < lf.num.toNat := by omega
  have hd : 0 < s * lf.num.toNat := Nat.mul_pos hs hn
  have hquot : capacity * s * lf.den / (s * lf.num.toNat)
      = capacity * lf.den / lf.num.toNat := by
    rw [Nat.mul_right_comm, Nat.mul_comm (capacity * lf.den) s, Nat.mul_div_mul_left _ _ hs]
  obtain ⟨hlo, hhi⟩ := round_to_double_ceil_between (capacity * s * lf.den) (s * lf.num.toNat)
    hd (by rw [hquot]; exact hq)
  rw [hquot] at hlo
  have hceil : (capacity * s * lf.den + s * lf.num.toNat - 1) / (s * lf.num.toNat)
      ≤ (capacity * lf.den + lf.num.toNat - 1) / lf.num.toNat := by
    rw [ceil_div_le _ _ _ hd]
    have h0 : capacity * lf.den
        ≤ (capacity * lf.den + lf.num.toNat - 1) / lf.num.toNat * lf.num.toNat :=
      (ceil_div_le _ _ _ hn).1 (le_refl _)
    calc capacity * s * lf.den = capacity * lf.den * s := by ring
      _ ≤ (capacity * lf.den + lf.num.toNat - 1) / lf.num.toNat * lf.num.toNat * s :=
          Nat.mul_le_mul_right s h0
      _ = (capacity * lf.den + lf.num.toNat - 1) / lf.num.toNat * (s * lf.num.toNat) := by
          ring
  unfold min_slots_of at hms
  by_cases hden : lf.den = 0
  · rw [if_pos hden] at hms
    exact Option.noConfusion hms
  · rw [if_neg hden, hc] at hms
    simp only at hms
    split at hms
    · injection hms with hms
      rw [← hms]
      exact ⟨hlo, le_trans hhi hceil⟩
    · exact Option.noConfusion hms

theorem next_power_of_two_loop_le : ∀ (fuel power x r k j : Nat),
    next_power_of_two_loop fuel power x = some r → power = 2 ^ j → j ≤ k → k ≤ 63 →
    x ≤ 2 ^ k → r ≤ 2 ^ k := by
  intro fuel
  induction fuel with
  | zero => intro power x r k j h; simp [next_power_of_two_loop] at h
  | succ n ih =>
    intro power x r k j h hp hjk hk hx
    unfold next_power_of_two_loop at h
    by_cases hlt : power < x
    · rw [if_pos hlt] at h
      have hjlt : j < k := by
        by_contra hge
        have : 2 ^ k ≤ 2 ^ j := Nat.pow_le_pow_right (by decide) (by omega)
        omega
      have h63 : 2 ^ (j + 1) ≤ 2 ^ 63 := Nat.pow_le_pow_right (by decide) (by omega)
      have hp2 : power * 2 % 18446744073709551616 = 2 ^ (j + 1) := by
        rw [hp, ← Nat.pow_succ]
        apply Nat.mod_eq_of_lt
        have : (2 : Nat) ^ 63 < 18446744073709551616 := by norm_num
        omega
      exact ih _ x r k (j + 1) h hp2 (by omega) hk hx
    · rw [if_neg hlt] at h
      injection h with h
      rw [← h, hp]
      exact Nat.pow_le_pow_right (by decide) hjk

theorem next_power_of_two_le (x r k : Nat) (h : next_power_of_two x = some r) (hk : k ≤ 63)
    (hx : x ≤ 2 ^ k) : r ≤ 2 ^ k :=
  next_power_of_two_loop_le 65 1 x r k 0 h (by norm_num) (by omega) hk hx

theorem simple_create_ex_count (capacity : Nat) (lf : Frac) (st : SimpleTable)
    (h : simple_create_ex capacity lf = some (some st)) :
    ∃ ms, min_slots_of capacity lf = some ms ∧
      next_power_of_two (((ms + st.bucket_size - 1) % 18446744073709551616) / st.bucket_size)
        = some st.bucket_count ∧
      bucket_size_of capacity = some st.bucket_size := by
  unfold simple_create_ex at h
  split at h
  · simp at h
  · split at h
    · simp at h
    · rename_i B hB
      split at h
      · simp at h
      · rename_i min_slots hms
        split at h
        · simp at h
        · rename_i bc hbc
          split at h
          · injection h with h
            injection h with h
            subst h
            exact ⟨min_slots, hms, hbc, hB⟩
          · simp at h

/-- With the load factor 0.9 a capacity below `2^31` gives at most `2^31` buckets. -/
theorem simple_create_bucket_count_le (capacity : Nat) (st : SimpleTable)
    (h : simple_create capacity = some (some st)) (hcap : capacity < 2147483648) :
    st.bucket_count ≤ 2147483648 := by
  unfold simple_create at h
  obtain ⟨ms, hms, hnp, _⟩ := simple_create_ex_count capacity _ st h
  obtain ⟨h8, _⟩ := simple_create_ex_spec capacity _ st h
  obtain ⟨ms2, hms2, hle⟩ := min_slots_of_some capacity double_0_9 (by omega)
    (by decide) (by decide)
    (by
      have e1 : double_0_9.den = 9007199254740992 := rfl
      have e2 : double_0_9.num.toNat = 8106479329266893 := rfl
      rw [e1, e2]
      omega)
  rw [hms] at hms2
  injection hms2 with hms2
  have hmsle : ms ≤ 4800000000 := by
    have e1 : double_0_9.den = 9007199254740992 := rfl
    have e2 : double_0_9.num.toNat = 8106479329266893 := rfl
    rw [e1, e2] at hle
    omega
  have hdes : ((ms + st.bucket_size - 1) % 18446744073709551616) / st.bucket_size
      ≤ 2 ^ 31 := by
    rw [Nat.mod_eq_of_lt (by omega)]
    have h1 : (ms + st.bucket_size - 1) / st.bucket_size ≤ ms / st.bucket_size + 1 := by
      have hpos : 0 < st.bucket_size := by omega
      rw [← Nat.add_div_right ms hpos]
      exact Nat.div_le_div_right (by omega)
    have h2 : ms / st.bucket_size ≤ ms / 8 := Nat.div_le_div_left h8 (by decide)
    have : (2 : Nat) ^ 31 = 2147483648 := by norm_num
    omega
  have := next_power_of_two_le _ _ 31 hnp (by decide) hdes
  have e : (2 : Nat) ^ 31 = 2147483648 := by norm_num
  omega

theorem int_log2_loop_le : ∀ (fuel : Nat) (x log r : Int),
    int_log2_loop fuel x log = some r → r < log + fuel := by
  intro fuel
  induction fuel with
  | zero => intro x log r h; simp [int_log2_loop] at h
  | succ n ih =>
    intro x log r h
    unfold int_log2_loop at h
    by_cases hx : x >>> 1 ≠ 0
    · rw [if_pos hx] at h
      have := ih _ _ r h
      push_cast
      omega
    · rw [if_neg hx] at h
      injection h with h
      push_cast
      omega

/-- The bucket size that `simple_create_ex` chooses is at most 15. -/
theorem bucket_size_of_le (capacity B : Nat) (h : bucket_size_of capacity = some B) :
    B ≤ 15 := by
  unfold bucket_size_of at h
  split at h
  · simp at h
  · rename_i bs hbs
    dsimp only at h
    injection h with h
    have hle := int_log2_loop_le 32 _ 0 bs hbs
    rw [← h]
    unfold to_size_t TINY_PTR_MAX_BUCKET_SIZE
    split <;> split <;> omega

theorem simple_create_ex_bucket_size_le (capacity : Nat) (lf : Frac) (st : SimpleTable)
    (h : simple_create_ex capacity lf = some (some st)) : st.bucket_size ≤ 15 := by
  obtain ⟨_, _, _, hB⟩ := simple_create_ex_count capacity lf st h
  exact bucket_size_of_le capacity _ hB

/-- A Fixed table created with a total capacity below `2^31` has sub-tables of at most `2^31`
buckets, so it is a starting state of `FixedReach`. -/
theorem fixed_create_reach (total_capacity : Nat) (lf : Frac) (ft : FixedTable)
    (h : fixed_create total_capacity lf = some (some ft))
    (hcap : total_capacity < 2147483648) : FixedReach ft := by
  obtain ⟨h1, h2⟩ := fixed_create_spec total_capacity lf ft h
  exact FixedReach.create total_capacity lf ft h
    (simple_create_bucket_count_le _ _ h1 (by omega))
    (simple_create_bucket_count_le _ _ h2 (by omega))

/-- A Simple table created with the load factor 0.9 and a capacity below `2^31` is a starting
state of `Reach`. -/
theorem simple_create_reach (ok : Int → Prop) (capacity : Nat) (st : SimpleTable)
    (h : simple_create capacity = some (some st)) (hcap : capacity < 2147483648) :
    Reach ok st :=
  Reach.create capacity double_0_9 st h (simple_create_bucket_count_le capacity st h hcap)

theorem simple_allocate_bucket_size (st : SimpleTable) (hwf : WF st) (key value : Int)
    (st1 : SimpleTable) (h : Int) (ha : simple_allocate st key value = some (st1, h)) :
    st1.bucket_size = st.bucket_size := by
  obtain ⟨m, _, _, heq⟩ := simple_allocate_eq st hwf key value
  rw [heq] at ha
  by_cases h0 : m = 0
  · rw [if_pos h0] at ha
    injection ha with ha
    injection ha with h1 h2
    rw [← h1]
  · rw [if_neg h0] at ha
    injection ha with ha
    injection ha with h1 h2
    rw [← h1]; rfl

theorem LevelsOK_set (levels : List SimpleTable) (i : Nat) (st1 : SimpleTable)
    (hl : LevelsOK levels) (h1 : WF st1) (h2 : st1.bucket_size ≤ 16) :
    LevelsOK (levels.set i st1) := by
  intro st hst
  rcases List.mem_or_eq_of_mem_set hst with h | h
  · exact hl st h
  · rw [h]; exact ⟨h1, h2⟩

/-- The loop over the levels: the geometry of the container is kept, and on success the entry
sits in level `l`, slot `s`, which are the returned `level_found` and `tp`. -/
theorem variable_allocate_loop_spec (key value : Int) :
    ∀ (n level : Nat) (c c1 : Container) (tp lf : Int), LevelsOK c.levels →
      variable_allocate_loop key value n level c = some (c1, tp, lf) →
      c1.level_count = c.level_count ∧ c1.levels.length = c.levels.length ∧
      LevelsOK c1.levels ∧
      (tp ≠ -1 → ∃ (l s : Nat) (st1 : SimpleTable), lf = (l : Int) ∧ tp = (s : Int) ∧
        l < level + n ∧ c1.levels[l]? = some st1 ∧ s < st1.bucket_size ∧
        simple_dereference st1 key (s : Int) = some value) := by
  intro n
  induction n with
  | zero =>
    intro level c c1 tp lf hok h
    simp only [variable_allocate_loop] at h
    injection h with h
    injection h with e1 e2
    injection e2 with e2 e3
    rw [← e1]
    exact ⟨rfl, rfl, hok, fun hne => absurd e2.symm hne⟩
  | succ n ih =>
    intro level c c1 tp lf hok h
    unfold variable_allocate_loop at h
    cases hst : arr_get c.levels level with
    | none => rw [hst] at h; exact Option.noConfusion h
    | some st =>
      rw [hst] at h
      dsimp only at h
      have hst2 : c.levels[level]? = some st := hst
      have hmem : st ∈ c.levels := List.getElem?_mem hst2
      obtain ⟨hwf, hbs⟩ := hok st hmem
      cases ha : simple_allocate st key value with
      | none => rw [ha] at h; exact Option.noConfusion h
      | some r =>
        obtain ⟨st1, tp1⟩ := r
        rw [ha] at h
        dsimp only at h
        have hwf1 := simple_allocate_WF st hwf key value st1 tp1 ha
        have hbs1 := simple_allocate_bucket_size st hwf key value st1 tp1 ha
        have hok1 : LevelsOK (c.levels.set level st1) :=
          LevelsOK_set c.levels level st1 hok hwf1 (by rw [hbs1]; exact hbs)
        by_cases htp : tp1 ≠ -1
        · rw [if_pos htp] at h
          injection h with h
          injection h with e1 e2
          injection e2 with e2 e3
          rw [← e1]
          refine ⟨rfl, by simp, hok1, ?_⟩
          intro _
          obtain ⟨s, hs, hslt, _, _, _, hd⟩ := alloc_handle st hwf key value st1 tp1 ha htp
          refine ⟨level, s, st1, e3.symm, by rw [← e2]; exact hs, by omega, ?_,
            by rw [hbs1]; exact hslt, hd⟩
          show (c.levels.set level st1)[level]? = some st1
          rw [List.getElem?_set, if_pos rfl, if_pos]
          exact (List.getElem?_eq_some.mp hst2).1
        · rw [if_neg htp] at h
          obtain ⟨g1, g2, g3, g4⟩ := ih (level + 1) _ c1 tp lf hok1 h
          refine ⟨g1, by rw [g2]; simp, g3, ?_⟩
          intro hne
          obtain ⟨l, s, st2, q1, q2, q3, q4⟩ := g4 hne
          exact ⟨l, s, st2, q1, q2, by omega, q4⟩

theorem to_uint32_nat (n : Nat) (h : n < 4294967296) : to_uint32 (n : Int) = n := by
  unfold to_uint32
  omega

theorem to_int32_nat (n : Nat) (h : n < 2147483648) : to_int32 n = (n : Int) := by
  unfold to_int32
  rw [Nat.mod_eq_of_lt (by omega), if_pos h]

theorem variable_encode_nat (ci l s : Nat) (hci : ci < 256) (hl : l < 16) (hs : s < 16) :
    variable_encode (ci : Int) (l : Int) (s : Int) = ((ci * 256 + l * 16 + s : Nat) : Int) := by
  unfold variable_encode
  have e1 : Int.land (ci : Int) 0xFF = ((ci &&& 255 : Nat) : Int) := rfl
  have e2 : Int.land (l : Int) 0xF = ((l &&& 15 : Nat) : Int) := rfl
  have e3 : Int.land (s : Int) 0xF = ((s &&& 15 : Nat) : Int) := rfl
  have a1 : ci &&& 255 = ci := by
    have := Nat.and_pow_two_sub_one_eq_mod ci 8
    norm_num at this
    rw [this]; omega
  have a2 : l &&& 15 = l := by
    have := Nat.and_pow_two_sub_one_eq_mod l 4
    norm_num at this
    rw [this]; omega
  have a3 : s &&& 15 = s := by
    have := Nat.and_pow_two_sub_one_eq_mod s 4
    norm_num at this
    rw [this]; omega
  rw [e1, e2, e3, a1, a2, a3]
  have s1 : (ci : Int) <<< (8 : Int) = ((ci <<< 8 : Nat) : Int) := Int.shiftLeft_coe_nat ci 8
  have s2 : (l : Int) <<< (4 : Int) = ((l <<< 4 : Nat) : Int) := Int.shiftLeft_coe_nat l 4
  rw [s1, s2]
  show (((ci <<< 8 ||| l <<< 4) ||| s : Nat) : Int) = _
  congr 1
  rw [Nat.shiftLeft_eq, Nat.shiftLeft_eq]
  have o1 : 2 ^ 8 * ci + l * 2 ^ 4 = 2 ^ 8 * ci ||| l * 2 ^ 4 :=
    Nat.mul_add_lt_is_or (by omega) ci
  have o2 : 2 ^ 4 * (16 * ci + l) + s = 2 ^ 4 * (16 * ci + l) ||| s :=
    Nat.mul_add_lt_is_or (by omega) (16 * ci + l)
  have o3 : ci * 2 ^ 8 ||| l * 2 ^ 4 = 2 ^ 4 * (16 * ci + l) := by
    rw [Nat.mul_comm ci, ← o1]; omega
  rw [o3, ← o2]
  omega

theorem variable_decode_nat (ci l s : Nat) (hci : ci < 256) (hl : l < 16) (hs : s < 16) :
    handle_container ((ci * 256 + l * 16 + s : Nat) : Int) = ci ∧
    handle_level ((ci * 256 + l * 16 + s : Nat) : Int) = l ∧
    handle_slot ((ci * 256 + l * 16 + s : Nat) : Int) = s := by
  have r8 : ((ci * 256 + l * 16 + s : Nat) : Int) >>> (8 : Int)
      = (((ci * 256 + l * 16 + s) >>> 8 : Nat) : Int) := Int.shiftRight_coe_nat _ 8
  have r4 : ((ci * 256 + l * 16 + s : Nat) : Int) >>> (4 : Int)
      = (((ci * 256 + l * 16 + s) >>> 4 : Nat) : Int) := Int.shiftRight_coe_nat _ 4
  have m8 : ∀ x : Nat, x &&& 255 = x % 256 := by
    intro x
    have := Nat.and_pow_two_sub_one_eq_mod x 8
    norm_num at this
    exact this
  have m4 : ∀ x : Nat, x &&& 15 = x % 16 := by
    intro x
    have := Nat.and_pow_two_sub_one_eq_mod x 4
    norm_num at this
    exact this
  refine ⟨?_, ?_, ?_⟩
  · unfold handle_container
    rw [r8]
    show to_uint32 (((((ci * 256 + l * 16 + s) >>> 8) &&& 255 : Nat)) : Int) = ci
    rw [m8, Nat.shiftRight_eq_div_pow, to_uint32_nat _ (by omega)]
    omega
  · unfold handle_level
    rw [r4]
    show to_uint32 (((((ci * 256 + l * 16 + s) >>> 4) &&& 15 : Nat)) : Int) = l
    rw [m4, Nat.shiftRight_eq_div_pow, to_uint32_nat _ (by omega)]
    omega
  · unfold handle_slot
    show to_uint32 ((((ci * 256 + l * 16 + s) &&& 15 : Nat)) : Int) = s
    rw [m4, to_uint32_nat _ (by omega)]
    omega

theorem container_create_loop_spec (level_capacity : Nat) :
    ∀ (n : Nat) (acc res : List SimpleTable),
      container_create_loop level_capacity n acc = some (some res) →
      res.length = acc.length + n ∧
      ∀ st ∈ res, st ∈ acc ∨ simple_create level_capacity = some (some st) := by
  intro n
  induction n with
  | zero =>
    intro acc res h
    simp only [container_create_loop] at h
    injection h with h
    injection h with h
    rw [← h]
    exact ⟨rfl, fun st hst => Or.inl hst⟩
  | succ n ih =>
    intro acc res h
    unfold container_create_loop at h
    cases hc : simple_create level_capacity with
    | none => rw [hc] at h; exact Option.noConfusion h
    | some o =>
      cases o with
      | none => rw [hc] at h; simp at h
      | some st0 =>
        rw [hc] at h
        dsimp only at h
        obtain ⟨h1, h2⟩ := ih _ res h
        refine ⟨by rw [h1]; simp; omega, ?_⟩
        intro st hst
        rcases h2 st hst with hm | hm
        · rcases List.mem_append.mp hm with hm1 | hm1
          · exact Or.inl hm1
          · rw [List.mem_singleton] at hm1
            rw [hm1]; exact Or.inr rfl
        · exact Or.inr (hc.symm.trans hm)

theorem container_create_spec (container_capacity level_count : Nat) (cn : Container)
    (h : container_create container_capacity level_count = some (some cn)) :
    cn.level_count = level_count ∧ cn.levels.length = level_count ∧
    ∀ st ∈ cn.levels,
      simple_create (if container_capacity / level_count = 0 then 1
                     else container_capacity / level_count) = some (some st) := by
  unfold container_create at h
  split at h
  · exact Option.noConfusion h
  · dsimp only at h
    cases hl : container_create_loop
        (if container_capacity / level_count = 0 then 1 else container_capacity / level_count)
        level_count [] with
    | none => rw [hl] at h; exact Option.noConfusion h
    | some o =>
      cases o with
      | none => rw [hl] at h; simp at h
      | some levels =>
        rw [hl] at h
        dsimp only at h
        injection h with h
        injection h with h
        obtain ⟨h1, h2⟩ := container_create_loop_spec _ _ _ _ hl
        rw [← h]
        refine ⟨rfl, by simpa using h1, ?_⟩
        intro st hst
        rcases h2 st hst with hm | hm
        · simp at hm
        · exact hm

theorem variable_create_loop_spec (container_capacity level_count : Nat) :
    ∀ (n : Nat) (acc res : List Container),
      variable_create_loop container_capacity level_count n acc = some (some res) →
      res.length = acc.length + n ∧
      ∀ cn ∈ res, cn ∈ acc ∨ container_create container_capacity level_count = some (some cn) := by
  intro n
  induction n with
  | zero =>
    intro acc res h
    simp only [variable_create_loop] at h
    injection h with h
    injection h with h
    rw [← h]
    exact ⟨rfl, fun st hst => Or.inl hst⟩
  | succ n ih =>
    intro acc res h
    unfold variable_create_loop at h
    cases hc : container_create container_capacity level_count with
    | none => rw [hc] at h; exact Option.noConfusion h
    | some o =>
      cases o with
      | none => rw [hc] at h; simp at h
      | some c0 =>
        rw [hc] at h
        dsimp only at h
        obtain ⟨h1, h2⟩ := ih _ res h
        refine ⟨by rw [h1]; simp; omega, ?_⟩
        intro cn hcn
        rcases h2 cn hcn with hm | hm
        · rcases List.mem_append.mp hm with hm1 | hm1
          · exact Or.inl hm1
          · rw [List.mem_singleton] at hm1
            rw [hm1]; exact Or.inr rfl
        · exact Or.inr (hc.symm.trans hm)

theorem variable_create_spec (total_capacity container_capacity level_count : Nat)
    (vt : VariableTable)
    (h : variable_create total_capacity container_capacity level_count = some (some vt)) :
    vt.container_count =
      ((total_capacity + container_capacity + 18446744073709551616 - 1)
        % 18446744073709551616) / container_capacity ∧
    vt.containers.length = vt.container_count ∧
    ∀ cn ∈ vt.containers,
      container_create container_capacity level_count = some (some cn) := by
  unfold variable_create at h
  split at h
  · exact Option.noConfusion h
  · dsimp only at h
    cases hl : variable_create_loop container_capacity level_count
        (((total_capacity + container_capacity + 18446744073709551616 - 1)
          % 18446744073709551616) / container_capacity) [] with
    | none => rw [hl] at h; exact Option.noConfusion h
    | some o =>
      cases o with
      | none => rw [hl] at h; simp at h
      | some containers =>
        rw [hl] at h
        dsimp only at h
        injection h with h
        injection h with h
        obtain ⟨h1, h2⟩ := variable_create_loop_spec _ _ _ _ _ hl
        rw [← h]
        refine ⟨rfl, by simpa using h1, ?_⟩
        intro cn hcn
        rcases h2 cn hcn with hm | hm
        · simp at hm
        · exact hm

theorem variable_create_VInv (total_capacity container_capacity level_count : Nat)
    (vt : VariableTable)
    (h : variable_create total_capacity container_capacity level_count = some (some vt))
    (hcap : container_capacity < 2147483648) : VInv level_count vt := by
  obtain ⟨_, hlen, hall⟩ := variable_create_spec _ _ _ vt h
  refine ⟨hlen, ?_⟩
  intro cn hcn
  obtain ⟨h1, h2, h3⟩ := container_create_spec _ _ cn (hall cn hcn)
  refine ⟨h1, h2, ?_⟩
  intro st hst
  have hc := h3 st hst
  have hlc : (if container_capacity / level_count = 0 then 1
      else container_capacity / level_count) < 2147483648 := by
    have : container_capacity / level_count ≤ container_capacity := Nat.div_le_self _ _
    split <;> omega
  have hbc := simple_create_bucket_count_le _ st hc hlc
  have hbs := simple_create_ex_bucket_size_le _ _ st hc
  exact ⟨simple_create_ex_WF _ _ st hc hbc, by omega⟩

/-- What a defined `variable_allocate` computes: the container `ci` selected by the hash, the
result of the loop over its levels, and the encoded handle. -/
theorem variable_allocate_unfold (vt vt1 : VariableTable) (key value h : Int)
    (ha : variable_allocate vt key value = some (vt1, h)) :
    ∃ (ci : Nat) (c c1 : Container) (tp lf : Int),
      vt.container_count ≠ 0 ∧
      to_int32 (variable_hash key % vt.container_count) = (ci : Int) ∧
      vt.containers[ci]? = some c ∧
      variable_allocate_loop key value c.level_count 0 c = some (c1, tp, lf) ∧
      vt1 = { vt with containers := vt.containers.set ci c1 } ∧
      h = (if tp ≠ -1 ∧ lf ≠ -1 then variable_encode (ci : Int) lf tp else -1) := by
  unfold variable_allocate at ha
  dsimp only at ha
  split at ha
  · exact Option.noConfusion ha
  · rename_i hcount
    cases hr : arr_read vt.containers (to_int32 (variable_hash key % vt.container_count)) with
    | none => rw [hr] at ha; exact Option.noConfusion ha
    | some c =>
      rw [hr] at ha
      dsimp only at ha
      unfold arr_read at hr
      split at hr
      · rename_i hnn
        obtain ⟨ci, hci⟩ : ∃ ci : Nat,
            to_int32 (variable_hash key % vt.container_count) = (ci : Int) :=
          ⟨_, int_eq_nat _ hnn⟩
        rw [hci] at hr ha
        simp only [Int.toNat_ofNat] at hr ha
        cases hl : variable_allocate_loop key value c.level_count 0 c with
        | none => rw [hl] at ha; exact Option.noConfusion ha
        | some r =>
          obtain ⟨c1, tp, lf⟩ := r
          rw [hl] at ha
          dsimp only at ha
          refine ⟨ci, c, c1, tp, lf, hcount, hci, hr, hl, ?_⟩
          split at ha
          · rename_i hcond
            injection ha with ha
            injection ha with e1 e2
            rw [if_pos hcond]
            exact ⟨e1.symm, e2.symm⟩
          · rename_i hcond
            injection ha with ha
            injection ha with e1 e2
            rw [if_neg hcond]
            exact ⟨e1.symm, e2.symm⟩
      · exact Option.noConfusion hr

theorem VInv_set (lc : Nat) (vt : VariableTable) (i : Nat) (c1 : Container)
    (hinv : VInv lc vt) (h1 : c1.level_count = lc) (h2 : c1.levels.length = lc)
    (h3 : LevelsOK c1.levels) :
    VInv lc { vt with containers := vt.containers.set i c1 } := by
  refine ⟨by simpa using hinv.1, ?_⟩
  intro cn hcn
  rcases List.mem_or_eq_of_mem_set hcn with h | h
  · exact hinv.2 cn h
  · rw [h]; exact ⟨h1, h2, h3⟩

theorem variable_allocate_VInv (lc : Nat) (vt vt1 : VariableTable) (key value h : Int)
    (hinv : VInv lc vt) (ha : variable_allocate vt key value = some (vt1, h)) :
    VInv lc vt1 ∧ vt1.container_count = vt.container_count := by
  obtain ⟨ci, c, c1, tp, lf, _, _, hc, hl, hvt1, _⟩ := variable_allocate_unfold vt vt1 key value h ha
  obtain ⟨g1, g2, g3⟩ := hinv.2 c (List.getElem?_mem hc)
  obtain ⟨q1, q2, q3, _⟩ := variable_allocate_loop_spec key value _ _ c c1 tp lf g3 hl
  rw [hvt1]
  exact ⟨VInv_set lc vt ci c1 hinv (by rw [q1, g1]) (by rw [q2, g2]) q3, rfl⟩

theorem simple_free_bucket_size (st : SimpleTable) (hwf : WF st) (key : Int) (s : Nat)
    (hs : s < st.bucket_size) (st1 : SimpleTable)
    (hf : simple_free st key (s : Int) = some st1) : st1.bucket_size = st.bucket_size := by
  obtain ⟨m, _, _, heq⟩ := simple_free_eq st hwf key s hs
  rw [heq] at hf
  injection hf with hf
  rw [← hf]; rfl

theorem variable_free_VInv (lc : Nat) (vt vt1 : VariableTable) (key h : Int)
    (hinv : VInv lc vt) (hok : VarHandleOK vt h)
    (hf : variable_free vt key h = some vt1) :
    VInv lc vt1 ∧ vt1.container_count = vt.container_count := by
  obtain ⟨cn, st, hcn, hst, hslot⟩ := hok
  unfold variable_free at hf
  dsimp only at hf
  rw [hcn] at hf
  dsimp only at hf
  rw [hst] at hf
  dsimp only at hf
  obtain ⟨g1, g2, g3⟩ := hinv.2 cn (List.getElem?_mem hcn)
  obtain ⟨hwf, hbs⟩ := g3 st (List.getElem?_mem hst)
  rw [to_int32_nat _ (by omega)] at hf
  cases hsf : simple_free st key (handle_slot h : Int) with
  | none => rw [hsf] at hf; exact Option.noConfusion hf
  | some st1 =>
    rw [hsf] at hf
    injection hf with hf
    rw [← hf]
    have hwf1 := simple_free_WF st hwf key _ (by omega) (by omega) st1 hsf
    have hbs1 := simple_free_bucket_size st hwf key _ hslot st1 hsf
    refine ⟨VInv_set lc vt _ _ hinv g1 (by simpa using g2) ?_, rfl⟩
    exact LevelsOK_set cn.levels _ st1 g3 hwf1 (by rw [hbs1]; exact hbs)

theorem VarReach_VInv (t cc lc : Nat) (vt : VariableTable) (hr : VarReach t cc lc vt)
    (hcap : cc < 2147483648) :
    VInv lc vt ∧
    vt.container_count = ((t + cc + 18446744073709551616 - 1) % 18446744073709551616) / cc := by
  induction hr with
  | create vt h =>
    exact ⟨variable_create_VInv t cc lc vt h hcap, (variable_create_spec t cc lc vt h).1⟩
  | allocate vt vt1 key value h _ ha ih =>
    obtain ⟨h1, h2⟩ := variable_allocate_VInv lc vt vt1 key value h ih.1 ha
    exact ⟨h1, by rw [h2]; exact ih.2⟩
  | free vt vt1 key h _ hok hf ih =>
    obtain ⟨h1, h2⟩ := variable_free_VInv lc vt vt1 key h ih.1 hok hf
    exact ⟨h1, by rw [h2]; exact ih.2⟩

/-- Round trip on a Variable table whose handle fields hold every container index and level:
the decoded fields are the place where the entry was stored. -/
theorem variable_round_trip_VInv (lc : Nat) (vt vt1 : VariableTable) (key value h : Int)
    (hinv : VInv lc vt) (hcc : vt.container_count ≤ 256) (hlc : lc ≤ 16)
    (ha : variable_allocate vt key value = some (vt1, h)) (hne : h ≠ -1) :
    ∃ (cn : Container) (st : SimpleTable),
      handle_container h = variable_hash key % vt.container_count ∧
      vt1.containers[handle_container h]? = some cn ∧
      cn.levels[handle_level h]? = some st ∧
      handle_slot h < st.bucket_size ∧
      simple_dereference st key (handle_slot h : Int) = some value ∧
      variable_dereference vt1 key h = some value ∧
      ∃ vt2, variable_free vt1 key h = some vt2 ∧ variable_dereference vt2 key h = some 0 := by
  obtain ⟨ci, c, c1, tp, lf, hcount, hci, hc, hl, hvt1, hh⟩ :=
    variable_allocate_unfold vt vt1 key value h ha
  obtain ⟨g1, g2, g3⟩ := hinv.2 c (List.getElem?_mem hc)
  obtain ⟨q1, q2, q3, q4⟩ := variable_allocate_loop_spec key value _ _ c c1 tp lf g3 hl
  by_cases hcond : tp ≠ -1 ∧ lf ≠ -1
  · rw [if_pos hcond] at hh
    obtain ⟨l, s, st1, e1, e2, hlt, hlev, hslt, hd⟩ := q4 hcond.1
    have hmodlt : variable_hash key % vt.container_count < vt.container_count :=
      Nat.mod_lt _ (Nat.pos_of_ne_zero hcount)
    rw [to_int32_nat _ (by omega)] at hci
    have hcieq : variable_hash key % vt.container_count = ci := Int.ofNat.inj hci
    have hci256 : ci < 256 := by omega
    have hl16 : l < 16 := by rw [g1] at hlt; omega
    obtain ⟨hwf1, hbs1⟩ := q3 st1 (List.getElem?_mem hlev)
    have hs16 : s < 16 := by omega
    rw [e1, e2, variable_encode_nat ci l s hci256 hl16 hs16] at hh
    obtain ⟨d1, d2, d3⟩ := variable_decode_nat ci l s hci256 hl16 hs16
    rw [← hh] at d1 d2 d3
    have hcilen : ci < vt.containers.length := (List.getElem?_eq_some.mp hc).1
    have hllen : l < c1.levels.length := (List.getElem?_eq_some.mp hlev).1
    have hget1 : vt1.containers[ci]? = some c1 := by
      rw [hvt1]
      show (vt.containers.set ci c1)[ci]? = some c1
      rw [List.getElem?_set, if_pos rfl, if_pos hcilen]
    have hti : to_int32 s = (s : Int) := to_int32_nat s (by omega)
    obtain ⟨st2, hf, _, _, _, hd0⟩ := free_deref st1 hwf1 key s hslt
    refine ⟨c1, st1, by rw [d1, hcieq], by rw [d1]; exact hget1, by rw [d2]; exact hlev,
      by rw [d3]; exact hslt, by rw [d3]; exact hd, ?_, ?_⟩
    · unfold variable_dereference arr_get
      dsimp only
      rw [d1, d2, d3, hget1]
      dsimp only
      rw [hlev]
      dsimp only
      rw [hti]
      exact hd
    · refine ⟨{ vt1 with containers :=
          vt1.containers.set ci { c1 with levels := c1.levels.set l st2 } }, ?_, ?_⟩
      · unfold variable_free arr_get
        dsimp only
        rw [d1, d2, d3, hget1]
        dsimp only
        rw [hlev]
        dsimp only
        rw [hti, hf]
      · unfold variable_dereference arr_get
        dsimp only
        rw [d1, d2, d3]
        have hlen1 : ci < vt1.containers.length := (List.getElem?_eq_some.mp hget1).1
        rw [List.getElem?_set, if_pos rfl, if_pos hlen1]
        dsimp only
        rw [List.getElem?_set, if_pos rfl, if_pos hllen]
        dsimp only
        rw [hti]
        exact hd0
  · rw [if_neg hcond] at hh
    exact absurd hh hne

theorem wrap_sub_one (a : Nat) (h1 : 1 ≤ a) (h2 : a < 18446744073709551616) :
    (a + 18446744073709551616 - 1) % 18446744073709551616 = a - 1 := by
  have e : a + 18446744073709551616 - 1 = (a - 1) + 18446744073709551616 := by omega
  rw [e, Nat.add_mod_right, Nat.mod_eq_of_lt (by omega)]

/-- With the default geometry of the facade a Variable table has at most 7 containers. -/
theorem default_container_count_le (capacity : Nat) (h2 : capacity < 2147483648) :
    ((capacity + (if capacity / 4 = 0 then 1 else capacity / 4) + 18446744073709551616 - 1)
      % 18446744073709551616) / (if capacity / 4 = 0 then 1 else capacity / 4) ≤ 7 := by
  split
  · rename_i h0
    rw [wrap_sub_one _ (by omega) (by omega), Nat.div_one]
    omega
  · rename_i h0
    have hpos : 0 < capacity / 4 := Nat.pos_of_ne_zero h0
    rw [wrap_sub_one _ (by omega) (by omega)]
    apply Nat.le_of_lt_succ
    rw [Nat.div_lt_iff_lt_mul hpos]
    omega

theorem tiny_ptr_allocate_variable (vt : VariableTable) (key value : Int)
    (ut1 : Option tiny_ptr_table_t) (h : Int)
    (ha : tiny_ptr_allocate (some { variant := .TINY_PTR_VARIABLE, table := .variable vt })
      key value = some (ut1, h)) :
    ∃ vt1, variable_allocate vt key value = some (vt1, h) ∧
      ut1 = some { variant := .TINY_PTR_VARIABLE, table := .variable vt1 } := by
  unfold tiny_ptr_allocate at ha
  dsimp only at ha
  cases hv : variable_allocate vt key value with
  | none => rw [hv] at ha; simp at ha
  | some r =>
    obtain ⟨vt1, h1⟩ := r
    rw [hv] at ha
    simp only [Option.map_some', Option.some.injEq, Prod.mk.injEq] at ha
    exact ⟨vt1, by rw [ha.2], ha.1.symm⟩

theorem tiny_ptr_create_variable (capacity : Nat) (lf : Frac) (ut0 : tiny_ptr_table_t)
    (h : tiny_ptr_create capacity .TINY_PTR_VARIABLE lf = some (some ut0)) :
    ∃ vt0, ut0 = { variant := .TINY_PTR_VARIABLE, table := .variable vt0 } ∧
      variable_create capacity (if capacity / 4 = 0 then 1 else capacity / 4) 4
        = some (some vt0) := by
  unfold tiny_ptr_create at h
  dsimp only at h
  cases hv : variable_create capacity (if capacity / 4 = 0 then 1 else capacity / 4) 4 with
  | none => rw [hv] at h; exact Option.noConfusion h
  | some o =>
    cases o with
    | none => rw [hv] at h; simp at h
    | some vt0 =>
      rw [hv] at h
      simp only [Option.some.injEq] at h
      exact ⟨vt0, h.symm, rfl⟩

theorem int_shr_one_nat (n : Nat) : (n : Int) >>> 1 = ((n / 2 : Nat) : Int) := by
  have h1 : (n : Int) >>> (1 : Int) = ((n >>> 1 : Nat) : Int) := Int.shiftRight_coe_nat n 1
  rw [h1, Nat.shiftRight_eq_div_pow]

/-- The loop of `int_log2` terminates on a non-negative argument below `2 ^ fuel`. -/
theorem int_log2_loop_terminates : ∀ (fuel n : Nat) (log : Int), n < 2 ^ (fuel + 1) →
    ∃ r, int_log2_loop (fuel + 1) (n : Int) log = some r := by
  intro fuel
  induction fuel with
  | zero =>
    intro n log hn
    unfold int_log2_loop
    have hz : (n : Int) >>> 1 = 0 := by
      rw [int_shr_one_nat]
      have : n / 2 = 0 := by omega
      rw [this]; rfl
    rw [if_neg (by rw [hz]; simp)]
    exact ⟨log, rfl⟩
  | succ f ih =>
    intro n log hn
    unfold int_log2_loop
    by_cases hx : (n : Int) >>> 1 ≠ 0
    · rw [if_pos hx, int_shr_one_nat]
      apply ih
      rw [Nat.pow_succ] at hn
      omega
    · rw [if_neg hx]
      exact ⟨log, rfl⟩

theorem bucket_size_of_terminates (capacity : Nat) (h : capacity < 2147483648) :
    ∃ B, bucket_size_of capacity = some B := by
  unfold bucket_size_of
  have hc : to_int32 capacity = (capacity : Int) := to_int32_nat capacity h
  rw [hc]
  obtain ⟨r, hr⟩ := int_log2_loop_terminates 31 capacity 0
    (lt_of_lt_of_le h (by norm_num))
  unfold int_log2
  rw [hr]
  exact ⟨_, rfl⟩

/-- The loop of `next_power_of_two` terminates when the argument is at most `2^63`. -/
theorem next_power_of_two_loop_terminates : ∀ (fuel power x j : Nat), power = 2 ^ j →
    j ≤ 63 → x ≤ 2 ^ 63 → 64 ≤ fuel + j →
    ∃ r, next_power_of_two_loop fuel power x = some r := by
  intro fuel
  induction fuel with
  | zero => intro power x j _ hj _ hf; omega
  | succ n ih =>
    intro power x j hp hj hx hf
    unfold next_power_of_two_loop
    by_cases hlt : power < x
    · rw [if_pos hlt]
      have hj63 : j < 63 := by
        by_contra hge
        have : j = 63 := by omega
        rw [this] at hp
        omega
      have h63 : 2 ^ (j + 1) ≤ 2 ^ 63 := Nat.pow_le_pow_right (by decide) (by omega)
      have hp2 : power * 2 % 18446744073709551616 = 2 ^ (j + 1) := by
        rw [hp, ← Nat.pow_succ]
        apply Nat.mod_eq_of_lt
        have : (2 : Nat) ^ 63 < 18446744073709551616 := by norm_num
        omega
      exact ih _ x (j + 1) hp2 (by omega) hx (by omega)
    · rw [if_neg hlt]
      exact ⟨power, rfl⟩

theorem next_power_of_two_terminates (x : Nat) (hx : x ≤ 2 ^ 63) :
    ∃ r, next_power_of_two x = some r :=
  next_power_of_two_loop_terminates 65 1 x 0 (by norm_num) (by omega) hx (by omega)

/-- The guard `load_factor <= 0 || load_factor > 1.0` holds exactly when the load factor is not
NaN and not in `(0, 1]`. -/
theorem load_factor_guard_iff (lf : Frac) :
    (double_le_zero lf = true ∨ double_gt_one lf = true) ↔
      (¬ is_nan lf ∧ ¬ in_unit_interval lf) := by
  unfold double_le_zero double_gt_one is_nan in_unit_interval
  by_cases hd : lf.den = 0
  · simp only [hd, if_true, decide_eq_true_eq]
    constructor
    · rintro (h | h)
      · exact ⟨fun hn => by omega, fun hv => by omega⟩
      · exact ⟨fun hn => by omega, fun hv => by have := hv.2; simp at this; omega⟩
    · rintro ⟨h1, _⟩
      by_cases h0 : lf.num < 0
      · exact Or.inl h0
      · by_cases h3 : lf.num = 0
        · exact absurd ⟨trivial, h3⟩ h1
        · exact Or.inr (by omega)
  · simp only [hd, if_false, decide_eq_true_eq]
    constructor
    · rintro (h | h)
      · exact ⟨fun hn => hn.1, fun hv => by omega⟩
      · exact ⟨fun hn => hn.1, fun hv => by omega⟩
    · rintro ⟨_, h2⟩
      by_cases h0 : lf.num ≤ 0
      · exact Or.inl h0
      · by_cases h3 : (lf.den : Int) < lf.num
        · exact Or.inr h3
        · exact absurd ⟨by omega, by omega⟩ h2

/-- A load factor in `(0, 1]` passes the guard of `simple_create_ex` and is finite. -/
theorem load_factor_guard_of_unit (lf : Frac) (h : in_unit_interval lf) :
    lf.den ≠ 0 ∧ ¬ (double_le_zero lf = true ∨ double_gt_one lf = true) := by
  constructor
  · intro hd
    have := h.1
    have := h.2
    rw [hd] at this
    simp at this
    omega
  · rw [load_factor_guard_iff]
    exact fun hh => hh.2 h

/-- The `NULL` return of `simple_create_ex` is the argument check and nothing else. -/
theorem simple_create_ex_null (capacity : Nat) (lf : Frac) :
    simple_create_ex capacity lf = some none ↔
      (capacity = 0 ∨ double_le_zero lf = true ∨ double_gt_one lf = true) := by
  constructor
  · intro h
    by_contra hv
    unfold simple_create_ex at h
    rw [if_neg hv] at h
    split at h
    · exact Option.noConfusion h
    · split at h
      · exact Option.noConfusion h
      · split at h
        · exact Option.noConfusion h
        · split at h
          · simp at h
          · exact Option.noConfusion h
  · intro hv
    unfold simple_create_ex
    rw [if_pos hv]

/-- With a NaN load factor and a capacity other than zero, `simple_create_ex` passes the
argument check and has no defined result: it reaches `(size_t) ceil(NaN)`. -/
theorem simple_create_ex_nan (capacity : Nat) (lf : Frac) (h1 : capacity ≠ 0)
    (hn : is_nan lf) : simple_create_ex capacity lf = none := by
  have hg : ¬ (capacity = 0 ∨ double_le_zero lf = true ∨ double_gt_one lf = true) := by
    rintro (h | h)
    · exact h1 h
    · exact ((load_factor_guard_iff lf).1 h).1 hn
  unfold simple_create_ex
  rw [if_neg hg, min_slots_of_nan capacity lf hn.1]
  cases bucket_size_of capacity <;> rfl

/-- With arguments that pass the check, a bucket size that `bucket_size_of` delivers and a
minimum slot count of at most `2^63`, `simple_create_ex` returns a table. -/
theorem simple_create_ex_returns_of (capacity B ms : Nat) (lf : Frac) (h1 : capacity ≠ 0)
    (hg : ¬ (double_le_zero lf = true ∨ double_gt_one lf = true))
    (hB : bucket_size_of capacity = some B) (hmin : min_slots_of capacity lf = some ms)
    (hms : ms ≤ 2 ^ 63) :
    ∃ st, simple_create_ex capacity lf = some (some st) := by
  have hB8 := (bucket_size_of_bounds capacity B hB).1
  have hB15 := bucket_size_of_le capacity B hB
  have h63 : (2 : Nat) ^ 63 = 9223372036854775808 := by norm_num
  have hdes : ((ms + B - 1) % 18446744073709551616) / B ≤ 2 ^ 63 := by
    rw [Nat.mod_eq_of_lt (by omega)]
    have hpos : 0 < B := by omega
    have q1 : (ms + B - 1) / B ≤ ms / B + 1 := by
      rw [← Nat.add_div_right _ hpos]
      exact Nat.div_le_div_right (by omega)
    have q2 : ms / B ≤ ms / 8 := Nat.div_le_div_left hB8 (by decide)
    omega
  obtain ⟨bc, hbc⟩ := next_power_of_two_terminates _ hdes
  have hg2 : ¬ (capacity = 0 ∨ double_le_zero lf = true ∨ double_gt_one lf = true) := by
    rintro (h | h)
    · exact h1 h
    · exact hg h
  unfold simple_create_ex
  rw [if_neg hg2, hB]
  simp only [hmin, hbc]
  rw [if_pos (by omega)]
  exact ⟨_, rfl⟩

/-- For a capacity below `2^31` and a load factor in `(0, 1]` with `capacity / load_factor <
2^62` the minimum slot count is defined and below `2^63`. -/
theorem min_slots_of_bounded (capacity : Nat) (lf : Frac) (hv : in_unit_interval lf)
    (hcap : capacity < 2147483648) (hq : capacity * lf.den < 2 ^ 62 * lf.num.toNat) :
    ∃ ms, min_slots_of capacity lf = some ms ∧ ms < 2 ^ 63 := by
  have hn : 0 < lf.num.toNat := by have := hv.1; omega
  have h62 : (2 : Nat) ^ 62 = 4611686018427387904 := by norm_num
  have h63 : (2 : Nat) ^ 63 = 9223372036854775808 := by norm_num
  have hdiv : capacity * lf.den / lf.num.toNat < 2 ^ 62 :=
    (Nat.div_lt_iff_lt_mul hn).2 hq
  obtain ⟨ms, hms, hle⟩ := min_slots_of_some capacity lf (by omega)
    (load_factor_guard_of_unit lf hv).1 hv.1 (by omega)
  exact ⟨ms, hms, by omega⟩

/-- With valid arguments, a capacity below `2^31` and `capacity / load_factor < 2^62`,
`simple_create_ex` returns a table. -/
theorem simple_create_ex_returns (capacity : Nat) (lf : Frac) (h1 : capacity ≠ 0)
    (hv : in_unit_interval lf) (hcap : capacity < 2147483648)
    (hq : capacity * lf.den < 2 ^ 62 * lf.num.toNat) :
    ∃ st, simple_create_ex capacity lf = some (some st) := by
  obtain ⟨B, hB⟩ := bucket_size_of_terminates capacity hcap
  obtain ⟨ms, hms, hlt⟩ := min_slots_of_bounded capacity lf hv hcap hq
  exact simple_create_ex_returns_of capacity B ms lf h1 (load_factor_guard_of_unit lf hv).2 hB
    hms (by omega)

/-! ## The sign of handles -/

theorem land_nat_cast (x : Int) (n : Nat) : ∃ k : Nat, Int.land x (n : Int) = (k : Int) := by
  cases x with
  | ofNat m => exact ⟨m &&& n, rfl⟩
  | negSucc m => exact ⟨Nat.ldiff n m, rfl⟩

theorem variable_encode_nonneg (a b c : Int) : 0 ≤ variable_encode a b c := by
  unfold variable_encode
  obtain ⟨x, hx⟩ := land_nat_cast a 0xFF
  obtain ⟨y, hy⟩ := land_nat_cast b 0xF
  obtain ⟨z, hz⟩ := land_nat_cast c 0xF
  have ex : Int.land a 0xFF = (x : Int) := hx
  have ey : Int.land b 0xF = (y : Int) := hy
  have ez : Int.land c 0xF = (z : Int) := hz
  rw [ex, ey, ez]
  have s1 : (x : Int) <<< (8 : Int) = ((x <<< 8 : Nat) : Int) := Int.shiftLeft_coe_nat x 8
  have s2 : (y : Int) <<< (4 : Int) = ((y <<< 4 : Nat) : Int) := Int.shiftLeft_coe_nat y 4
  rw [s1, s2]
  show 0 ≤ (((x <<< 8 ||| y <<< 4) ||| z : Nat) : Int)
  exact Int.ofNat_nonneg _

theorem simple_allocate_sign (st st1 : SimpleTable) (key value h : Int)
    (ha : simple_allocate st key value = some (st1, h)) : h = -1 ∨ 0 ≤ h := by
  unfold simple_allocate at ha
  dsimp only at ha
  split at ha
  · exact Option.noConfusion ha
  · split at ha
    · injection ha with ha
      exact Or.inl (congrArg Prod.snd ha).symm
    · split at ha
      · injection ha with ha
        exact Or.inl (congrArg Prod.snd ha).symm
      · rename_i hnn
        split at ha
        · exact Option.noConfusion ha
        · split at ha
          · exact Option.noConfusion ha
          · split at ha
            · exact Option.noConfusion ha
            · injection ha with ha
              have := (congrArg Prod.snd ha)
              simp only at this
              right
              rw [← this]
              omega

theorem fixed_allocate_sign (ft ft1 : FixedTable) (key value h : Int)
    (ha : fixed_allocate ft key value = some (ft1, h)) : h = -1 ∨ 0 ≤ h := by
  have shl : ∀ tp : Int, (tp = -1 ∨ 0 ≤ tp) → tp ≠ -1 → ∀ b : Nat, 0 ≤ Int.lor (tp <<< 1) (b : Int) := by
    intro tp hs hne b
    rcases hs with hs | hs
    · exact absurd hs hne
    · obtain ⟨c, rfl⟩ := Int.eq_ofNat_of_zero_le hs
      have h1 : (c : Int) <<< (1 : Int) = ((c <<< 1 : Nat) : Int) := Int.shiftLeft_coe_nat c 1
      rw [h1]
      show 0 ≤ ((c <<< 1 ||| b : Nat) : Int)
      exact Int.ofNat_nonneg _
  unfold fixed_allocate at ha
  cases hp : simple_allocate ft.primary key value with
  | none => rw [hp] at ha; exact Option.noConfusion ha
  | some r =>
    obtain ⟨p, tp⟩ := r
    rw [hp] at ha
    simp only at ha
    have sp := simple_allocate_sign _ _ _ _ _ hp
    by_cases hne : tp ≠ -1
    · rw [if_pos hne] at ha
      injection ha with ha
      have := congrArg Prod.snd ha
      simp only at this
      rw [← this]
      exact Or.inr (shl tp sp hne 0)
    · rw [if_neg hne] at ha
      cases hs : simple_allocate ft.secondary key value with
      | none => rw [hs] at ha; exact Option.noConfusion ha
      | some r2 =>
        obtain ⟨s, tp2⟩ := r2
        rw [hs] at ha
        simp only at ha
        have ss := simple_allocate_sign _ _ _ _ _ hs
        by_cases hne2 : tp2 ≠ -1
        · rw [if_pos hne2] at ha
          injection ha with ha
          have := congrArg Prod.snd ha
          simp only at this
          rw [← this]
          exact Or.inr (shl tp2 ss hne2 1)
        · rw [if_neg hne2] at ha
          injection ha with ha
          exact Or.inl (congrArg Prod.snd ha).symm

theorem variable_allocate_sign (vt vt1 : VariableTable) (key value h : Int)
    (ha : variable_allocate vt key value = some (vt1, h)) : h = -1 ∨ 0 ≤ h := by
  obtain ⟨ci, c, c1, tp, lf, _, _, _, _, _, hh⟩ := variable_allocate_unfold vt vt1 key value h ha
  rw [hh]
  split
  · exact Or.inr (variable_encode_nonneg _ _ _)
  · exact Or.inl rfl

theorem tiny_ptr_allocate_sign (t : tiny_ptr_table_t) (key value : Int)
    (ut1 : Option tiny_ptr_table_t) (h : Int)
    (ha : tiny_ptr_allocate (some t) key value = some (ut1, h)) : h = -1 ∨ 0 ≤ h := by
  obtain ⟨variant, table⟩ := t
  unfold tiny_ptr_allocate at ha
  cases variant <;> cases table <;> simp only [Option.map_eq_some', Prod.mk.injEq] at ha
  all_goals
    first
    | exact Option.noConfusion ha
    | exact Or.inl ha.2.symm
    | (obtain ⟨r, hr, _, rfl⟩ := ha
       first
       | exact simple_allocate_sign _ _ _ _ _ hr
       | exact fixed_allocate_sign _ _ _ _ _ hr
       | exact variable_allocate_sign _ _ _ _ _ hr)
    | (injection ha with ha; exact Or.inl (congrArg Prod.snd ha).symm)

theorem tiny_ptr_round_trip_ok (t : tiny_ptr_table_t) (hok : FacadeOK t) (key value : Int)
    (ut1 : Option tiny_ptr_table_t) (h : Int)
    (ha : tiny_ptr_allocate (some t) key value = some (ut1, h)) (hne : h ≠ -1) :
    tiny_ptr_dereference ut1 key h = some value := by
  obtain ⟨variant, table⟩ := t
  unfold tiny_ptr_allocate at ha
  cases variant <;> cases table <;>
    simp only [FacadeOK, Option.map_eq_some', Prod.mk.injEq] at ha hok
  · obtain ⟨r, hr, rfl, rfl⟩ := ha
    obtain ⟨c, hc, _, _, _, _, hd⟩ := alloc_handle _ hok key value r.1 r.2 hr hne
    unfold tiny_ptr_dereference
    simp only
    rw [hc]
    exact hd
  · obtain ⟨r, hr, rfl, rfl⟩ := ha
    unfold tiny_ptr_dereference
    simp only
    exact (fixed_round_trip_WF _ hok key value r.1 r.2 hr hne).1
  · obtain ⟨r, hr, rfl, rfl⟩ := ha
    obtain ⟨lc, hlc, hinv, hcc⟩ := hok
    obtain ⟨_, _, _, _, _, _, _, hd, _⟩ :=
      variable_round_trip_VInv lc _ r.1 key value r.2 hinv hcc hlc hr hne
    unfold tiny_ptr_dereference
    simp only
    exact hd

/-! ## Freeing twice, and allocating after a free -/

theorem bucket_nat_congr (st st1 : SimpleTable) (key : Int)
    (hbc : st1.bucket_count = st.bucket_count) (hseed : st1.hash_seed = st.hash_seed) :
    bucket_nat st1 key = bucket_nat st key := by
  unfold bucket_nat
  rw [hbc, hseed]

theorem free_state_idem (st : SimpleTable) (b s m : Nat) :
    free_state (free_state st b s m) b s (m ||| (1 <<< s)) = free_state st b s m := by
  unfold free_state
  simp only [List.set_set, Nat.or_assoc, Nat.or_self]

/-- What `simple_free` does on a well-formed table, spelled out: the state after it, which is
well formed, reads key `-1` and payload 0 at the slot, has the mask bit of the slot set, and a
second `simple_free` of the same slot returns the same state. -/
theorem simple_free_twice (st : SimpleTable) (hwf : WF st) (key : Int) (s : Nat)
    (hs : s < st.bucket_size) :
    ∃ st1 m1, simple_free st key (s : Int) = some st1 ∧ WF st1 ∧
      simple_free st1 key (s : Int) = some st1 ∧
      st1.keys[bucket_nat st key * st.bucket_size + s]? = some (-1) ∧
      st1.store[bucket_nat st key * st.bucket_size + s]? = some 0 ∧
      st1.bucket_free[bucket_nat st key]? = some m1 ∧ m1.testBit s = true := by
  obtain ⟨m, hm, hmlt, hf⟩ := simple_free_eq st hwf key s hs
  have hwf1 := free_state_WF st hwf (bucket_nat st key) s m hmlt hs
  have hb := bucket_nat_lt st key hwf.bucket_count_pos
  have hidx := slot_lt_total _ _ _ _ hb hs
  have hmask1 : (free_state st (bucket_nat st key) s m).bucket_free[bucket_nat st key]?
      = some (m ||| (1 <<< s)) := by
    simp only [free_state]
    rw [List.getElem?_set, if_pos rfl, if_pos]
    rw [hwf.masks_len]; exact hb
  refine ⟨_, m ||| (1 <<< s), hf, hwf1, ?_, ?_, ?_, hmask1, ?_⟩
  · obtain ⟨m2, hm2, _, hf2⟩ := simple_free_eq _ hwf1 key s hs
    have hbn : bucket_nat (free_state st (bucket_nat st key) s m) key = bucket_nat st key :=
      bucket_nat_congr _ _ key rfl rfl
    rw [hbn] at hm2 hf2
    rw [hmask1] at hm2
    injection hm2 with hm2
    rw [hf2, ← hm2, free_state_idem]
  · simp only [free_state]
    rw [List.getElem?_set, if_pos rfl, if_pos]
    rw [hwf.keys_len, hwf.total_eq]; exact hidx
  · simp only [free_state]
    rw [List.getElem?_set, if_pos rfl, if_pos]
    rw [hwf.store_len, hwf.total_eq]; exact hidx
  · rw [testBit_set]
    simp

theorem bucket_of_same (st : SimpleTable) (hwf : WF st) (k k2 : Int) :
    bucket_of st k2 = bucket_of st k ↔ bucket_nat st k2 = bucket_nat st k := by
  rw [bucket_of_eq st k2 hwf.bucket_count_pos hwf.bucket_count_le,
    bucket_of_eq st k hwf.bucket_count_pos hwf.bucket_count_le]
  exact Int.ofNat_inj

/-- Allocation right after a free, for a key of the same bucket. -/
theorem allocate_after_free (st : SimpleTable) (hwf : WF st) (k k2 v2 : Int) (h : Nat)
    (hh : h < st.bucket_size) (hsame : bucket_nat st k2 = bucket_nat st k) :
    ∃ (st1 st2 : SimpleTable) (h2 m : Nat),
      simple_free st k (h : Int) = some st1 ∧
      simple_allocate st1 k2 v2 = some (st2, (h2 : Int)) ∧
      h2 ≤ h ∧
      st.bucket_free[bucket_nat st k]? = some m ∧
      ((∀ j, j < h → m.testBit j = false) → h2 = h) ∧
      simple_dereference st2 k2 (h2 : Int) = some v2 := by
  obtain ⟨m, hm, hmlt, hf⟩ := simple_free_eq st hwf k h hh
  have hwf1 := free_state_WF st hwf (bucket_nat st k) h m hmlt hh
  have hb := bucket_nat_lt st k hwf.bucket_count_pos
  have hmask1 : (free_state st (bucket_nat st k) h m).bucket_free[bucket_nat st k]?
      = some (m ||| (1 <<< h)) := by
    simp only [free_state]
    rw [List.getElem?_set, if_pos rfl, if_pos]
    rw [hwf.masks_len]; exact hb
  obtain ⟨m1, hm1, hm1lt, ha⟩ := simple_allocate_eq _ hwf1 k2 v2
  have hbn : bucket_nat (free_state st (bucket_nat st k) h m) k2 = bucket_nat st k := by
    exact (bucket_nat_congr _ st k2 rfl rfl).trans hsame
  rw [hbn, hmask1] at hm1
  injection hm1 with hm1
  subst hm1
  have hbit : (m ||| (1 <<< h)).testBit h = true := by
    rw [testBit_set]; simp
  have hne : m ||| (1 <<< h) ≠ 0 := by
    intro h0
    rw [h0] at hbit
    simp at hbit
  have hlt32 : m ||| (1 <<< h) < 2 ^ 32 :=
    lt_of_lt_of_le hm1lt (Nat.pow_le_pow_right (by decide) hwf1.bucket_size_le)
  obtain ⟨hc1, hc2⟩ := ctz_loop_spec 32 (m ||| (1 <<< h)) hne hlt32
  rw [if_neg hne] at ha
  have hle : ctz_loop 32 (m ||| (1 <<< h)) ≤ h := by
    by_contra hgt
    have := hc2 h (by omega)
    rw [this] at hbit
    exact Bool.noConfusion hbit
  have hcne : ((ctz_loop 32 (m ||| (1 <<< h)) : Nat) : Int) ≠ -1 := by omega
  obtain ⟨c, hc, _, _, _, _, hd⟩ := alloc_handle _ hwf1 k2 v2 _ _ ha hcne
  refine ⟨_, _, ctz_loop 32 (m ||| (1 <<< h)), m, hf, ha, hle, hm, ?_, ?_⟩
  · intro hlow
    by_contra hne2
    have hlt : ctz_loop 32 (m ||| (1 <<< h)) < h := by omega
    have h1 : (m ||| (1 <<< h)).testBit (ctz_loop 32 (m ||| (1 <<< h))) = false := by
      rw [testBit_set, hlow _ hlt]
      simp
      omega
    rw [h1] at hc1
    exact Bool.noConfusion hc1
  · rw [hc]
    exact hd

/-! ## Power-of-two bucket counts and the allocation step -/

theorem next_power_of_two_loop_pow2 : ∀ (fuel power x r : Nat),
    (power = 0 ∨ ∃ i, power = 2 ^ i) → next_power_of_two_loop fuel power x = some r →
    r = 0 ∨ ∃ j, r = 2 ^ j := by
  intro fuel
  induction fuel with
  | zero => intro power x r _ h; exact Option.noConfusion h
  | succ n ih =>
    intro power x r hp h
    unfold next_power_of_two_loop at h
    by_cases hlt : power < x
    · rw [if_pos hlt] at h
      refine ih _ x r ?_ h
      rcases hp with hp | ⟨i, hp⟩
      · left; rw [hp]
      · by_cases hi : i < 63
        · right
          refine ⟨i + 1, ?_⟩
          have : 2 ^ (i + 1) ≤ 2 ^ 63 := Nat.pow_le_pow_right (by decide) (by omega)
          rw [hp, ← Nat.pow_succ]
          exact Nat.mod_eq_of_lt (by omega)
        · left
          have hi2 : 63 ≤ i := by omega
          obtain ⟨d, rfl⟩ := Nat.exists_eq_add_of_le hi2
          rw [hp, Nat.pow_add, Nat.mul_right_comm]
          show 2 ^ 63 * 2 * 2 ^ d % (2 ^ 63 * 2) = 0
          exact Nat.mul_mod_right _ _
    · rw [if_neg hlt] at h
      injection h with h
      rw [← h]
      rcases hp with hp | hp
      · exact Or.inl hp
      · exact Or.inr hp

theorem next_power_of_two_pow2 (x r : Nat) (h : next_power_of_two x = some r) :
    ∃ j, r = 2 ^ j := by
  have hpos := next_power_of_two_pos x r h
  rcases next_power_of_two_loop_pow2 65 1 x r (Or.inr ⟨0, rfl⟩) h with h0 | hj
  · omega
  · exact hj

theorem simple_create_ex_pow2 (capacity : Nat) (lf : Frac) (st : SimpleTable)
    (h : simple_create_ex capacity lf = some (some st)) : ∃ j, st.bucket_count = 2 ^ j := by
  obtain ⟨ms, _, hn, _⟩ := simple_create_ex_count capacity lf st h
  exact next_power_of_two_pow2 _ _ hn

theorem bucket_nat_eq_mod (st : SimpleTable) (key : Int) (j : Nat)
    (hpow : st.bucket_count = 2 ^ j) :
    bucket_nat st key = hash_int_with_seed key st.hash_seed % st.bucket_count := by
  unfold bucket_nat
  rw [hpow]
  exact Nat.and_pow_two_sub_one_eq_mod _ _

theorem Reach_pow2 (ok : Int → Prop) (st : SimpleTable) (hr : Reach ok st) :
    ∃ j, st.bucket_count = 2 ^ j := by
  induction hr with
  | create capacity lf st hc _ => exact simple_create_ex_pow2 capacity lf st hc
  | allocate st st1 key value h _ _ ha ih =>
    rw [simple_allocate_bucket_count st key value st1 h ha]
    exact ih
  | free st st1 key s hr h0 hs hf ih =>
    have hwf := (Reach_inv ok st hr).1
    obtain ⟨c, rfl⟩ := Int.eq_ofNat_of_zero_le h0
    obtain ⟨m, _, _, heq⟩ := simple_free_eq st hwf key c (by omega)
    rw [heq] at hf
    injection hf with hf
    rw [← hf]
    exact ih
  | resize st st1 n r _ hres hret _ _ =>
    obtain ⟨new_st, hc, _, hbeq⟩ := simple_resize_success st n r st1 hres hret
    rw [← hbeq]
    exact simple_create_ex_pow2 n st.load_factor new_st hc

/-- The allocation step on a well-formed table whose bucket count is a power of two, with the
bucket written as a remainder. -/
theorem simple_allocate_step (st : SimpleTable) (hwf : WF st) (j : Nat)
    (hpow : st.bucket_count = 2 ^ j) (k v : Int) (m : Nat)
    (hm : st.bucket_free[hash_int_with_seed k st.hash_seed % st.bucket_count]? = some m)
    (hne : m ≠ 0) :
    bucket_of st k = ((hash_int_with_seed k st.hash_seed % st.bucket_count : Nat) : Int) ∧
    ∃ (st1 : SimpleTable) (s : Nat),
      simple_allocate st k v = some (st1, (s : Int)) ∧
      m.testBit s = true ∧ (∀ i, i < s → m.testBit i = false) ∧
      s < st.bucket_size ∧
      hash_int_with_seed k st.hash_seed % st.bucket_count * st.bucket_size + s
        < st.total_slots ∧
      st1.bucket_free[hash_int_with_seed k st.hash_seed % st.bucket_count]?
        = some (m &&& not_bit s) ∧
      (m &&& not_bit s).testBit s = false ∧
      st1.keys[hash_int_with_seed k st.hash_seed % st.bucket_count * st.bucket_size + s]?
        = some k ∧
      st1.store[hash_int_with_seed k st.hash_seed % st.bucket_count * st.bucket_size + s]?
        = some v := by
  have hb := bucket_nat_eq_mod st k j hpow
  have hbo := bucket_of_eq st k hwf.bucket_count_pos hwf.bucket_count_le
  rw [← hb] at hm ⊢
  refine ⟨hbo, ?_⟩
  obtain ⟨m0, hm0, hmlt, ha⟩ := simple_allocate_eq st hwf k v
  rw [hm] at hm0
  injection hm0 with hm0
  subst hm0
  rw [if_neg hne] at ha
  have hlt32 : m < 2 ^ 32 :=
    lt_of_lt_of_le hmlt (Nat.pow_le_pow_right (by decide) hwf.bucket_size_le)
  obtain ⟨hc1, hc2⟩ := ctz_loop_spec 32 m hne hlt32
  have hs := ctz_lt m st.bucket_size hne hmlt hwf.bucket_size_le
  have hbl := bucket_nat_lt st k hwf.bucket_count_pos
  have hidx := slot_lt_total _ _ _ _ hbl hs
  refine ⟨_, ctz_loop 32 m, ha, hc1, hc2, hs, ?_, ?_, ?_, ?_, ?_⟩
  · rw [hwf.total_eq]; exact hidx
  · simp only [alloc_state]
    rw [List.getElem?_set, if_pos rfl, if_pos]
    rw [hwf.masks_len]; exact hbl
  · rw [testBit_clear m _ _ (lt_of_lt_of_le hs hwf.bucket_size_le) hlt32]
    simp
  · simp only [alloc_state]
    rw [List.getElem?_set, if_pos rfl, if_pos]
    rw [hwf.keys_len, hwf.total_eq]; exact hidx
  · simp only [alloc_state]
    rw [List.getElem?_set, if_pos rfl, if_pos]
    rw [hwf.store_len, hwf.total_eq]; exact hidx

theorem demo_resized_WF : WF demo_resized := by
  refine ⟨by decide, by decide, by decide, by decide, by decide, by decide, by decide,
    by decide, ?_⟩
  intro b m h
  have e : demo_resized.bucket_free = [255, 254] := rfl
  rw [e] at h
  have e2 : demo_resized.bucket_size = 8 := rfl
  rw [e2]
  rcases b with _ | _ | b <;> simp at h <;> omega

/-! ## Allocating and then freeing everything -/

theorem to_uint32_lt (x : Int) : to_uint32 x < 4294967296 := by
  unfold to_uint32
  omega

theorem xor_shift_lt (h n : Nat) (hh : h < 4294967296) : h ^^^ (h >>> n) < 4294967296 := by
  have e : (4294967296 : Nat) = 2 ^ 32 := by norm_num
  rw [e] at hh ⊢
  apply Nat.xor_lt_two_pow hh
  rw [Nat.shiftRight_eq_div_pow]
  exact lt_of_le_of_lt (Nat.div_le_self h (2 ^ n)) hh

theorem hash_int_with_seed_eq (key : Int) (seed : Nat) (hs : seed < 4294967296) :
    hash_int_with_seed key seed = murmur3_fmix32 ((to_uint32 key ^^^ seed) % 4294967296) ∧
    hash_int_with_seed key seed < 4294967296 := by
  have e : (4294967296 : Nat) = 2 ^ 32 := by norm_num
  have h0 : to_uint32 key ^^^ seed < 4294967296 := by
    have := to_uint32_lt key
    rw [e] at this hs ⊢
    exact Nat.xor_lt_two_pow this hs
  unfold hash_int_with_seed murmur3_fmix32
  simp only
  rw [Nat.mod_eq_of_lt h0]
  generalize to_uint32 key ^^^ seed = a at h0
  have h1 := xor_shift_lt a 16 h0
  rw [Nat.mod_eq_of_lt h1]
  generalize a ^^^ a >>> 16 = b
  have h2 : b * 0x85EBCA6B % 4294967296 < 4294967296 := Nat.mod_lt _ (by decide)
  generalize b * 0x85EBCA6B % 4294967296 = c at h2
  have h3 := xor_shift_lt c 13 h2
  rw [Nat.mod_eq_of_lt h3]
  generalize c ^^^ c >>> 13 = d
  have h4 : d * 0xC2B2AE35 % 4294967296 < 4294967296 := Nat.mod_lt _ (by decide)
  generalize d * 0xC2B2AE35 % 4294967296 = f at h4
  have h5 := xor_shift_lt f 16 h4
  rw [Nat.mod_eq_of_lt h5]
  exact ⟨rfl, h5⟩

theorem variable_hash_eq (key : Int) : variable_hash key = hash_int_with_seed key 0 := by
  unfold variable_hash hash_int_with_seed
  simp only [Nat.xor_zero]

/-! ## The bucket size that `simple_create_ex` chooses -/

/-- On a positive argument below `2 ^ fuel` the loop of `int_log2` adds the floor of the binary
logarithm to `log`. -/
theorem int_log2_loop_floor : ∀ (fuel n : Nat) (log : Int), 0 < n → n < 2 ^ fuel →
    ∃ L : Nat, int_log2_loop fuel (n : Int) log = some (log + L) ∧ 2 ^ L ≤ n ∧
      n < 2 ^ (L + 1) := by
  intro fuel
  induction fuel with
  | zero => intro n log h0 hn; simp at hn; omega
  | succ f ih =>
    intro n log h0 hn
    unfold int_log2_loop
    rw [int_shr_one_nat]
    by_cases hx : n / 2 = 0
    · rw [if_neg (by rw [hx]; simp)]
      refine ⟨0, by simp, by simpa using h0, ?_⟩
      simp
      omega
    · have hx2 : ((n / 2 : Nat) : Int) ≠ 0 := by exact_mod_cast hx
      rw [if_pos hx2]
      rw [Nat.pow_succ] at hn
      obtain ⟨L, hL, hlo, hhi⟩ := ih (n / 2) (log + 1) (by omega) (by omega)
      refine ⟨L + 1, ?_, ?_, ?_⟩
      · rw [hL]
        push_cast
        congr 1
        ring
      · rw [Nat.pow_succ]; omega
      · rw [Nat.pow_succ] at hhi ⊢; omega

/-- The bucket size chosen for a capacity in `[1, 2^31)`: the floor of the binary logarithm,
halved and clamped to `[8, 32]`. -/
theorem bucket_size_of_floor (capacity : Nat) (h1 : 1 ≤ capacity)
    (h2 : capacity < 2147483648) :
    ∃ L : Nat, 2 ^ L ≤ capacity ∧ capacity < 2 ^ (L + 1) ∧ L ≤ 30 ∧
      bucket_size_of capacity = some (clamp (L / 2) 8 32) := by
  obtain ⟨L, hL, hlo, hhi⟩ := int_log2_loop_floor 32 capacity 0 (by omega)
    (lt_of_lt_of_le h2 (by norm_num))
  have hL30 : L ≤ 30 := by
    by_contra hgt
    have : 2 ^ 31 ≤ 2 ^ L := Nat.pow_le_pow_right (by decide) (by omega)
    have e : (2 : Nat) ^ 31 = 2147483648 := by norm_num
    omega
  refine ⟨L, hlo, hhi, hL30, ?_⟩
  unfold bucket_size_of int_log2
  rw [to_int32_nat capacity h2, hL]
  simp only [zero_add]
  unfold clamp to_size_t TINY_PTR_MAX_BUCKET_SIZE
  have hd : ((L : Int) / 2) = ((L / 2 : Nat) : Int) := by norm_cast
  rw [hd]
  have hq : L / 2 ≤ 15 := by omega
  generalize L / 2 = q at hq ⊢
  congr 1
  split_ifs <;> omega

theorem land_low_four (c : Nat) (hc : c < 16) : Int.land (c : Int) 0xF = (c : Int) := by
  show ((c &&& 15 : Nat) : Int) = _
  have := Nat.and_pow_two_sub_one_eq_mod c 4
  norm_num at this
  rw [this, Nat.mod_eq_of_lt hc]

/-- The bucket size chosen for a capacity in `[1, 2^31)` and what follows for masks and slot
offsets. -/
theorem bucket_size_of_limits (capacity : Nat) (h1 : 1 ≤ capacity)
    (h2 : capacity < 2147483648) :
    ∃ B, bucket_size_of capacity = some B ∧ 8 ≤ B ∧ B ≤ 15 ∧
      (capacity < 262144 → B = 8) ∧ (1 <<< B) - 1 < 4294967296 := by
  obtain ⟨L, hlo, hhi, hL30, hB⟩ := bucket_size_of_floor capacity h1 h2
  refine ⟨_, hB, ?_, ?_, ?_, ?_⟩
  · unfold clamp; split_ifs <;> omega
  · unfold clamp; split_ifs <;> omega
  · intro hc
    have hL : L < 18 := by
      by_contra hge
      have : 2 ^ 18 ≤ 2 ^ L := Nat.pow_le_pow_right (by decide) (by omega)
      have e : (2 : Nat) ^ 18 = 262144 := by norm_num
      omega
    unfold clamp; split_ifs <;> omega
  · have hle : clamp (L / 2) 8 32 ≤ 15 := by unfold clamp; split_ifs <;> omega
    rw [Nat.shiftLeft_eq, Nat.one_mul]
    have : 2 ^ clamp (L / 2) 8 32 ≤ 2 ^ 15 := Nat.pow_le_pow_right (by decide) hle
    have e : (2 : Nat) ^ 15 = 32768 := by norm_num
    omega

/-- On a well-formed table with buckets of at most 15 slots every returned slot offset is at
most 14 and is its own low four bits. -/
theorem slot_offset_fits (st : SimpleTable) (hwf : WF st) (hbs : st.bucket_size ≤ 15)
    (k v : Int) (st1 : SimpleTable) (h : Int)
    (ha : simple_allocate st k v = some (st1, h)) (hne : h ≠ -1) :
    0 ≤ h ∧ h ≤ 14 ∧ Int.land h 0xF = h ∧ (handle_slot h : Int) = h := by
  obtain ⟨c, hc, hclt, _⟩ := alloc_handle st hwf k v st1 h ha hne
  subst hc
  have hl := land_low_four c (by omega)
  refine ⟨by omega, by omega, hl, ?_⟩
  unfold handle_slot
  rw [hl, to_uint32_nat c (by omega)]

/-! ## Construction of the Fixed table -/

/-- The outcome of `simple_allocate` on a well-formed table, by the mask of the key's bucket. -/
theorem simple_allocate_cases (st : SimpleTable) (hwf : WF st) (k v : Int) :
    ∃ m : Nat, st.bucket_free[bucket_nat st k]? = some m ∧
      (m = 0 → simple_allocate st k v = some (st, -1)) ∧
      (m ≠ 0 → ∃ (st1 : SimpleTable) (s : Nat),
        simple_allocate st k v = some (st1, (s : Int)) ∧ s < st.bucket_size ∧
        m.testBit s = true ∧ (∀ i, i < s → m.testBit i = false) ∧ WF st1 ∧
        simple_dereference st1 k (s : Int) = some v) := by
  obtain ⟨m, hm, hmlt, ha⟩ := simple_allocate_eq st hwf k v
  refine ⟨m, hm, ?_, ?_⟩
  · intro h0
    rw [ha, if_pos h0]
  · intro hne
    rw [if_neg hne] at ha
    have hlt32 : m < 2 ^ 32 :=
      lt_of_lt_of_le hmlt (Nat.pow_le_pow_right (by decide) hwf.bucket_size_le)
    obtain ⟨hc1, hc2⟩ := ctz_loop_spec 32 m hne hlt32
    have hcne : ((ctz_loop 32 m : Nat) : Int) ≠ -1 := by omega
    obtain ⟨c, hc, hclt, hwf1, _, _, hd⟩ := alloc_handle st hwf k v _ _ ha hcne
    have hcc : ctz_loop 32 m = c := by exact_mod_cast hc
    refine ⟨_, ctz_loop 32 m, ha, by rw [hcc]; exact hclt, hc1, hc2, hwf1, ?_⟩
    rw [hc]
    exact hd

/-- The fields of a Fixed handle built from the slot offset `s` and the flag `b`. -/
theorem fixed_handle_fields (s : Nat) (hs : s < 32) :
    (Int.lor ((s : Int) <<< 1) 0 = ((2 * s : Nat) : Int) ∧
      Int.land (Int.lor ((s : Int) <<< 1) 0) 1 = 0 ∧
      (Int.lor ((s : Int) <<< 1) 0) >>> 1 = (s : Int) ∧
      0 ≤ Int.lor ((s : Int) <<< 1) 0 ∧ Int.lor ((s : Int) <<< 1) 0 < 64) ∧
    (Int.lor ((s : Int) <<< 1) 1 = ((2 * s + 1 : Nat) : Int) ∧
      Int.land (Int.lor ((s : Int) <<< 1) 1) 1 = 1 ∧
      (Int.lor ((s : Int) <<< 1) 1) >>> 1 = (s : Int) ∧
      0 ≤ Int.lor ((s : Int) <<< 1) 1 ∧ Int.lor ((s : Int) <<< 1) 1 < 64) := by
  rw [enc_primary, enc_secondary, dec_flag, dec_flag, dec_offset, dec_offset]
  have a1 : 2 * s % 2 = 0 := by omega
  have a2 : (2 * s + 1) % 2 = 1 := by omega
  have a3 : 2 * s / 2 = s := by omega
  have a4 : (2 * s + 1) / 2 = s := by omega
  rw [a1, a2, a3, a4]
  refine ⟨⟨rfl, rfl, rfl, ?_, ?_⟩, ⟨rfl, rfl, rfl, ?_, ?_⟩⟩ <;> omega

/-- The order in which `fixed_allocate` tries the sub-tables, and what it returns. -/
theorem fixed_allocate_order (ft : FixedTable) (hwf : WF ft.primary ∧ WF ft.secondary)
    (k v : Int) :
    ∃ mp ms : Nat,
      ft.primary.bucket_free[bucket_nat ft.primary k]? = some mp ∧
      ft.secondary.bucket_free[bucket_nat ft.secondary k]? = some ms ∧
      (mp ≠ 0 → ∃ (p1 : SimpleTable) (s : Nat),
        simple_allocate ft.primary k v = some (p1, (s : Int)) ∧
        s < ft.primary.bucket_size ∧ mp.testBit s = true ∧
        simple_dereference p1 k (s : Int) = some v ∧
        fixed_allocate ft k v
          = some ({ ft with primary := p1 }, Int.lor ((s : Int) <<< 1) 0)) ∧
      (mp = 0 → ms ≠ 0 → ∃ (s1 : SimpleTable) (s : Nat),
        simple_allocate ft.secondary k v = some (s1, (s : Int)) ∧
        s < ft.secondary.bucket_size ∧ ms.testBit s = true ∧
        simple_dereference s1 k (s : Int) = some v ∧
        fixed_allocate ft k v
          = some ({ ft with secondary := s1 }, Int.lor ((s : Int) <<< 1) 1)) ∧
      (mp = 0 → ms = 0 → fixed_allocate ft k v = some (ft, -1)) := by
  obtain ⟨mp, hmp, hp0, hp1⟩ := simple_allocate_cases ft.primary hwf.1 k v
  obtain ⟨ms, hms, hs0, hs1⟩ := simple_allocate_cases ft.secondary hwf.2 k v
  refine ⟨mp, ms, hmp, hms, ?_, ?_, ?_⟩
  · intro hne
    obtain ⟨p1, s, ha, hs, hbit, _, _, hd⟩ := hp1 hne
    refine ⟨p1, s, ha, hs, hbit, hd, ?_⟩
    unfold fixed_allocate
    rw [ha]
    simp only
    rw [if_pos (by omega)]
  · intro hz hne
    obtain ⟨s1, s, ha, hs, hbit, _, _, hd⟩ := hs1 hne
    refine ⟨s1, s, ha, hs, hbit, hd, ?_⟩
    unfold fixed_allocate
    rw [hp0 hz]
    simp only
    rw [if_neg (by simp), ha]
    simp only
    rw [if_pos (by omega)]
  · intro hz1 hz2
    unfold fixed_allocate
    rw [hp0 hz1]
    simp only
    rw [if_neg (by simp), hs0 hz2]
    simp only
    rw [if_neg (by simp)]

/-! ## The geometry that `simple_create_ex` computes -/

theorem next_power_of_two_loop_ge : ∀ (fuel power x r : Nat),
    next_power_of_two_loop fuel power x = some r → x ≤ r := by
  intro fuel
  induction fuel with
  | zero => intro power x r h; exact Option.noConfusion h
  | succ n ih =>
    intro power x r h
    unfold next_power_of_two_loop at h
    by_cases hlt : power < x
    · rw [if_pos hlt] at h
      exact ih _ x r h
    · rw [if_neg hlt] at h
      injection h with h
      omega

/-- The result of `next_power_of_two` on an argument of at most `2^63` is the least power of two
that is not below the argument. -/
theorem next_power_of_two_least (x r : Nat) (hx : x ≤ 2 ^ 63)
    (h : next_power_of_two x = some r) :
    (∃ j, r = 2 ^ j) ∧ x ≤ r ∧ ∀ i, x ≤ 2 ^ i → r ≤ 2 ^ i := by
  refine ⟨next_power_of_two_pow2 x r h, next_power_of_two_loop_ge 65 1 x r h, ?_⟩
  intro i hi
  by_cases h63 : i ≤ 63
  · exact next_power_of_two_le x r i h h63 hi
  · have := next_power_of_two_le x r 63 h (le_refl _) hx
    exact le_trans this (Nat.pow_le_pow_right (by decide) (by omega))

/-- The geometry of a created table whose minimum slot count is at most `2^63`: the bucket
count is the least power of two whose slots reach the minimum slot count, and `total_slots` is
the product without wrap-around. -/
theorem simple_create_ex_geometry (capacity ms : Nat) (lf : Frac) (st : SimpleTable)
    (h : simple_create_ex capacity lf = some (some st))
    (hmin : min_slots_of capacity lf = some ms) (hms : ms ≤ 2 ^ 63) :
    (∃ j, st.bucket_count = 2 ^ j) ∧
    ms ≤ st.bucket_count * st.bucket_size ∧
    (∀ i, ms ≤ 2 ^ i * st.bucket_size → st.bucket_count ≤ 2 ^ i) ∧
    st.total_slots = st.bucket_count * st.bucket_size := by
  obtain ⟨ms2, hmin2, hnp, hB⟩ := simple_create_ex_count capacity lf st h
  rw [hmin] at hmin2
  injection hmin2 with hmin2
  subst hmin2
  obtain ⟨h8, h32, _, htot, _⟩ := simple_create_ex_spec capacity lf st h
  have h15 := bucket_size_of_le capacity _ hB
  have e63 : (2 : Nat) ^ 63 = 9223372036854775808 := by norm_num
  have e60 : (2 : Nat) ^ 60 = 1152921504606846976 := by norm_num
  have hbpos : 0 < st.bucket_size := by omega
  rw [Nat.mod_eq_of_lt (by omega)] at hnp
  have hdes : ∀ p, (ms + st.bucket_size - 1) / st.bucket_size ≤ p ↔
      ms ≤ p * st.bucket_size := fun p => ceil_div_le _ _ p hbpos
  have hd60 : (ms + st.bucket_size - 1) / st.bucket_size ≤ 2 ^ 60 := by
    rw [hdes]
    have : 2 ^ 60 * 8 ≤ 2 ^ 60 * st.bucket_size := Nat.mul_le_mul_left _ h8
    omega
  have hd63 : (ms + st.bucket_size - 1) / st.bucket_size ≤ 2 ^ 63 := by omega
  obtain ⟨hpow, hge, hleast⟩ := next_power_of_two_least _ _ hd63 hnp
  have hbc60 := next_power_of_two_le _ _ 60 hnp (by decide) hd60
  refine ⟨hpow, (hdes _).1 hge, ?_, ?_⟩
  · intro i hi
    exact hleast i ((hdes _).2 hi)
  · rw [htot]
    apply Nat.mod_eq_of_lt
    have : st.bucket_count * st.bucket_size ≤ 2 ^ 60 * 15 := Nat.mul_le_mul hbc60 h15
    omega

/-- The narrowing of the capacity to `int` before `int_log2`: for the capacity `2^32` the
argument is 0 and the bucket size is 8, whereas `⌊log₂ 2^32⌋ / 2 = 16`. -/
theorem bucket_size_of_narrowed :
    bucket_size_of 4294967296 = some 8 ∧ clamp (32 / 2) 8 32 = 16 := by
  constructor <;> decide

/-! ## Counting set bits and live keys -/

theorem list_set_self {α : Type} (l : List α) (i : Nat) (a : α) (h : l[i]? = some a) :
    l.set i a = l := by
  apply List.ext_getElem?
  intro j
  rw [List.getElem?_set]
  by_cases hij : i = j
  · subst hij
    rw [if_pos rfl]
    have hlt : i < l.length := (List.getElem?_eq_some.mp h).1
    rw [if_pos hlt, h]
  · rw [if_neg hij]

/-- The walk over the levels of a container: the entry goes to the first level whose bucket
for the key is not saturated, the other levels are left as they are, and the walk fails exactly
when every level is saturated for the key. -/
theorem variable_allocate_loop_cascade (key value : Int) :
    ∀ (n level : Nat) (c : Container), LevelsOK c.levels → level + n ≤ c.levels.length →
      (∃ (l s : Nat) (st st1 : SimpleTable), level ≤ l ∧ l < level + n ∧
        c.levels[l]? = some st ∧
        (∀ j sj, level ≤ j → j < l → c.levels[j]? = some sj → saturated_for sj key) ∧
        ¬ saturated_for st key ∧
        simple_allocate st key value = some (st1, (s : Int)) ∧ s < st.bucket_size ∧
        variable_allocate_loop key value n level c
          = some ({ c with levels := c.levels.set l st1 }, (s : Int), (l : Int))) ∨
      ((∀ j sj, level ≤ j → j < level + n → c.levels[j]? = some sj →
          saturated_for sj key) ∧
        variable_allocate_loop key value n level c = some (c, -1, -1)) := by
  intro n
  induction n with
  | zero =>
    intro level c _ _
    right
    exact ⟨fun j sj h1 h2 => by omega, rfl⟩
  | succ n ih =>
    intro level c hok hlen
    have hlt : level < c.levels.length := by omega
    have hst : c.levels[level]? = some (c.levels[level]) := List.getElem?_eq_getElem hlt
    generalize c.levels[level] = st at hst
    have hmem : st ∈ c.levels := List.getElem?_mem hst
    obtain ⟨hwf, hbs⟩ := hok st hmem
    obtain ⟨m, hm, hmlt, ha⟩ := simple_allocate_eq st hwf key value
    have hget : arr_get c.levels level = some st := hst
    unfold variable_allocate_loop
    rw [hget]
    simp only
    by_cases h0 : m = 0
    · rw [if_pos h0] at ha
      rw [ha]
      simp only
      rw [if_neg (by simp)]
      have hself : c.levels.set level st = c.levels := list_set_self _ _ _ hst
      rw [hself]
      have hc : ({ c with levels := c.levels } : Container) = c := by cases c; rfl
      rw [hc]
      have hsat : saturated_for st key := by
        unfold saturated_for
        rw [hm, h0]
      rcases ih (level + 1) c hok (by omega) with
        ⟨l, s, sl, sl1, h1, h2, h3, h4, h5, h6, h7, h8⟩ | ⟨h1, h2⟩
      · left
        refine ⟨l, s, sl, sl1, by omega, by omega, h3, ?_, h5, h6, h7, h8⟩
        intro j sj hj1 hj2 hj3
        by_cases hjl : j = level
        · subst hjl
          rw [hst] at hj3
          rw [← Option.some.inj hj3]
          exact hsat
        · exact h4 j sj (by omega) hj2 hj3
      · right
        refine ⟨?_, h2⟩
        intro j sj hj1 hj2 hj3
        by_cases hjl : j = level
        · subst hjl
          rw [hst] at hj3
          rw [← Option.some.inj hj3]
          exact hsat
        · exact h1 j sj (by omega) (by omega) hj3
    · rw [if_neg h0] at ha
      rw [ha]
      simp only
      rw [if_pos (by omega)]
      left
      refine ⟨level, ctz_loop 32 m, st, _, le_refl _, by omega, hst, ?_, ?_, ha,
        ctz_lt m st.bucket_size h0 hmlt hwf.bucket_size_le, rfl⟩
      · intro j sj h1 h2
        omega
      · unfold saturated_for
        rw [hm]
        intro h
        injection h with h
        exact h0 h

/-- What `variable_allocate` does on a table that satisfies `VInv` and has at most `2^31`
containers: the container is picked by the hash, the entry goes to its first level that is not
saturated for the key, and the handle packs container, level and slot. -/
theorem variable_allocate_cascade (lc : Nat) (vt : VariableTable) (hinv : VInv lc vt)
    (hcc1 : 1 ≤ vt.container_count) (hcc : vt.container_count ≤ 2147483648) (k v : Int) :
    ∃ cn : Container,
      vt.containers[variable_hash k % vt.container_count]? = some cn ∧
      ((∃ (l s : Nat) (st st1 : SimpleTable), l < lc ∧
          cn.levels[l]? = some st ∧
          (∀ j sj, j < l → cn.levels[j]? = some sj → saturated_for sj k) ∧
          ¬ saturated_for st k ∧
          simple_allocate st k v = some (st1, (s : Int)) ∧ s < st.bucket_size ∧
          st.bucket_size ≤ 16 ∧
          variable_allocate vt k v
            = some ({ vt with containers :=
                        (vt.containers.set (variable_hash k % vt.container_count)
                          { cn with levels := cn.levels.set l st1 }) },
                    variable_encode ((variable_hash k % vt.container_count : Nat) : Int)
                      (l : Int) (s : Int))) ∨
        ((∀ (j : Nat) (sj : SimpleTable), cn.levels[j]? = some sj → saturated_for sj k) ∧
          variable_allocate vt k v = some (vt, -1))) := by
  obtain ⟨hlen, hall⟩ := hinv
  have hc : variable_hash k % vt.container_count < vt.container_count :=
    Nat.mod_lt _ (by omega)
  generalize hci : variable_hash k % vt.container_count = ci at hc
  have hlt : ci < vt.containers.length := by rw [hlen]; exact hc
  have hcn : vt.containers[ci]? = some (vt.containers[ci]) := List.getElem?_eq_getElem hlt
  generalize vt.containers[ci] = cn at hcn
  obtain ⟨hlc, hll, hok⟩ := hall cn (List.getElem?_mem hcn)
  refine ⟨cn, hcn, ?_⟩
  have hidx : to_int32 (variable_hash k % vt.container_count) = (ci : Int) := by
    rw [hci]; exact to_int32_nat ci (by omega)
  have hread : arr_read vt.containers (ci : Int) = some cn := by
    unfold arr_read
    rw [if_pos (by omega), Int.toNat_ofNat]
    exact hcn
  have hne0 : ¬ vt.container_count = 0 := by omega
  rcases variable_allocate_loop_cascade k v cn.level_count 0 cn hok (by omega) with
    ⟨l, s, st, st1, _, h2, h3, h4, h5, h6, h7, h8⟩ | ⟨h1, h2⟩
  · left
    have hbs : st.bucket_size ≤ 16 := (hok st (List.getElem?_mem h3)).2
    refine ⟨l, s, st, st1, by omega, h3, fun j sj hj => h4 j sj (by omega) hj, h5, h6, h7,
      hbs, ?_⟩
    unfold variable_allocate
    simp only
    rw [if_neg hne0, hidx, hread]
    simp only
    rw [h8]
    simp only
    rw [if_pos ⟨by omega, by omega⟩, Int.toNat_ofNat]
  · right
    refine ⟨fun j sj hj => ?_, ?_⟩
    · have hjlt : j < cn.levels.length := (List.getElem?_eq_some.mp hj).1
      exact h1 j sj (by omega) (by omega) hj
    · unfold variable_allocate
      simp only
      rw [if_neg hne0, hidx, hread]
      simp only
      rw [h2]
      simp only
      rw [if_neg (by simp), Int.toNat_ofNat, list_set_self _ _ _ hcn]

/-! ## The claims -/

/-- Claim C1.  Alloc/deref round trip on a Simple table: on every well-formed table, when
`simple_allocate st key value` returns a handle other than `-1`, `simple_dereference` on the
resulting table with the same key and that handle returns `value`. -/
theorem simple_alloc_deref_round_trip (st : SimpleTable) (hwf : WF st) (key value : Int)
    (st1 : SimpleTable) (h : Int) (ha : simple_allocate st key value = some (st1, h))
    (hne : h ≠ -1) : simple_dereference st1 key h = some value := by
  have hwf1 := simple_allocate_WF st hwf key value st1 h ha
  obtain ⟨m, _, hmlt, heq⟩ := simple_allocate_eq st hwf key value
  rw [heq] at ha
  by_cases h0 : m = 0
  · rw [if_pos h0] at ha
    injection ha with ha
    injection ha with h1 h2
    exact absurd h2.symm hne
  · rw [if_neg h0] at ha
    injection ha with ha
    injection ha with h1 h2
    have hc := ctz_lt m st.bucket_size h0 hmlt hwf.bucket_size_le
    subst h1
    subst h2
    rw [simple_dereference_eq _ hwf1 key _ hc]
    have hb := bucket_nat_lt st key hwf.bucket_count_pos
    have hidx := slot_lt_total _ _ _ _ hb hc
    have e : bucket_nat (alloc_state st (bucket_nat st key) (ctz_loop 32 m) m key value) key
        = bucket_nat st key := rfl
    rw [e]
    simp only [alloc_state]
    rw [List.getElem?_set]
    simp
    rw [hwf.store_len, hwf.total_eq]; exact hidx

/-- Witness for C1: on the fresh eight-slot table, allocating `(5, 7)` returns handle 0 and the
dereference of `(5, 0)` in the resulting table returns 7. -/
theorem simple_alloc_deref_round_trip_witness :
    simple_allocate demo_table 5 7 = some (demo_table_one, 0) ∧
    simple_dereference demo_table_one 5 0 = some 7 :=
  ⟨by decide,
   simple_alloc_deref_round_trip demo_table demo_table_WF 5 7 demo_table_one 0 (by decide)
     (by decide)⟩

/-- Claim C2.  Frame property of `simple_allocate` and `simple_free`: on a well-formed table, a
successful `simple_allocate st k2 v2` returning `h2`, or a `simple_free st k2 h2` with a handle
`0 ≤ h2 < bucket_size`, leaves the geometry and the seed unchanged, changes the key and payload
of no slot other than `bucket * bucket_size + h2`, changes no mask bit other than bit `h2` of
the mask of the bucket of `k2`, and so `simple_dereference` of every other slot `(k, h)` returns
what it returned before. -/
theorem simple_frame (st : SimpleTable) (hwf : WF st) (k2 v2 h2 : Int) (st1 : SimpleTable)
    (hop : (simple_allocate st k2 v2 = some (st1, h2) ∧ h2 ≠ -1) ∨
           (0 ≤ h2 ∧ h2 < st.bucket_size ∧ simple_free st k2 h2 = some st1)) :
    (st1.requested_capacity = st.requested_capacity ∧ st1.total_slots = st.total_slots ∧
      st1.bucket_count = st.bucket_count ∧ st1.bucket_size = st.bucket_size ∧
      st1.hash_seed = st.hash_seed ∧ st1.load_factor = st.load_factor) ∧
    (∀ i : Nat, i ≠ slot_index st (bucket_of st k2) h2 →
      st1.keys[i]? = st.keys[i]? ∧ st1.store[i]? = st.store[i]?) ∧
    (∀ (b j : Nat), ¬ ((b : Int) = bucket_of st k2 ∧ (j : Int) = h2) →
      (st1.bucket_free[b]?).map (fun w => w.testBit j)
        = (st.bucket_free[b]?).map (fun w => w.testBit j)) ∧
    (∀ (k h : Int), 0 ≤ h → h < st.bucket_size →
      ¬ (bucket_of st k = bucket_of st k2 ∧ h = h2) →
      simple_dereference st1 k h = simple_dereference st k h) := by
  have hbk : ∀ k, bucket_of st k = (bucket_nat st k : Int) :=
    fun k => bucket_of_eq st k hwf.bucket_count_pos hwf.bucket_count_le
  have hb := bucket_nat_lt st k2 hwf.bucket_count_pos
  -- both operations leave a one-slot update of `st`
  have key : ∃ c : Nat, c < st.bucket_size ∧ h2 = (c : Int) ∧
      (st1.requested_capacity = st.requested_capacity ∧ st1.total_slots = st.total_slots ∧
        st1.bucket_count = st.bucket_count ∧ st1.bucket_size = st.bucket_size ∧
        st1.hash_seed = st.hash_seed ∧ st1.load_factor = st.load_factor) ∧
      (∀ i : Nat, i ≠ bucket_nat st k2 * st.bucket_size + c →
        st1.keys[i]? = st.keys[i]? ∧ st1.store[i]? = st.store[i]?) ∧
      (∀ (b2 j : Nat), ¬ (b2 = bucket_nat st k2 ∧ j = c) →
        (st1.bucket_free[b2]?).map (fun w => w.testBit j)
          = (st.bucket_free[b2]?).map (fun w => w.testBit j)) ∧
      (∀ (k : Int) (h : Nat), h < st.bucket_size → ¬ (bucket_nat st k = bucket_nat st k2 ∧ h = c) →
        simple_dereference st1 k h = simple_dereference st k h) := by
    rcases hop with ⟨ha, hne⟩ | ⟨h0, hlt, hf⟩
    · obtain ⟨m, hm, hmlt, heq⟩ := simple_allocate_eq st hwf k2 v2
      rw [heq] at ha
      by_cases hz : m = 0
      · rw [if_pos hz] at ha
        injection ha with ha
        injection ha with _ e2
        exact absurd e2.symm hne
      · rw [if_neg hz] at ha
        injection ha with ha
        injection ha with e1 e2
        have hc := ctz_lt m st.bucket_size hz hmlt hwf.bucket_size_le
        refine ⟨ctz_loop 32 m, hc, e2.symm, ?_, ?_⟩
        · rw [← e1]; exact ⟨rfl, rfl, rfl, rfl, rfl, rfl⟩
        · rw [← e1]; exact alloc_state_frame st hwf _ _ m k2 v2 hc hm
    · have hc : h2.toNat < st.bucket_size := by omega
      rw [int_eq_nat h2 h0] at hf
      obtain ⟨m, hm, hmlt, heq⟩ := simple_free_eq st hwf k2 h2.toNat hc
      rw [heq] at hf
      injection hf with e1
      refine ⟨h2.toNat, hc, int_eq_nat h2 h0, ?_, ?_⟩
      · rw [← e1]; exact ⟨rfl, rfl, rfl, rfl, rfl, rfl⟩
      · rw [← e1]; exact free_state_frame st hwf _ _ m hc hm
  obtain ⟨c, hc, hh2, hgeo, hslots, hbits, hderef⟩ := key
  refine ⟨hgeo, ?_, ?_, ?_⟩
  · intro i hi
    apply hslots
    rw [hbk, hh2, slot_index_eq st _ _ hb hc hwf.bucket_count_le hwf.bucket_size_le] at hi
    exact hi
  · intro b j hne
    apply hbits
    intro ⟨e1, e2⟩
    apply hne
    rw [hbk, hh2, e1, e2]
    exact ⟨rfl, rfl⟩
  · intro k h h0 hlt hne
    rw [int_eq_nat h h0]
    apply hderef k h.toNat (by omega)
    intro ⟨e1, e2⟩
    apply hne
    rw [hbk, hbk, e1, hh2, ← e2]
    exact ⟨rfl, (int_eq_nat h h0)⟩

/-- Witness for C2: in the eight-slot table that holds `(5, 7)` in slot 0, allocating key 9
takes slot 1 and the entry of key 5 still reads 7. -/
theorem simple_frame_witness :
    simple_allocate demo_table_one 9 3 = some (demo_table_two, 1) ∧
    simple_dereference demo_table_two 5 0 = simple_dereference demo_table_one 5 0 :=
  ⟨by decide,
   (simple_frame demo_table_one demo_table_one_WF 9 3 1 demo_table_two
      (Or.inl ⟨by decide, by decide⟩)).2.2.2 5 0 (by decide) (by decide) (by decide)⟩

/-- Claim C5.  Saturation without probing: for every Simple table and key whose bucket has the
free mask 0, `simple_allocate` returns `-1` and leaves the whole table state unchanged, whatever
the masks of the other buckets are. -/
theorem saturated_bucket_fails (st : SimpleTable) (key value : Int)
    (hsat : arr_read st.bucket_free (bucket_of st key) = some 0) :
    simple_allocate st key value = some (st, -1) := by
  unfold simple_allocate
  dsimp only
  rw [hsat]
  rfl

/-- Witness for C5: in `demo_saturated` the bucket of key 1 is full while bucket 1 has all eight
slots free; the table is the one that eight allocations of key 1 leave, and the ninth fails. -/
theorem saturated_bucket_fails_witness :
    (simple_create_ex 8 double_0_9).bind
        (fun o => o.bind (fun st => allocate_seq st 1 [1, 2, 3, 4, 5, 6, 7, 8]))
      = some (demo_saturated, [0, 1, 2, 3, 4, 5, 6, 7]) ∧
    arr_read demo_saturated.bucket_free 1 = some 255 ∧
    simple_allocate demo_saturated 1 99 = some (demo_saturated, -1) :=
  ⟨by decide, by decide, saturated_bucket_fails demo_saturated 1 99 (by decide)⟩

/-- Claim C7.  Resize is atomic on failure: whenever `simple_resize` returns `NULL`, the table
behind `old_st` is exactly the table before the call, and `tiny_ptr_resize` on a Simple facade
holding that table returns `-1` with the facade unchanged; a new capacity of 0 is such a
failure. -/
theorem resize_failure_atomic (old_st : SimpleTable) (new_capacity : Nat) :
    simple_resize old_st 0 = some { old_st := some old_st, ret := none } ∧
    (∀ r : ResizeResult, simple_resize old_st new_capacity = some r → r.ret = none →
      r.old_st = some old_st ∧
      ∀ ut : tiny_ptr_table_t, ut.variant = .TINY_PTR_SIMPLE → ut.table = .simple old_st →
        tiny_ptr_resize (some (some ut)) new_capacity = some (some (some ut), -1)) := by
  constructor
  · unfold simple_resize simple_create_ex
    simp
  · intro r hres hfail
    have hold : r.old_st = some old_st := by
      unfold simple_resize at hres
      cases hc : simple_create_ex new_capacity old_st.load_factor with
      | none => rw [hc] at hres; exact Option.noConfusion hres
      | some o =>
        cases o with
        | none =>
          rw [hc] at hres
          simp only at hres
          injection hres with hres
          rw [← hres]
        | some new_st =>
          rw [hc] at hres
          simp only at hres
          cases hl : simple_resize_loop old_st old_st.total_slots 0 new_st with
          | none => rw [hl] at hres; exact Option.noConfusion hres
          | some o2 =>
            cases o2 with
            | none =>
              rw [hl] at hres
              simp only at hres
              injection hres with hres
              rw [← hres]
            | some new_st1 =>
              rw [hl] at hres
              simp only at hres
              injection hres with hres
              rw [← hres] at hfail
              exact Option.noConfusion hfail
    refine ⟨hold, ?_⟩
    intro ut hv ht
    unfold tiny_ptr_resize
    simp only [hv, ht, hres, hfail, hold, ne_eq, not_true_eq_false, if_false]
    cases ut
    simp only at hv ht
    rw [hv, ht]

/-- Witness for C7: the table `demo_nine` holds nine entries; its resize to capacity 1 (a single
bucket of eight slots) meets a saturated bucket, returns `NULL` and leaves `demo_nine` as it
was, and the facade call returns `-1` and still holds `demo_nine`. -/
theorem resize_failure_atomic_witness :
    simple_allocate demo_saturated 0 9 = some (demo_nine, 0) ∧
    simple_resize demo_nine 1 = some { old_st := some demo_nine, ret := none } ∧
    tiny_ptr_resize (some (some { variant := .TINY_PTR_SIMPLE, table := .simple demo_nine })) 1
      = some (some (some { variant := .TINY_PTR_SIMPLE, table := .simple demo_nine }), -1) :=
  ⟨by decide, by decide,
   ((resize_failure_atomic demo_nine 1).2 { old_st := some demo_nine, ret := none }
      (by decide) rfl).2 { variant := .TINY_PTR_SIMPLE, table := .simple demo_nine } rfl rfl⟩

/-- Claim C9, as amended.  Variable round trip when the handle fields hold the geometry: in
every state of a Variable table returned by
`variable_create total_capacity container_capacity level_count` with `container_capacity` below
`2^31`, at most 256 containers and at most 16 levels, when `variable_allocate` returns a handle
`h` other than `-1`, the decoded container index is the container selected by the hash of the
key, the decoded level and slot name the level table and the slot where the entry was stored,
and `variable_dereference` with the key and `h` returns the value. -/
theorem variable_round_trip (total_capacity container_capacity level_count : Nat)
    (vt : VariableTable) (hr : VarReach total_capacity container_capacity level_count vt)
    (hcap : container_capacity < 2147483648) (hcc : vt.container_count ≤ 256)
    (hlc : level_count ≤ 16) (key value : Int) (vt1 : VariableTable) (h : Int)
    (ha : variable_allocate vt key value = some (vt1, h)) (hne : h ≠ -1) :
    ∃ (cn : Container) (st : SimpleTable),
      handle_container h = variable_hash key % vt.container_count ∧
      vt1.containers[handle_container h]? = some cn ∧
      cn.levels[handle_level h]? = some st ∧
      handle_slot h < st.bucket_size ∧
      simple_dereference st key (handle_slot h : Int) = some value ∧
      variable_dereference vt1 key h = some value := by
  obtain ⟨hinv, _⟩ := VarReach_VInv _ _ _ vt hr hcap
  obtain ⟨cn, st, h1, h2, h3, h4, h5, h6, _⟩ :=
    variable_round_trip_VInv level_count vt vt1 key value h hinv hcc hlc ha hne
  exact ⟨cn, st, h1, h2, h3, h4, h5, h6⟩

/-- Witness for C9 as amended: on the table `variable_create 1 1 4`, allocating `(5, 7)` returns
the handle 0, which reads 7. -/
theorem variable_round_trip_witness :
    variable_create 1 1 4 = some (some demo_variable_small) ∧
    variable_allocate demo_variable_small 5 7 = some (demo_variable_small_one, 0) ∧
    ∃ (cn : Container) (st : SimpleTable),
      handle_container 0 = variable_hash 5 % demo_variable_small.container_count ∧
      demo_variable_small_one.containers[handle_container 0]? = some cn ∧
      cn.levels[handle_level 0]? = some st ∧
      handle_slot 0 < st.bucket_size ∧
      simple_dereference st 5 (handle_slot 0 : Int) = some 7 ∧
      variable_dereference demo_variable_small_one 5 0 = some 7 :=
  ⟨by decide, by decide,
   variable_round_trip 1 1 4 demo_variable_small (VarReach.create _ (by decide)) (by decide)
     (by decide) (by decide) 5 7 demo_variable_small_one 0 (by decide) (by decide)⟩

set_option maxRecDepth 1000000 in
set_option maxHeartbeats 4000000 in
/-- Counterexample to C9 as stated.  With 257 containers (`variable_create 257 1 1`) the key 364
selects container 256; `variable_allocate` stores `(364, 7)` there and returns the handle 0,
whose container field is `256 & 0xFF = 0`, so `variable_dereference` reads container 0 and
returns 0.  With 17 levels (`variable_create 1 1 17`), once the levels 0 to 15 are full the
entry `(5, 999)` goes to level 16 and the returned handle 0 has the level field `16 & 0xF = 0`,
so `variable_dereference` reads slot 0 of level 0 and returns 1. -/
theorem variable_handle_truncates :
    variable_create 257 1 1 = some (some demo_variable) ∧
    variable_hash 364 % 257 = 256 ∧
    variable_allocate demo_variable 364 7 = some (demo_variable_one, 0) ∧
    variable_dereference demo_variable_one 364 0 = some 0 ∧
    demo_levels_probe = some (0, 1) := by
  refine ⟨?_, ?_, ?_, ?_, ?_⟩ <;> decide

/-- Claim C10.  Facade Variable round trip with the default geometry: for every capacity from 1
to below `2^31`, the table that `tiny_ptr_create capacity TINY_PTR_VARIABLE lf` returns is a
Variable table created with `container_capacity = max(1, capacity / 4)` and four levels; in
every state of it the table has at most 256 containers, and when `tiny_ptr_allocate` returns a
handle `h` other than `-1`, the container field of `h` is the container selected by the hash,
`tiny_ptr_dereference` with the key and `h` returns the value, `tiny_ptr_free` succeeds and
`tiny_ptr_dereference` then returns 0. -/
theorem facade_variable_round_trip (capacity : Nat) (lf : Frac) (h1 : 1 ≤ capacity)
    (h2 : capacity < 2147483648) :
    (∀ ut0, tiny_ptr_create capacity .TINY_PTR_VARIABLE lf = some (some ut0) →
      ∃ vt0, ut0 = { variant := .TINY_PTR_VARIABLE, table := .variable vt0 } ∧
        VarReach capacity (if capacity / 4 = 0 then 1 else capacity / 4) 4 vt0) ∧
    (∀ vt, VarReach capacity (if capacity / 4 = 0 then 1 else capacity / 4) 4 vt →
      vt.container_count ≤ 256 ∧
      ∀ (key value : Int) (ut1 : Option tiny_ptr_table_t) (h : Int),
        tiny_ptr_allocate (some { variant := .TINY_PTR_VARIABLE, table := .variable vt })
          key value = some (ut1, h) →
        h ≠ -1 →
        handle_container h = variable_hash key % vt.container_count ∧
        tiny_ptr_dereference ut1 key h = some value ∧
        ∃ ut2, tiny_ptr_free ut1 key h = some ut2 ∧
          tiny_ptr_dereference ut2 key h = some 0) := by
  constructor
  · intro ut0 hc
    obtain ⟨vt0, e, hv⟩ := tiny_ptr_create_variable capacity lf ut0 hc
    exact ⟨vt0, e, VarReach.create vt0 hv⟩
  · intro vt hr
    have hcap : (if capacity / 4 = 0 then 1 else capacity / 4) < 2147483648 := by
      split <;> omega
    obtain ⟨hinv, hcount⟩ := VarReach_VInv _ _ _ vt hr hcap
    have hcc : vt.container_count ≤ 256 := by
      rw [hcount]
      have := default_container_count_le capacity h2
      omega
    refine ⟨hcc, ?_⟩
    intro key value ut1 h ha hne
    obtain ⟨vt1, hv, hut1⟩ := tiny_ptr_allocate_variable vt key value ut1 h ha
    obtain ⟨cn, st, g1, _, _, _, _, g6, vt2, g7, g8⟩ :=
      variable_round_trip_VInv 4 vt vt1 key value h hinv hcc (by decide) hv hne
    rw [hut1]
    refine ⟨g1, ?_, ?_⟩
    · unfold tiny_ptr_dereference
      exact g6
    · refine ⟨some { variant := .TINY_PTR_VARIABLE, table := .variable vt2 }, ?_, ?_⟩
      · unfold tiny_ptr_free
        dsimp only
        rw [g7]
        rfl
      · unfold tiny_ptr_dereference
        exact g8

/-- Witness for C10: the facade table of capacity 1; allocating `(5, 7)` returns the handle 0,
which reads 7 and, after `tiny_ptr_free`, reads 0. -/
theorem facade_variable_round_trip_witness :
    tiny_ptr_create 1 .TINY_PTR_VARIABLE double_0_9
      = some (some { variant := .TINY_PTR_VARIABLE, table := .variable demo_variable_small }) ∧
    tiny_ptr_allocate
        (some { variant := .TINY_PTR_VARIABLE, table := .variable demo_variable_small }) 5 7
      = some (some { variant := .TINY_PTR_VARIABLE,
                     table := .variable demo_variable_small_one }, 0) ∧
    handle_container 0 = variable_hash 5 % demo_variable_small.container_count ∧
    tiny_ptr_dereference
        (some { variant := .TINY_PTR_VARIABLE, table := .variable demo_variable_small_one })
        5 0 = some 7 ∧
    ∃ ut2, tiny_ptr_free
        (some { variant := .TINY_PTR_VARIABLE, table := .variable demo_variable_small_one })
        5 0 = some ut2 ∧
      tiny_ptr_dereference ut2 5 0 = some 0 :=
  ⟨by decide, by decide,
   ((facade_variable_round_trip 1 double_0_9 (by decide) (by decide)).2 demo_variable_small
      (VarReach.create _ (by decide))).2 5 7 _ 0 (by decide) (by decide)⟩

/-- Claim C11, as the code behaves.  Simple create validation: `simple_create_ex capacity
load_factor` returns `NULL` if and only if `capacity = 0` or `load_factor` is a number (not NaN)
outside `(0, 1]`; a NaN load factor, which is not in `(0, 1]`, passes the check `load_factor <= 0
|| load_factor > 1.0` and the call goes on to `(size_t) ceil(NaN)`, so it has no defined result
instead of `NULL`; and with valid arguments, a capacity below `2^31` and `capacity / load_factor
< 2^62` the call returns a table. -/
theorem simple_create_validation (capacity : Nat) (lf : Frac) :
    (simple_create_ex capacity lf = some none ↔
      (capacity = 0 ∨ (¬ is_nan lf ∧ ¬ in_unit_interval lf))) ∧
    (capacity ≠ 0 → is_nan lf →
      ¬ in_unit_interval lf ∧ simple_create_ex capacity lf = none) ∧
    (capacity ≠ 0 → in_unit_interval lf → capacity < 2147483648 →
      capacity * lf.den < 2 ^ 62 * lf.num.toNat →
      ∃ st, simple_create_ex capacity lf = some (some st)) := by
  refine ⟨?_, ?_, ?_⟩
  · rw [simple_create_ex_null, load_factor_guard_iff]
  · intro h1 hn
    refine ⟨fun hv => ?_, simple_create_ex_nan capacity lf h1 hn⟩
    have := hv.1
    have := hn.2
    omega
  · intro h1 hv hcap hq
    exact simple_create_ex_returns capacity lf h1 hv hcap hq

/-- Witness for C11: capacity 1 with the load factor 0.9 gives a table, the capacity 0 and the
load factors 5 and 0 give `NULL`, and capacity 1 with a NaN load factor gives no defined
result. -/
theorem simple_create_validation_witness :
    simple_create_ex 0 double_0_9 = some none ∧ simple_create_ex 1 ⟨5, 1⟩ = some none ∧
    simple_create_ex 1 ⟨0, 1⟩ = some none ∧
    (¬ in_unit_interval ⟨0, 0⟩ ∧ simple_create_ex 1 ⟨0, 0⟩ = none) ∧
    ∃ st, simple_create_ex 1 double_0_9 = some (some st) :=
  ⟨(simple_create_validation 0 double_0_9).1.mpr (Or.inl rfl),
   (simple_create_validation 1 ⟨5, 1⟩).1.mpr (Or.inr (by decide)),
   (simple_create_validation 1 ⟨0, 1⟩).1.mpr (Or.inr (by decide)),
   (simple_create_validation 1 ⟨0, 0⟩).2.1 (by decide) (by decide),
   (simple_create_validation 1 double_0_9).2.2 (by decide) (by decide) (by decide) (by decide)⟩

/-- Claim C12, as amended.  Argument validation at the facade: for `TINY_PTR_SIMPLE`,
`tiny_ptr_create` returns `NULL` whenever `capacity = 0` or `load_factor` is a number (not NaN)
outside `(0, 1]`; for `TINY_PTR_FIXED` it returns `NULL` when `capacity = 0`; for
`TINY_PTR_VARIABLE` the load factor is not used, so the result is the same for every load
factor. -/
theorem facade_create_validation (capacity : Nat) (lf lf2 : Frac) :
    ((capacity = 0 ∨ (¬ is_nan lf ∧ ¬ in_unit_interval lf)) →
      tiny_ptr_create capacity .TINY_PTR_SIMPLE lf = some none) ∧
    tiny_ptr_create 0 .TINY_PTR_FIXED lf = some none ∧
    tiny_ptr_create capacity .TINY_PTR_VARIABLE lf
      = tiny_ptr_create capacity .TINY_PTR_VARIABLE lf2 := by
  refine ⟨?_, ?_, rfl⟩
  · intro h
    have hn : simple_create_ex capacity lf = some none := by
      rw [simple_create_ex_null, load_factor_guard_iff]
      exact h
    unfold tiny_ptr_create
    simp only [hn]
  · rfl

/-- Witness for C12 as amended: a Simple facade is refused for capacity 0 and for the load
factor 5. -/
theorem facade_create_validation_witness :
    tiny_ptr_create 0 .TINY_PTR_SIMPLE double_0_9 = some none ∧
    tiny_ptr_create 1 .TINY_PTR_SIMPLE ⟨5, 1⟩ = some none :=
  ⟨(facade_create_validation 0 double_0_9 double_0_9).1 (Or.inl rfl),
   (facade_create_validation 1 ⟨5, 1⟩ ⟨5, 1⟩).1 (Or.inr (by decide))⟩

/-- Counterexample to C12 as stated: with the load factor 5, which is not in `(0, 1]`,
`tiny_ptr_create` returns a table for `TINY_PTR_VARIABLE` (capacity 1) and for `TINY_PTR_FIXED`
(capacity 2). -/
theorem facade_create_accepts_invalid :
    ¬ in_unit_interval ⟨5, 1⟩ ∧
    tiny_ptr_create 1 .TINY_PTR_VARIABLE ⟨5, 1⟩
      = some (some { variant := .TINY_PTR_VARIABLE, table := .variable demo_variable_small }) ∧
    tiny_ptr_create 2 .TINY_PTR_FIXED ⟨5, 1⟩
      = some (some { variant := .TINY_PTR_FIXED, table := .fixed demo_fixed }) := by
  refine ⟨?_, ?_, ?_⟩ <;> decide

/-- Claim C13.  Resize is Simple-only: on a facade table whose variant is not
`TINY_PTR_SIMPLE` (Fixed, Variable, or any other tag), `tiny_ptr_resize` returns `-1` for every
new capacity and leaves the pointer, the variant tag and the inner table as they were; on a
Simple facade on which `simple_resize` succeeds it returns `0` and the facade holds the table
that `simple_resize` returned. -/
theorem resize_simple_only (ut : tiny_ptr_table_t) (new_capacity : Nat) :
    (ut.variant ≠ .TINY_PTR_SIMPLE →
      tiny_ptr_resize (some (some ut)) new_capacity = some (some (some ut), -1)) ∧
    (∀ (st new_st : SimpleTable) (r : ResizeResult),
      ut.variant = .TINY_PTR_SIMPLE → ut.table = .simple st →
      simple_resize st new_capacity = some r → r.ret = some new_st →
      tiny_ptr_resize (some (some ut)) new_capacity
        = some (some (some { variant := .TINY_PTR_SIMPLE, table := .simple new_st }), 0)) := by
  constructor
  · intro hv
    unfold tiny_ptr_resize
    simp only [ne_eq, hv, not_false_eq_true, if_true]
  · intro st new_st r hv ht hres hret
    unfold tiny_ptr_resize
    simp only [hv, ht, hres, hret, ne_eq, not_true_eq_false, if_false]

/-- Witness for C13: resizing the Fixed facade over `demo_fixed` and the Variable facade over
`demo_variable_small` returns `-1` and changes nothing; resizing the Simple facade over
`demo_table_one` to capacity 8 returns `0` and the facade holds `demo_resized`. -/
theorem resize_simple_only_witness :
    tiny_ptr_resize (some (some { variant := .TINY_PTR_FIXED, table := .fixed demo_fixed })) 8
      = some (some (some { variant := .TINY_PTR_FIXED, table := .fixed demo_fixed }), -1) ∧
    tiny_ptr_resize
        (some (some { variant := .TINY_PTR_VARIABLE, table := .variable demo_variable_small })) 8
      = some (some (some { variant := .TINY_PTR_VARIABLE,
                           table := .variable demo_variable_small }), -1) ∧
    tiny_ptr_resize (some (some { variant := .TINY_PTR_SIMPLE, table := .simple demo_table_one })) 8
      = some (some (some { variant := .TINY_PTR_SIMPLE, table := .simple demo_resized }), 0) :=
  ⟨(resize_simple_only { variant := .TINY_PTR_FIXED, table := .fixed demo_fixed } 8).1
      (by decide),
   (resize_simple_only { variant := .TINY_PTR_VARIABLE, table := .variable demo_variable_small }
      8).1 (by decide),
   (resize_simple_only { variant := .TINY_PTR_SIMPLE, table := .simple demo_table_one } 8).2
      demo_table_one demo_resized { old_st := none, ret := some demo_resized } rfl rfl
      (by decide) rfl⟩

/-- Claim C14.  Null table handling: on a `NULL` table `tiny_ptr_allocate` and
`tiny_ptr_dereference` return `-1` for every key, value and handle, `tiny_ptr_free` does
nothing, and `tiny_ptr_resize` returns `-1` both on a null pointer and on a pointer to `NULL`,
leaving the pointer as it was. -/
theorem null_table_operations (key value handle : Int) (new_capacity : Nat) :
    tiny_ptr_allocate none key value = some (none, -1) ∧
    tiny_ptr_dereference none key handle = some (-1) ∧
    tiny_ptr_free none key handle = some none ∧
    tiny_ptr_resize none new_capacity = some (none, -1) ∧
    tiny_ptr_resize (some none) new_capacity = some (some none, -1) :=
  ⟨rfl, rfl, rfl, rfl, rfl⟩

/-- Claim C15, as amended.  For every variant, the handle that `tiny_ptr_allocate` returns is
either the failure value `-1` or non-negative.  `tiny_ptr_dereference` returns the stored
payload as it is, whatever its sign: on a well-formed facade table, after a successful
`tiny_ptr_allocate(key, value)` with handle `h`, `tiny_ptr_dereference(key, h)` returns `value`
for every signed `value`, the negative ones included. -/
theorem negative_return_convention (t : tiny_ptr_table_t) (key value : Int)
    (ut1 : Option tiny_ptr_table_t) (h : Int)
    (ha : tiny_ptr_allocate (some t) key value = some (ut1, h)) :
    (h = -1 ∨ 0 ≤ h) ∧
    (FacadeOK t → h ≠ -1 → tiny_ptr_dereference ut1 key h = some value) :=
  ⟨tiny_ptr_allocate_sign t key value ut1 h ha,
   fun hok hne => tiny_ptr_round_trip_ok t hok key value ut1 h ha hne⟩

/-- Witness for C15 as amended: on the Simple facade over `demo_table`, allocating `(5, -7)`
returns the handle 0 and dereferencing it returns `-7`. -/
theorem negative_return_convention_witness :
    tiny_ptr_allocate (some { variant := .TINY_PTR_SIMPLE, table := .simple demo_table }) 5 (-7)
      = some (some { variant := .TINY_PTR_SIMPLE, table := .simple demo_table_negative }, 0) ∧
    ((0 : Int) = -1 ∨ (0 : Int) ≤ 0) ∧
    tiny_ptr_dereference
      (some { variant := .TINY_PTR_SIMPLE, table := .simple demo_table_negative }) 5 0
      = some (-7) :=
  have ha : tiny_ptr_allocate
      (some { variant := .TINY_PTR_SIMPLE, table := .simple demo_table }) 5 (-7)
      = some (some { variant := .TINY_PTR_SIMPLE, table := .simple demo_table_negative }, 0) := by
    decide
  ⟨ha, (negative_return_convention _ 5 (-7) _ 0 ha).1,
   (negative_return_convention _ 5 (-7) _ 0 ha).2 demo_table_WF (by decide)⟩

/-- Counterexample to C15 as stated: on a non-null Simple facade a successful allocation of the
payload `-7` is read back by `tiny_ptr_dereference` as `-7`, a negative return although nothing
failed. -/
theorem dereference_returns_negative_payload :
    tiny_ptr_allocate (some { variant := .TINY_PTR_SIMPLE, table := .simple demo_table }) 5 (-7)
      = some (some { variant := .TINY_PTR_SIMPLE, table := .simple demo_table_negative }, 0) ∧
    tiny_ptr_dereference
      (some { variant := .TINY_PTR_SIMPLE, table := .simple demo_table_negative }) 5 0
      = some (-7) ∧
    (-7 : Int) < 0 := by
  refine ⟨?_, ?_, ?_⟩ <;> decide

/-- Claim C16.  Free is idempotent: on a well-formed Simple table, for every key `k` and slot
offset `s < bucket_size`, `simple_free(k, s)` returns a state in which the slot's key is `-1`,
its payload is 0 and its mask bit is set, and applying `simple_free(k, s)` to that state
returns exactly the same state; both calls complete without reporting anything. -/
theorem free_is_idempotent (st : SimpleTable) (hwf : WF st) (k : Int) (s : Nat)
    (hs : s < st.bucket_size) :
    ∃ st1 m1, simple_free st k (s : Int) = some st1 ∧
      simple_free st1 k (s : Int) = some st1 ∧
      st1.keys[bucket_nat st k * st.bucket_size + s]? = some (-1) ∧
      st1.store[bucket_nat st k * st.bucket_size + s]? = some 0 ∧
      st1.bucket_free[bucket_nat st k]? = some m1 ∧ m1.testBit s = true := by
  obtain ⟨st1, m1, h1, _, h2, h3, h4, h5, h6⟩ := simple_free_twice st hwf k s hs
  exact ⟨st1, m1, h1, h2, h3, h4, h5, h6⟩

/-- Witness for C16: freeing slot 0 of `demo_table_one` for key 5 gives `demo_table`, and
freeing it again gives `demo_table` again. -/
theorem free_is_idempotent_witness :
    simple_free demo_table_one 5 0 = some demo_table ∧
    simple_free demo_table 5 0 = some demo_table ∧
    ∃ st1 m1, simple_free demo_table_one 5 ((0 : Nat) : Int) = some st1 ∧
      simple_free st1 5 ((0 : Nat) : Int) = some st1 ∧
      st1.keys[bucket_nat demo_table_one 5 * demo_table_one.bucket_size + 0]? = some (-1) ∧
      st1.store[bucket_nat demo_table_one 5 * demo_table_one.bucket_size + 0]? = some 0 ∧
      st1.bucket_free[bucket_nat demo_table_one 5]? = some m1 ∧ m1.testBit 0 = true :=
  ⟨by decide, by decide, free_is_idempotent demo_table_one demo_table_one_WF 5 0 (by decide)⟩

/-- Claim C17.  Reallocation after free: on a well-formed Simple table, right after
`simple_free(k, h)` with `h < bucket_size`, `simple_allocate(k2, v2)` for a key `k2` of the same
bucket as `k` succeeds with a slot offset `h2 ≤ h`; `h2 = h` when no slot of that bucket below
`h` is free; and `simple_dereference(k2, h2)` returns `v2`. -/
theorem reallocate_after_free (st : SimpleTable) (hwf : WF st) (k k2 v2 : Int) (h : Nat)
    (hh : h < st.bucket_size) (hsame : bucket_of st k2 = bucket_of st k) :
    ∃ (st1 st2 : SimpleTable) (h2 m : Nat),
      simple_free st k (h : Int) = some st1 ∧
      simple_allocate st1 k2 v2 = some (st2, (h2 : Int)) ∧
      h2 ≤ h ∧
      st.bucket_free[bucket_nat st k]? = some m ∧
      ((∀ j, j < h → m.testBit j = false) → h2 = h) ∧
      simple_dereference st2 k2 (h2 : Int) = some v2 :=
  allocate_after_free st hwf k k2 v2 h hh ((bucket_of_same st hwf k k2).1 hsame)

/-- Witness for C17: in `demo_table_two` slots 0 and 1 are taken; after freeing slot 1 (key 9)
the allocation of `(11, 4)` returns slot 1 again and reads back 4. -/
theorem reallocate_after_free_witness :
    simple_free demo_table_two 9 1 = some demo_table_one ∧
    (simple_allocate demo_table_one 11 4).map Prod.snd = some 1 ∧
    ∃ (st1 st2 : SimpleTable) (h2 m : Nat),
      simple_free demo_table_two 9 ((1 : Nat) : Int) = some st1 ∧
      simple_allocate st1 11 4 = some (st2, (h2 : Int)) ∧
      h2 ≤ 1 ∧
      demo_table_two.bucket_free[bucket_nat demo_table_two 9]? = some m ∧
      ((∀ j, j < 1 → m.testBit j = false) → h2 = 1) ∧
      simple_dereference st2 11 (h2 : Int) = some 4 :=
  ⟨by decide, by decide,
   reallocate_after_free demo_table_two
     (simple_allocate_WF demo_table_one demo_table_one_WF 9 3 demo_table_two 1 (by decide))
     9 11 4 1 (by decide) (by decide)⟩

/-- Claim C20.  Allocation algorithm: on a well-formed Simple table whose bucket count is a
power of two (as every created table has), the bucket `b` that `simple_allocate` computes as
`hash & (bucket_count - 1)` is `hash(k, seed) mod bucket_count`; if `free_mask[b]` is non-zero,
`simple_allocate(k, v)` returns the index `s` of its lowest set bit, with `s < bucket_size` and
`b * bucket_size + s < total_slots`, and in the new state bit `s` of `free_mask[b]` is cleared,
`keys[b * bucket_size + s] = k` and `store[b * bucket_size + s] = v`. -/
theorem allocation_algorithm (st : SimpleTable) (hwf : WF st) (j : Nat)
    (hpow : st.bucket_count = 2 ^ j) (k v : Int) (m : Nat)
    (hm : st.bucket_free[hash_int_with_seed k st.hash_seed % st.bucket_count]? = some m)
    (hne : m ≠ 0) :
    bucket_of st k = ((hash_int_with_seed k st.hash_seed % st.bucket_count : Nat) : Int) ∧
    ∃ (st1 : SimpleTable) (s : Nat),
      simple_allocate st k v = some (st1, (s : Int)) ∧
      m.testBit s = true ∧ (∀ i, i < s → m.testBit i = false) ∧
      s < st.bucket_size ∧
      hash_int_with_seed k st.hash_seed % st.bucket_count * st.bucket_size + s
        < st.total_slots ∧
      st1.bucket_free[hash_int_with_seed k st.hash_seed % st.bucket_count]?
        = some (m &&& not_bit s) ∧
      (m &&& not_bit s).testBit s = false ∧
      st1.keys[hash_int_with_seed k st.hash_seed % st.bucket_count * st.bucket_size + s]?
        = some k ∧
      st1.store[hash_int_with_seed k st.hash_seed % st.bucket_count * st.bucket_size + s]?
        = some v :=
  simple_allocate_step st hwf j hpow k v m hm hne

/-- Witness for C20: in `demo_resized` (two buckets of eight slots) key 5 hashes to bucket 1,
whose mask is 254; the allocation of `(5, 8)` returns slot 1, the lowest set bit of 254. -/
theorem allocation_algorithm_witness :
    hash_int_with_seed 5 demo_resized.hash_seed % demo_resized.bucket_count = 1 ∧
    demo_resized.bucket_free[1]? = some 254 ∧
    (simple_allocate demo_resized 5 8).map Prod.snd = some 1 ∧
    bucket_of demo_resized 5 = 1 ∧
    ∃ (st1 : SimpleTable) (s : Nat),
      simple_allocate demo_resized 5 8 = some (st1, (s : Int)) ∧
      (254 : Nat).testBit s = true ∧ (∀ i, i < s → (254 : Nat).testBit i = false) ∧
      s < 8 ∧ 1 * 8 + s < 16 ∧
      st1.bucket_free[1]? = some (254 &&& not_bit s) ∧
      (254 &&& not_bit s).testBit s = false ∧
      st1.keys[1 * 8 + s]? = some 5 ∧
      st1.store[1 * 8 + s]? = some 8 :=
  ⟨by decide, by decide, by decide,
   allocation_algorithm demo_resized demo_resized_WF 1 rfl 5 8 254 (by decide) (by decide)⟩

/-- Claim C21, as amended.  Create geometry and initial state: for every capacity with
`1 ≤ capacity < 2^31` and every load factor in `(0, 1]` with `capacity / load_factor < 2^52`,
`simple_create_ex` returns a table with `bucket_size = clamp(⌊log₂ capacity⌋ / 2, 8, 32)`
(`L` below is `⌊log₂ capacity⌋`), `bucket_count` the least power of two with
`bucket_count · bucket_size ≥ min_slots`, where `min_slots` is the ceiling of the `double`
quotient `(double) capacity / load_factor` and lies between `⌊capacity / load_factor⌋` and
`⌈capacity / load_factor⌉`, `total_slots = bucket_count · bucket_size`, `hash_seed = capacity
XOR 0x9E3779B9` on 32 bits, every payload 0, every key `-1` and every free mask equal to the
low `bucket_size` bits. -/
theorem create_geometry (capacity : Nat) (lf : Frac) (h1 : 1 ≤ capacity)
    (h2 : capacity < 2147483648) (hlf : in_unit_interval lf)
    (hq : capacity * lf.den < 2 ^ 52 * lf.num.toNat) :
    ∃ (st : SimpleTable) (L ms : Nat), simple_create_ex capacity lf = some (some st) ∧
      2 ^ L ≤ capacity ∧ capacity < 2 ^ (L + 1) ∧ st.bucket_size = clamp (L / 2) 8 32 ∧
      min_slots_of capacity lf = some ms ∧
      capacity * lf.den / lf.num.toNat ≤ ms ∧
      ms ≤ (capacity * lf.den + lf.num.toNat - 1) / lf.num.toNat ∧
      (∃ j, st.bucket_count = 2 ^ j) ∧
      ms ≤ st.bucket_count * st.bucket_size ∧
      (∀ i, ms ≤ 2 ^ i * st.bucket_size → st.bucket_count ≤ 2 ^ i) ∧
      st.total_slots = st.bucket_count * st.bucket_size ∧
      st.hash_seed = (capacity % 4294967296) ^^^ 0x9E3779B9 ∧
      st.store = List.replicate st.total_slots 0 ∧
      st.keys = List.replicate st.total_slots (-1) ∧
      st.bucket_free = List.replicate st.bucket_count (2 ^ st.bucket_size - 1) := by
  obtain ⟨L, hlo, hhi, _, hB⟩ := bucket_size_of_floor capacity h1 h2
  have hn : 0 < lf.num.toNat := by have := hlf.1; omega
  have e52 : (2 : Nat) ^ 52 = 4503599627370496 := by norm_num
  have e62 : (2 : Nat) ^ 62 = 4611686018427387904 := by norm_num
  have e63 : (2 : Nat) ^ 63 = 9223372036854775808 := by norm_num
  have hq62 : capacity * lf.den < 2 ^ 62 * lf.num.toNat := by
    have : 2 ^ 52 * lf.num.toNat ≤ 2 ^ 62 * lf.num.toNat :=
      Nat.mul_le_mul_right _ (by rw [e52, e62]; decide)
    omega
  obtain ⟨ms, hmin, hms63⟩ := min_slots_of_bounded capacity lf hlf h2 hq62
  have hdiv : capacity * lf.den / lf.num.toNat < 4503599627370496 := by
    rw [← e52]
    exact (Nat.div_lt_iff_lt_mul hn).2 hq
  obtain ⟨b1, b2⟩ := min_slots_of_between capacity ms lf (by omega) hlf.1 hdiv hmin
  obtain ⟨st, hst⟩ := simple_create_ex_returns_of capacity _ ms lf (by omega)
    (load_factor_guard_of_unit lf hlf).2 hB hmin (by omega)
  obtain ⟨_, _, _, _, hstore, hkeys, hmasks, _, _, hseed⟩ :=
    simple_create_ex_spec capacity lf st hst
  obtain ⟨_, _, _, hB2⟩ := simple_create_ex_count capacity lf st hst
  obtain ⟨g1, g2, g3, g4⟩ := simple_create_ex_geometry capacity ms lf st hst hmin (by omega)
  rw [hB] at hB2
  injection hB2 with hB2
  exact ⟨st, L, ms, hst, hlo, hhi, hB2.symm, hmin, b1, b2, g1, g2, g3, g4, hseed, hstore,
    hkeys, hmasks⟩

/-- Witness for C21 as amended: capacity 18 with load factor 0.9 gives `demo_eighteen`, with
`⌊log₂ 18⌋ = 4`, bucket size 8, 20 minimum slots and 4 buckets. -/
theorem create_geometry_witness :
    simple_create_ex 18 double_0_9 = some (some demo_eighteen) ∧
    min_slots_of 18 double_0_9 = some 20 ∧
    ∃ (st : SimpleTable) (L ms : Nat), simple_create_ex 18 double_0_9 = some (some st) ∧
      2 ^ L ≤ 18 ∧ 18 < 2 ^ (L + 1) ∧ st.bucket_size = clamp (L / 2) 8 32 ∧
      min_slots_of 18 double_0_9 = some ms ∧
      18 * double_0_9.den / double_0_9.num.toNat ≤ ms ∧
      ms ≤ (18 * double_0_9.den + double_0_9.num.toNat - 1) / double_0_9.num.toNat ∧
      (∃ j, st.bucket_count = 2 ^ j) ∧
      ms ≤ st.bucket_count * st.bucket_size ∧
      (∀ i, ms ≤ 2 ^ i * st.bucket_size → st.bucket_count ≤ 2 ^ i) ∧
      st.total_slots = st.bucket_count * st.bucket_size ∧
      st.hash_seed = (18 % 4294967296) ^^^ 0x9E3779B9 ∧
      st.store = List.replicate st.total_slots 0 ∧
      st.keys = List.replicate st.total_slots (-1) ∧
      st.bucket_free = List.replicate st.bucket_count (2 ^ st.bucket_size - 1) :=
  ⟨by decide, by decide,
   create_geometry 18 double_0_9 (by decide) (by decide) (by decide) (by decide)⟩

/-- Counterexample to C21 as stated: for the capacity 262144 and the load factor
`2001599834386887 / 2^51` (the `double` nearest to `8/9`, which is in `(0, 1]`),
`⌈capacity / load_factor⌉` is 294913, but the `double` quotient rounds to 294912 and the table
that `simple_create_ex` returns has bucket size 9, 32768 buckets and 294912 slots:
`bucket_count · bucket_size` is below `⌈capacity / load_factor⌉`. -/
theorem create_slots_below_exact_ceiling :
    in_unit_interval ⟨2001599834386887, 2251799813685248⟩ ∧
    (262144 * 2251799813685248 + 2001599834386887 - 1) / 2001599834386887 = 294913 ∧
    ∃ st : SimpleTable,
      simple_create_ex 262144 ⟨2001599834386887, 2251799813685248⟩ = some (some st) ∧
      st.bucket_size = 9 ∧ st.bucket_count = 32768 ∧ st.total_slots = 294912 ∧
      st.bucket_count * st.bucket_size < 294913 := by
  have hB : bucket_size_of 262144 = some 9 := by decide
  have hmin : min_slots_of 262144 ⟨2001599834386887, 2251799813685248⟩ = some 294912 := by
    decide
  have hnp : next_power_of_two (((294912 + 9 - 1) % 18446744073709551616) / 9)
      = some 32768 := by decide
  obtain ⟨st, hst⟩ := simple_create_ex_returns_of 262144 9 294912
    ⟨2001599834386887, 2251799813685248⟩ (by decide) (by decide) hB hmin (by norm_num)
  obtain ⟨ms, hmin2, hnp2, hB2⟩ := simple_create_ex_count 262144 _ st hst
  obtain ⟨_, _, _, htot, _⟩ := simple_create_ex_spec 262144 _ st hst
  rw [hmin] at hmin2
  injection hmin2 with hmin2
  subst hmin2
  rw [hB] at hB2
  injection hB2 with hB2
  rw [← hB2, hnp] at hnp2
  injection hnp2 with hnp2
  rw [← hnp2, ← hB2] at htot
  refine ⟨by decide, by norm_num, st, hst, hB2.symm, hnp2.symm, ?_, ?_⟩
  · rw [htot]
  · rw [← hnp2, ← hB2]
    decide

/-- Claim C23.  Fixed allocation order and encoding: on a Fixed table with well-formed
sub-tables, `fixed_allocate(k, v)` stores the entry in the primary and returns `(s << 1) | 0`
when the primary's bucket for `k` has a free slot (`s` is the slot taken); otherwise it stores
in the secondary and returns `(s << 1) | 1`; it returns `-1` exactly when both buckets are
saturated, and then the table is unchanged.  Every successful handle `h` satisfies
`0 ≤ h < 64`, its bit 0 is the sub-table flag and `h >> 1` is the slot. -/
theorem fixed_allocation_order (ft : FixedTable) (hwf : WF ft.primary ∧ WF ft.secondary)
    (k v : Int) :
    ∃ mp ms : Nat,
      ft.primary.bucket_free[bucket_nat ft.primary k]? = some mp ∧
      ft.secondary.bucket_free[bucket_nat ft.secondary k]? = some ms ∧
      (mp ≠ 0 → ∃ (p1 : SimpleTable) (s : Nat) (h : Int),
        simple_allocate ft.primary k v = some (p1, (s : Int)) ∧
        mp.testBit s = true ∧ simple_dereference p1 k (s : Int) = some v ∧
        h = Int.lor ((s : Int) <<< 1) 0 ∧
        fixed_allocate ft k v = some ({ ft with primary := p1 }, h) ∧
        0 ≤ h ∧ h < 64 ∧ Int.land h 1 = 0 ∧ h >>> 1 = (s : Int)) ∧
      (mp = 0 → ms ≠ 0 → ∃ (s1 : SimpleTable) (s : Nat) (h : Int),
        simple_allocate ft.secondary k v = some (s1, (s : Int)) ∧
        ms.testBit s = true ∧ simple_dereference s1 k (s : Int) = some v ∧
        h = Int.lor ((s : Int) <<< 1) 1 ∧
        fixed_allocate ft k v = some ({ ft with secondary := s1 }, h) ∧
        0 ≤ h ∧ h < 64 ∧ Int.land h 1 = 1 ∧ h >>> 1 = (s : Int)) ∧
      (mp = 0 → ms = 0 → fixed_allocate ft k v = some (ft, -1)) ∧
      (∀ ft1 : FixedTable, fixed_allocate ft k v = some (ft1, -1) →
        mp = 0 ∧ ms = 0 ∧ ft1 = ft) := by
  obtain ⟨mp, ms, hmp, hms, h1, h2, h3⟩ := fixed_allocate_order ft hwf k v
  have r1 : mp ≠ 0 → ∃ (p1 : SimpleTable) (s : Nat) (h : Int),
      simple_allocate ft.primary k v = some (p1, (s : Int)) ∧
      mp.testBit s = true ∧ simple_dereference p1 k (s : Int) = some v ∧
      h = Int.lor ((s : Int) <<< 1) 0 ∧
      fixed_allocate ft k v = some ({ ft with primary := p1 }, h) ∧
      0 ≤ h ∧ h < 64 ∧ Int.land h 1 = 0 ∧ h >>> 1 = (s : Int) := by
    intro hne
    obtain ⟨p1, s, ha, hs, hbit, hd, hf⟩ := h1 hne
    have hs32 : s < 32 := lt_of_lt_of_le hs hwf.1.bucket_size_le
    obtain ⟨⟨_, f1, f2, f3, f4⟩, _⟩ := fixed_handle_fields s hs32
    exact ⟨p1, s, _, ha, hbit, hd, rfl, hf, f3, f4, f1, f2⟩
  have r2 : mp = 0 → ms ≠ 0 → ∃ (s1 : SimpleTable) (s : Nat) (h : Int),
      simple_allocate ft.secondary k v = some (s1, (s : Int)) ∧
      ms.testBit s = true ∧ simple_dereference s1 k (s : Int) = some v ∧
      h = Int.lor ((s : Int) <<< 1) 1 ∧
      fixed_allocate ft k v = some ({ ft with secondary := s1 }, h) ∧
      0 ≤ h ∧ h < 64 ∧ Int.land h 1 = 1 ∧ h >>> 1 = (s : Int) := by
    intro hz hne
    obtain ⟨s1, s, ha, hs, hbit, hd, hf⟩ := h2 hz hne
    have hs32 : s < 32 := lt_of_lt_of_le hs hwf.2.bucket_size_le
    obtain ⟨_, ⟨_, f1, f2, f3, f4⟩⟩ := fixed_handle_fields s hs32
    exact ⟨s1, s, _, ha, hbit, hd, rfl, hf, f3, f4, f1, f2⟩
  refine ⟨mp, ms, hmp, hms, r1, r2, h3, ?_⟩
  intro ft1 hf
  by_cases hp : mp = 0
  · by_cases hs : ms = 0
    · have := h3 hp hs
      rw [this] at hf
      injection hf with hf
      injection hf with hf1 _
      exact ⟨hp, hs, hf1.symm⟩
    · obtain ⟨s1, s, h, _, _, _, _, hfa, hge, _⟩ := r2 hp hs
      rw [hfa] at hf
      injection hf with hf
      injection hf with _ hf2
      omega
  · obtain ⟨p1, s, h, _, _, _, _, hfa, hge, _⟩ := r1 hp
    rw [hfa] at hf
    injection hf with hf
    injection hf with _ hf2
    omega

/-- Witness for C23: on `demo_fixed` the allocation of `(5, 7)` goes to the primary, slot 0,
and returns the handle 0. -/
theorem fixed_allocation_order_witness :
    fixed_allocate demo_fixed 5 7 = some ({ demo_fixed with primary := demo_table_one }, 0) ∧
    ∃ mp ms : Nat,
      demo_fixed.primary.bucket_free[bucket_nat demo_fixed.primary 5]? = some mp ∧
      demo_fixed.secondary.bucket_free[bucket_nat demo_fixed.secondary 5]? = some ms ∧
      (mp ≠ 0 → ∃ (p1 : SimpleTable) (s : Nat) (h : Int),
        simple_allocate demo_fixed.primary 5 7 = some (p1, (s : Int)) ∧
        mp.testBit s = true ∧ simple_dereference p1 5 (s : Int) = some 7 ∧
        h = Int.lor ((s : Int) <<< 1) 0 ∧
        fixed_allocate demo_fixed 5 7 = some ({ demo_fixed with primary := p1 }, h) ∧
        0 ≤ h ∧ h < 64 ∧ Int.land h 1 = 0 ∧ h >>> 1 = (s : Int)) ∧
      (mp = 0 → ms ≠ 0 → ∃ (s1 : SimpleTable) (s : Nat) (h : Int),
        simple_allocate demo_fixed.secondary 5 7 = some (s1, (s : Int)) ∧
        ms.testBit s = true ∧ simple_dereference s1 5 (s : Int) = some 7 ∧
        h = Int.lor ((s : Int) <<< 1) 1 ∧
        fixed_allocate demo_fixed 5 7 = some ({ demo_fixed with secondary := s1 }, h) ∧
        0 ≤ h ∧ h < 64 ∧ Int.land h 1 = 1 ∧ h >>> 1 = (s : Int)) ∧
      (mp = 0 → ms = 0 → fixed_allocate demo_fixed 5 7 = some (demo_fixed, -1)) ∧
      (∀ ft1 : FixedTable, fixed_allocate demo_fixed 5 7 = some (ft1, -1) →
        mp = 0 ∧ ms = 0 ∧ ft1 = demo_fixed) :=
  ⟨by decide, fixed_allocation_order demo_fixed ⟨demo_table_WF, demo_table_WF⟩ 5 7⟩

/-- Claim C25, as amended.  Variable cascade, for a Variable table with between 1 and 256
containers, each of `lc ≤ 16` well-formed levels with buckets of at most 16 slots:
`variable_allocate(k, v)` selects the container `c = hash(k, 0) mod container_count`, stores the
entry in the lowest-numbered level of `c` whose bucket for `k` is not saturated, leaves every
other container and every other level as it was, and returns `-1` exactly when every level of
`c` is saturated for `k` (the table is then unchanged); on success the handle is
`c·256 + level·16 + slot`: its bits 0-3 are the slot, bits 4-7 the level and bits 8-15 the
container index. -/
theorem variable_cascade (lc : Nat) (vt : VariableTable) (hinv : VInv lc vt)
    (hcc1 : 1 ≤ vt.container_count) (hcc : vt.container_count ≤ 256) (hlc : lc ≤ 16)
    (k v : Int) :
    ∃ cn : Container,
      vt.containers[hash_int_with_seed k 0 % vt.container_count]? = some cn ∧
      ((∃ (l s : Nat) (st st1 : SimpleTable) (h : Int), l < lc ∧
          cn.levels[l]? = some st ∧
          (∀ j sj, j < l → cn.levels[j]? = some sj → saturated_for sj k) ∧
          ¬ saturated_for st k ∧
          simple_allocate st k v = some (st1, (s : Int)) ∧
          variable_allocate vt k v
            = some ({ vt with containers :=
                        (vt.containers.set (hash_int_with_seed k 0 % vt.container_count)
                          { cn with levels := cn.levels.set l st1 }) }, h) ∧
          h = ((hash_int_with_seed k 0 % vt.container_count * 256 + l * 16 + s : Nat) : Int) ∧
          handle_slot h = s ∧ handle_level h = l ∧
          handle_container h = hash_int_with_seed k 0 % vt.container_count) ∨
        ((∀ (j : Nat) (sj : SimpleTable), cn.levels[j]? = some sj → saturated_for sj k) ∧
          variable_allocate vt k v = some (vt, -1))) := by
  obtain ⟨cn, hcn, hcase⟩ := variable_allocate_cascade lc vt hinv hcc1 (by omega) k v
  rw [variable_hash_eq] at hcn hcase
  have hc : hash_int_with_seed k 0 % vt.container_count < 256 :=
    lt_of_lt_of_le (Nat.mod_lt _ (by omega)) hcc
  refine ⟨cn, hcn, ?_⟩
  rcases hcase with ⟨l, s, st, st1, h1, h2, h3, h4, h5, h6, h7, h8⟩ | hfail
  · left
    have hl : l < 16 := by omega
    have hs : s < 16 := by omega
    have henc := variable_encode_nat _ l s hc hl hs
    obtain ⟨d1, d2, d3⟩ := variable_decode_nat _ l s hc hl hs
    rw [henc] at h8
    exact ⟨l, s, st, st1, _, h1, h2, h3, h4, h5, h8, rfl, d3, d2, d1⟩
  · right
    exact hfail

/-- Witness for C25 as amended: on `demo_variable_small` (one container of four levels) the
entry `(5, 7)` goes to level 0, slot 0 of container 0, and the handle is 0. -/
theorem variable_cascade_witness :
    variable_allocate demo_variable_small 5 7 = some (demo_variable_small_one, 0) ∧
    ∃ cn : Container,
      demo_variable_small.containers[
          hash_int_with_seed 5 0 % demo_variable_small.container_count]? = some cn ∧
      ((∃ (l s : Nat) (st st1 : SimpleTable) (h : Int), l < 4 ∧
          cn.levels[l]? = some st ∧
          (∀ j sj, j < l → cn.levels[j]? = some sj → saturated_for sj 5) ∧
          ¬ saturated_for st 5 ∧
          simple_allocate st 5 7 = some (st1, (s : Int)) ∧
          variable_allocate demo_variable_small 5 7
            = some ({ demo_variable_small with containers :=
                        (demo_variable_small.containers.set
                          (hash_int_with_seed 5 0 % demo_variable_small.container_count)
                          { cn with levels := cn.levels.set l st1 }) }, h) ∧
          h = ((hash_int_with_seed 5 0 % demo_variable_small.container_count * 256
                + l * 16 + s : Nat) : Int) ∧
          handle_slot h = s ∧ handle_level h = l ∧
          handle_container h
            = hash_int_with_seed 5 0 % demo_variable_small.container_count) ∨
        ((∀ (j : Nat) (sj : SimpleTable), cn.levels[j]? = some sj → saturated_for sj 5) ∧
          variable_allocate demo_variable_small 5 7 = some (demo_variable_small, -1))) :=
  ⟨by decide,
   variable_cascade 4 demo_variable_small
     (variable_create_VInv 1 1 4 demo_variable_small (by decide) (by decide))
     (by decide) (by decide) (by decide) 5 7⟩

set_option maxRecDepth 1000000 in
set_option maxHeartbeats 4000000 in
/-- Counterexample to C25 as stated: in the table of 257 containers the key 364 selects the
container `hash(364, 0) mod 257 = 256`; the returned handle is 0, so its bits 8-15 hold
`256 & 0xFF = 0` and not the container index 256. -/
theorem variable_container_field_wraps :
    demo_variable.container_count = 257 ∧
    hash_int_with_seed 364 0 % demo_variable.container_count = 256 ∧
    (variable_allocate demo_variable 364 7).map Prod.snd = some 0 ∧
    handle_container 0 = 0 ∧
    variable_encode 256 0 0 = 0 := by
  refine ⟨?_, ?_, ?_, ?_, ?_⟩ <;> decide

/-- Claim C26.  Hasher: for every `int` key and 32-bit seed, `hash_int_with_seed(key, seed)` is
the MurmurHash3 32-bit finalizer applied to `key XOR seed` (the key taken as a 32-bit word),
with all arithmetic modulo `2^32`, so the result is a 32-bit word; and the inline mixer that
`variable_allocate` uses equals `hash_int_with_seed(key, 0)`. -/
theorem hasher_is_murmur_finalizer (key : Int) (seed : Nat) (hs : seed < 4294967296) :
    hash_int_with_seed key seed = murmur3_fmix32 ((to_uint32 key ^^^ seed) % 4294967296) ∧
    hash_int_with_seed key seed < 4294967296 ∧
    variable_hash key = hash_int_with_seed key 0 :=
  ⟨(hash_int_with_seed_eq key seed hs).1, (hash_int_with_seed_eq key seed hs).2,
   variable_hash_eq key⟩

/-- Witness for C26: key 1 with seed 0 hashes to `0x514E28B7`, the value of the MurmurHash3
finalizer at 1. -/
theorem hasher_is_murmur_finalizer_witness :
    hash_int_with_seed 1 0 = 0x514E28B7 ∧ murmur3_fmix32 1 = 0x514E28B7 ∧
    hash_int_with_seed 1 0 = murmur3_fmix32 ((to_uint32 1 ^^^ 0) % 4294967296) ∧
    hash_int_with_seed 1 0 < 4294967296 ∧
    variable_hash 1 = hash_int_with_seed 1 0 :=
  ⟨by decide, by decide, hasher_is_murmur_finalizer 1 0 (by decide)⟩

/-- Claim C28.  Bucket size never reaches the bitmask or handle limits: for every capacity with
`1 ≤ capacity < 2^31`, `simple_create_ex` chooses a `bucket_size` in `[8, 15]`, exactly 8 when
`capacity < 2^18`; so the initial mask `(1 << bucket_size) - 1` stays within 32 bits, and every
slot offset that `simple_allocate` returns on a well-formed table of that bucket size is at
most 14 and equals its own low four bits, the slot field of the Variable handle. -/
theorem bucket_size_within_limits (capacity : Nat) (h1 : 1 ≤ capacity)
    (h2 : capacity < 2147483648) :
    ∃ B, bucket_size_of capacity = some B ∧ 8 ≤ B ∧ B ≤ 15 ∧
      (capacity < 262144 → B = 8) ∧ (1 <<< B) - 1 < 4294967296 ∧
      (∀ (lf : Frac) (st : SimpleTable),
        simple_create_ex capacity lf = some (some st) → st.bucket_size = B) ∧
      (∀ (st st1 : SimpleTable) (k v h : Int), WF st → st.bucket_size = B →
        simple_allocate st k v = some (st1, h) → h ≠ -1 →
        0 ≤ h ∧ h ≤ 14 ∧ Int.land h 0xF = h ∧ (handle_slot h : Int) = h) := by
  obtain ⟨B, hB, h8, h15, hsmall, hmask⟩ := bucket_size_of_limits capacity h1 h2
  refine ⟨B, hB, h8, h15, hsmall, hmask, ?_, ?_⟩
  · intro lf st hc
    obtain ⟨_, _, _, hB2⟩ := simple_create_ex_count capacity lf st hc
    rw [hB] at hB2
    injection hB2 with hB2
    exact hB2.symm
  · intro st st1 k v h hwf hbs ha hne
    exact slot_offset_fits st hwf (by omega) k v st1 h ha hne

/-- Witness for C28: capacity 1 gives the bucket size 8, as in `demo_table`. -/
theorem bucket_size_within_limits_witness :
    bucket_size_of 1 = some 8 ∧ demo_table.bucket_size = 8 ∧
    ∃ B, bucket_size_of 1 = some B ∧ 8 ≤ B ∧ B ≤ 15 ∧
      ((1 : Nat) < 262144 → B = 8) ∧ (1 <<< B) - 1 < 4294967296 ∧
      (∀ (lf : Frac) (st : SimpleTable),
        simple_create_ex 1 lf = some (some st) → st.bucket_size = B) ∧
      (∀ (st st1 : SimpleTable) (k v h : Int), WF st → st.bucket_size = B →
        simple_allocate st k v = some (st1, h) → h ≠ -1 →
        0 ≤ h ∧ h ≤ 14 ∧ Int.land h 0xF = h ∧ (handle_slot h : Int) = h) :=
  ⟨by decide, rfl, bucket_size_within_limits 1 (by decide) (by decide)⟩

end TinyPointers
